import Mathlib

/-!
Verification of the object utilities of the js-utils repository
(src/src/objects/equal.ts and src/src/objects/index.ts).

JavaScript values are modelled with an explicit heap: a value is either a
primitive or a reference (an address into a list of heap nodes), so that
reference identity (`===`), shared mutable structure and reference cycles
are all expressible.  Numbers are modelled as integers plus a separate NaN
value (the claims under study do not depend on fractional or IEEE
behaviour beyond NaN propagation).  Object property keys are modelled as
plain (non-index) string keys in insertion order, which is the iteration
order `Object.keys` delivers for such keys.
-/

namespace JsUtils

/-- Primitive JavaScript values: `undefined`, `null`, booleans, (non-NaN)
numbers, the NaN number and strings. -/
inductive JSPrim where
  | undef
  | jsnull
  | bool (b : Bool)
  | num (n : Int)
  | nan
  | str (s : String)
deriving DecidableEq, Repr

/-- A JavaScript value: a primitive, or a reference to a heap node. -/
inductive JSVal where
  | prim (p : JSPrim)
  | ref (a : Nat)
deriving DecidableEq, Repr

/-- Heap nodes: the object kinds of the repository that the claims
exercise.  `obj` is a plain record (own enumerable string-keyed data
properties in insertion order), `arr` an Array, `set` a Set (elements in
insertion order, distinct by identity), `map` a Map (entries in
insertion order, keys distinct by identity), `date` a Date (epoch
milliseconds), `weakmap`/`weakset` the weak collections.  RegExp,
ArrayBuffer, typed-array, Error and File nodes — which `equal` and
`clone` also branch on — are outside the model; statements about
`clone`'s deep-equality are scoped accordingly (on Error the program
drops own enumerable properties, on Map it already fails inside the
model, see the Map counterexample). -/
inductive JSObj where
  | obj (fields : List (String × JSVal))
  | arr (elems : List JSVal)
  | set (elems : List JSVal)
  | map (entries : List (JSVal × JSVal))
  | date (ms : Int)
  | weakmap (entries : List (JSVal × JSVal))
  | weakset (elems : List JSVal)
deriving DecidableEq, Repr

abbrev Heap := List JSObj

/-- Node stored at an address.  A dangling address (never produced by the
modelled operations on closed heaps) reads as an empty record. -/
def nodeAt (h : Heap) (a : Nat) : JSObj := h.getD a (.obj [])

/-- JavaScript strict equality `===` on model values: reference identity
for objects, value identity for primitives, except that NaN is not `===`
to anything (including itself). -/
def sEq (a b : JSVal) : Bool :=
  match a, b with
  | .prim .nan, _ => false
  | _, .prim .nan => false
  | x, y => x == y

/-- `x == null` in JavaScript: true exactly for `null` and `undefined`. -/
def isNullish : JSVal → Bool
  | .prim .undef => true
  | .prim .jsnull => true
  | _ => false

/-- `typeof` on model values (`typeof null` is "object"). -/
def typeofJS : JSVal → String
  | .prim .undef => "undefined"
  | .prim .jsnull => "object"
  | .prim (.bool _) => "boolean"
  | .prim (.num _) => "number"
  | .prim .nan => "number"
  | .prim (.str _) => "string"
  | .ref _ => "object"

/-- `Number.isNaN` on model values. -/
def isNaNJS : JSVal → Bool
  | .prim .nan => true
  | _ => false

/-- `Object.prototype.toString` tag of a heap node. -/
def tagOfObj : JSObj → String
  | .obj _ => "[object Object]"
  | .arr _ => "[object Array]"
  | .set _ => "[object Set]"
  | .map _ => "[object Map]"
  | .date _ => "[object Date]"
  | .weakmap _ => "[object WeakMap]"
  | .weakset _ => "[object WeakSet]"

/-- Own-property lookup in a record's field list (first match). -/
def getKey : List (String × JSVal) → String → Option JSVal
  | [], _ => none
  | (k', v) :: rest, k => if k' = k then some v else getKey rest k

/-- `Object.keys` of a heap node: record field names in insertion order;
empty for every other node kind (Dates, Sets and weak collections have no
own enumerable properties). -/
def keysOf : JSObj → List String
  | .obj f => f.map Prod.fst
  | _ => []

/-- The record fields of a node (empty for non-record nodes). -/
def fieldsOf : JSObj → List (String × JSVal)
  | .obj f => f
  | _ => []

/-- The values a node makes reachable for the structural traversals of
`equal` / `clone` / `deepMerge`: record field values, array elements, set
elements.  Dates carry none; the traversals never descend into weak
collections (`equal` sees no own keys on them, `clone` discards their
contents). -/
def childVals : JSObj → List JSVal
  | .obj f => f.map Prod.snd
  | .arr l => l
  | .set l => l
  | .map e => e.map Prod.fst ++ e.map Prod.snd
  | .date _ => []
  | .weakmap _ => []
  | .weakset _ => []

/-!  The traversal cache of `_equal`.  In the source it is a
`Map<any, Set<any>>` mutated by `cache.set(a, new Set([b]))` /
`cache.set(b, new Set([a]))` on entry to a container pair and
`cache.delete(a)` / `cache.delete(b)` on exit.  A key is inserted only
when not yet present and is always mapped to a singleton, and every entry
added by a call is removed before that call returns, so the imperative
map is modelled functionally: sub-comparisons receive the extended
association list and siblings receive the caller's unextended one, which
realises exactly the set-on-entry / delete-on-exit discipline. -/
abbrev Cache := List (Nat × Nat)

/-- `cache.has(x)` / `cache.get(x)` combined: the partner recorded for
address `x`, if any. -/
def clook : Cache → Nat → Option Nat
  | [], _ => none
  | (k, p) :: rest, x => if k = x then some p else clook rest x

/-- Options of `equal` (the `comparators` map is not modelled: all claims
under study concern comparator-free invocations, for which the
`options.comparators` branch of `_equal` is dead code). -/
structure EqualOptions where
  strict : Bool := true
  fastJSON : Bool := false
  maxDepth : Nat := 100
deriving DecidableEq, Repr

/-! JSON serialization, for the `fastJSON` fast path.  `JSON.stringify`
output is modelled as a JSON tree rather than text: the concrete
rendering is injective on trees (each number, string and bracket
structure renders uniquely), so equality of rendered texts coincides with
equality of trees. -/

/-- JSON trees. -/
inductive Json where
  | null
  | bool (b : Bool)
  | num (n : Int)
  | str (s : String)
  | arr (elems : List Json)
  | obj (fields : List (String × Json))

/-- Element-wise comparison of serialized arrays. -/
def jsonBeqArr (go : Json → Json → Bool) : List Json → List Json → Bool
  | [], [] => true
  | x :: xs, y :: ys => go x y && jsonBeqArr go xs ys
  | _, _ => false

/-- Field-wise comparison of serialized records (names and values, in
order, as the rendered texts would compare). -/
def jsonBeqObj (go : Json → Json → Bool) :
    List (String × Json) → List (String × Json) → Bool
  | [], [] => true
  | (k1, x) :: xs, (k2, y) :: ys => k1 == k2 && go x y && jsonBeqObj go xs ys
  | _, _ => false

/-- Equality of JSON trees (the comparison of the rendered texts), with a
fuel bound on tree depth; a tree produced by `jsonOf` with fuel `f` has
depth at most `f`, so the fuel at the comparison site never runs out. -/
def jsonBeq : Nat → Json → Json → Bool
  | 0, _, _ => false
  | fuel + 1, a, b =>
    match a, b with
    | .null, .null => true
    | .bool x, .bool y => x == y
    | .num x, .num y => x == y
    | .str x, .str y => x == y
    | .arr l1, .arr l2 => jsonBeqArr (jsonBeq fuel) l1 l2
    | .obj f1, .obj f2 => jsonBeqObj (jsonBeq fuel) f1 f2
    | _, _ => false

/-- `Date.prototype.toJSON`: the ISO-8601 rendering, abstracted as an
injective function of the epoch milliseconds. -/
def isoOfMs (ms : Int) : String := "iso:" ++ toString ms

/-- Serialize the elements of an array: `undefined` elements render as
`null`, a failing element aborts the whole serialization. -/
def jsonArr (go : JSVal → Option Json) : List JSVal → Option (List Json)
  | [] => some []
  | v :: rest =>
    let jv := if v = .prim .undef then some Json.null else go v
    match jv, jsonArr go rest with
    | some j, some js => some (j :: js)
    | _, _ => none

/-- Serialize record fields: fields whose value is `undefined` are
omitted from the output, as `JSON.stringify` does. -/
def jsonFields (go : JSVal → Option Json) :
    List (String × JSVal) → Option (List (String × Json))
  | [] => some []
  | (k, v) :: rest =>
    if v = .prim .undef then jsonFields go rest
    else
      match go v, jsonFields go rest with
      | some j, some js => some ((k, j) :: js)
      | _, _ => none

/-- `JSON.stringify` on a model value, as a JSON tree.  `none` models a
thrown `TypeError`: on closed heaps, with fuel `h.length + 1` the fuel
can run out only on a reference cycle, which is exactly when
`JSON.stringify` throws.  NaN renders as `null`; Sets and weak
collections render as empty objects (no own enumerable properties);
Dates render via `toJSON`. -/
def jsonOf : Nat → Heap → JSVal → Option Json
  | 0, _, _ => none
  | fuel + 1, h, v =>
    match v with
    | .prim .undef => none
    | .prim .jsnull => some .null
    | .prim .nan => some .null
    | .prim (.bool b) => some (.bool b)
    | .prim (.num n) => some (.num n)
    | .prim (.str s) => some (.str s)
    | .ref a =>
      match nodeAt h a with
      | .obj fields => (jsonFields (jsonOf fuel h) fields).map Json.obj
      | .arr l => (jsonArr (jsonOf fuel h) l).map Json.arr
      | .set _ => some (.obj [])
      | .map _ => some (.obj [])
      | .weakmap _ => some (.obj [])
      | .weakset _ => some (.obj [])
      | .date ms => some (.str (isoOfMs ms))

/-! The deep-equality comparator `_equal` and its kind-specific helpers.
Termination is by explicit fuel; the public wrapper supplies fuel
`maxDepth + 2`, which can never be exhausted because every recursive call
increments `depth` and the depth check throws as soon as `depth`
exceeds `maxDepth` (the fuel-0 branch returns the same error, and is
unreachable from the wrapper). -/

/-- `_compareArrays` loop body: pairwise comparison, first failure or
error stops the loop. -/
def eqList (go : JSVal → JSVal → Except String Bool) :
    List JSVal → List JSVal → Except String Bool
  | [], [] => .ok true
  | x :: xs, y :: ys =>
    match go x y with
    | .error e => .error e
    | .ok false => .ok false
    | .ok true => eqList go xs ys
  | _, _ => .ok false

/-- `_compareSets` inner loop: scan `b`'s elements in insertion order for
the first one equal to `x`. -/
def eqSetFind (go : JSVal → JSVal → Except String Bool) (x : JSVal) :
    List JSVal → Except String Bool
  | [] => .ok false
  | y :: ys =>
    match go x y with
    | .error e => .error e
    | .ok true => .ok true
    | .ok false => eqSetFind go x ys

/-- `_compareSets` outer loop: every element of `a` must find some match
in `b`. -/
def eqSetAll (go : JSVal → JSVal → Except String Bool)
    (bl : List JSVal) : List JSVal → Except String Bool
  | [] => .ok true
  | x :: xs =>
    match eqSetFind go x bl with
    | .error e => .error e
    | .ok false => .ok false
    | .ok true => eqSetAll go bl xs

/-- `_compareObjects` loop: for each key of `a` (in order), `b` must have
the key as an own property and the values must compare equal. -/
def eqFields (go : JSVal → JSVal → Except String Bool)
    (bf : List (String × JSVal)) : List (String × JSVal) → Except String Bool
  | [] => .ok true
  | (k, va) :: rest =>
    match getKey bf k with
    | none => .ok false
    | some vb =>
      match go va vb with
      | .error e => .error e
      | .ok false => .ok false
      | .ok true => eqFields go bf rest

/-- `Map.prototype.get` (and `has`, via `isSome`): the value stored for
an identical key, if any — Map keys are matched by identity, which is
value equality of the model's `JSVal`. -/
def mapGet : List (JSVal × JSVal) → JSVal → Option JSVal
  | [], _ => none
  | (k', v) :: rest, k => if k' = k then some v else mapGet rest k

/-- `_compareMaps` loop: for each entry of `a` (in insertion order), `b`
must have the identical key and the stored values must compare equal. -/
def eqMapAll (go : JSVal → JSVal → Except String Bool)
    (be : List (JSVal × JSVal)) : List (JSVal × JSVal) → Except String Bool
  | [] => .ok true
  | (k, v) :: rest =>
    match mapGet be k with
    | none => .ok false
    | some w =>
      match go v w with
      | .error e => .error e
      | .ok false => .ok false
      | .ok true => eqMapAll go be rest

/-- `_compareObjects`: key-count check, then the key loop. -/
def eqObjBody (go : JSVal → JSVal → Except String Bool)
    (af bf : List (String × JSVal)) : Except String Bool :=
  if af.length ≠ bf.length then .ok false else eqFields go bf af

/-- The kind-specific structural descent of `_equal` (the `switch` on the
toString tag, entered after the pair has been recorded in the cache).
In the model every record node is plain (prototype `Object.prototype`),
so `_isPlainObject` holds for every `[object Object]` value and the
`fastJSON` branch is guarded by the option alone.  WeakMap/WeakSet pairs
take the default branch: same tag means same constructor, and
`_compareObjects` sees no own keys on either side, so the result is
`true`. -/
def eqDescend (go : JSVal → JSVal → Except String Bool) (h : Heap)
    (fj : Bool) (x y : Nat) : Except String Bool :=
  match nodeAt h x, nodeAt h y with
  | .date m1, .date m2 => .ok (m1 == m2)
  | .arr l1, .arr l2 =>
    if l1.length ≠ l2.length then .ok false else eqList go l1 l2
  | .set s1, .set s2 =>
    if s1.length ≠ s2.length then .ok false else eqSetAll go s2 s1
  | .map e1, .map e2 =>
    if e1.length ≠ e2.length then .ok false else eqMapAll go e2 e1
  | .obj f1, .obj f2 =>
    if fj then
      match jsonOf (h.length + 1) h (.ref x), jsonOf (h.length + 1) h (.ref y) with
      | some ja, some jb => .ok (jsonBeq (h.length + 1) ja jb)
      | _, _ => eqObjBody go f1 f2
    else eqObjBody go f1 f2
  | .weakmap _, .weakmap _ => .ok true
  | .weakset _, .weakset _ => .ok true
  | _, _ => .ok false

/-- `_equal`: depth check, identity check, null/undefined handling,
typeof mismatch, NaN-aware primitive comparison, toString-tag mismatch,
cycle-guard lookup, then recording of the pair and structural descent. -/
def eqVal : Nat → Heap → JSVal → JSVal → Cache → Nat → EqualOptions →
    Except String Bool
  | 0, _, _, _, _, _, _ => .error "Maximum comparison depth exceeded"
  | fuel + 1, h, a, b, cache, depth, o =>
    if o.maxDepth < depth then .error "Maximum comparison depth exceeded"
    else if sEq a b then .ok true
    else if isNullish a || isNullish b then
      .ok (if o.strict then sEq a b else isNullish a && isNullish b)
    else if typeofJS a ≠ typeofJS b then .ok false
    else if typeofJS a ≠ "object" then .ok (isNaNJS a && isNaNJS b)
    else
      match a, b with
      | .ref x, .ref y =>
        if tagOfObj (nodeAt h x) ≠ tagOfObj (nodeAt h y) then .ok false
        else
          match clook cache x with
          | some p => .ok (p == y)
          | none =>
            match clook cache y with
            | some p => .ok (p == x)
            | none =>
              eqDescend
                (fun v w =>
                  eqVal fuel h v w ((x, y) :: (y, x) :: cache) (depth + 1) o)
                h o.fastJSON x y
      | _, _ => .ok false

/-- The public `equal(a, b, options)`. -/
def equalJS (h : Heap) (a b : JSVal) (o : EqualOptions) : Except String Bool :=
  eqVal (o.maxDepth + 2) h a b [] 0 o

/-! `clone(obj, options)` from src/src/objects/index.ts.  Allocation is
modelled by appending nodes to the heap; `clone` returns the extended
heap together with the cloned value.  `none` models the unbounded
recursion on cyclic input (a documented limitation of the source): fuel
at least the height of the value always suffices.  Model scope: records
carry plain data properties (no accessors, symbols or non-enumerable
descriptors) and there are no File/Blob/ArrayBuffer/typed-array/Map/
RegExp/Error nodes, which the claims under study do not exercise. -/

/-- Clone each element of a list in order, threading the heap. -/
def cloneList (go : Heap → JSVal → Option (Heap × JSVal)) :
    Heap → List JSVal → Option (Heap × List JSVal)
  | h, [] => some (h, [])
  | h, v :: rest =>
    match go h v with
    | none => none
    | some (h1, v') =>
      match cloneList go h1 rest with
      | none => none
      | some (h2, vs) => some (h2, v' :: vs)

/-- Clone record fields in order (each own data property is re-defined on
the fresh object with the same key, its value cloned when `deep`). -/
def cloneFields (go : Heap → JSVal → Option (Heap × JSVal)) :
    Heap → List (String × JSVal) → Option (Heap × List (String × JSVal))
  | h, [] => some (h, [])
  | h, (k, v) :: rest =>
    match go h v with
    | none => none
    | some (h1, v') =>
      match cloneFields go h1 rest with
      | none => none
      | some (h2, fs) => some (h2, (k, v') :: fs)

/-- Clone Map entries in order: both the key and the value of each entry
are cloned when `deep` (so object keys of the clone are fresh objects,
never identical to the original keys). -/
def cloneEntries (go : Heap → JSVal → Option (Heap × JSVal)) :
    Heap → List (JSVal × JSVal) → Option (Heap × List (JSVal × JSVal))
  | h, [] => some (h, [])
  | h, (k, v) :: rest =>
    match go h k with
    | none => none
    | some (h1, k') =>
      match go h1 v with
      | none => none
      | some (h2, v') =>
        match cloneEntries go h2 rest with
        | none => none
        | some (h3, es) => some (h3, (k', v') :: es)

/-- `clone(value, {deep})`: primitives returned unchanged; Dates copied
by instant; arrays, Sets and records rebuilt as fresh nodes, their
contents cloned recursively when `deep` and shared by reference when
not; WeakMap/WeakSet replaced by newly constructed empty ones. -/
def cloneF : Nat → Heap → JSVal → Bool → Option (Heap × JSVal)
  | 0, _, _, _ => none
  | fuel + 1, h, v, deep =>
    match v with
    | .prim p => some (h, .prim p)
    | .ref a =>
      match nodeAt h a with
      | .date ms => some (h ++ [.date ms], .ref h.length)
      | .arr l =>
        if deep then
          match cloneList (fun h' v' => cloneF fuel h' v' deep) h l with
          | none => none
          | some (h1, l') => some (h1 ++ [.arr l'], .ref h1.length)
        else some (h ++ [.arr l], .ref h.length)
      | .set l =>
        if deep then
          match cloneList (fun h' v' => cloneF fuel h' v' deep) h l with
          | none => none
          | some (h1, l') => some (h1 ++ [.set l'], .ref h1.length)
        else some (h ++ [.set l], .ref h.length)
      | .map e =>
        if deep then
          match cloneEntries (fun h' v' => cloneF fuel h' v' deep) h e with
          | none => none
          | some (h1, es) => some (h1 ++ [.map es], .ref h1.length)
        else some (h ++ [.map e], .ref h.length)
      | .weakmap _ => some (h ++ [.weakmap []], .ref h.length)
      | .weakset _ => some (h ++ [.weakset []], .ref h.length)
      | .obj fields =>
        if deep then
          match cloneFields (fun h' v' => cloneF fuel h' v' deep) h fields with
          | none => none
          | some (h1, fs) => some (h1 ++ [.obj fs], .ref h1.length)
        else some (h ++ [.obj fields], .ref h.length)

/-! `softMerge` and `deepMerge` from src/src/objects/index.ts. -/

/-- `isObject(item)`: truthy, of object type, and not an array. -/
def isObjectRef (h : Heap) : JSVal → Bool
  | .prim _ => false
  | .ref a =>
    match nodeAt h a with
    | .arr _ => false
    | _ => true

/-- `Array.isArray` on a value. -/
def isArrRef (h : Heap) : JSVal → Bool
  | .prim _ => false
  | .ref a =>
    match nodeAt h a with
    | .arr _ => true
    | _ => false

/-- The address of a reference (callers establish the value is a ref). -/
def addrOf : JSVal → Nat
  | .ref a => a
  | .prim _ => 0

/-- Property assignment `fields[k] = v`: update in place keeping the
key's position if present, otherwise append at the end (JavaScript
insertion-order semantics). -/
def setKey : List (String × JSVal) → String → JSVal → List (String × JSVal)
  | [], k, v => [(k, v)]
  | (k', v') :: rest, k, v =>
    if k' = k then (k, v) :: rest else (k', v') :: setKey rest k v

/-- `target[k] = v` on the heap: defined for record nodes (the merge
claims under study only assign onto records). -/
def objSetKey (h : Heap) (a : Nat) (k : String) (v : JSVal) : Option Heap :=
  match nodeAt h a with
  | .obj fields => some (h.set a (.obj (setKey fields k v)))
  | _ => none

/-- One spread argument of `prevValue.concat(...currentValue)`: `concat`
flattens array-valued arguments one level and appends every other
argument as a single element. -/
def spreadOne (h : Heap) (v : JSVal) : List JSVal :=
  match v with
  | .ref a =>
    match nodeAt h a with
    | .arr l => l
    | _ => [v]
  | _ => [v]

/-- All spread arguments of `prevValue.concat(...currentValue)`. -/
def spreadConcat (h : Heap) : List JSVal → List JSVal
  | [] => []
  | v :: rest => spreadOne h v ++ spreadConcat h rest

/-- The body of `deepMerge`'s key loop for one key `k` of the incoming
record `rb`: read `prevValue` (`result[k]`, `undefined` when absent) and
`currentValue` (`obj[k]`) from the current heap; concatenate when both
are arrays (allocating the fresh `concat` result), recursively merge
when both are `isObject`, otherwise assign the incoming value. -/
def dmKey (go : Heap → Nat → Nat → Option Heap) (h : Heap) (ra rb : Nat)
    (k : String) : Option Heap :=
  let prev := (getKey (fieldsOf (nodeAt h ra)) k).getD (.prim .undef)
  let cur := (getKey (fieldsOf (nodeAt h rb)) k).getD (.prim .undef)
  if isArrRef h prev && isArrRef h cur then
    let merged := spreadOne h prev ++ spreadConcat h (spreadOne h cur)
    objSetKey (h ++ [.arr merged]) ra k (.ref h.length)
  else if isObjectRef h prev && isObjectRef h cur then
    match go h (addrOf prev) (addrOf cur) with
    | none => none
    | some h1 => objSetKey h1 ra k prev
  else objSetKey h ra k cur

/-- `deepMerge`'s loop over the snapshot of `Object.keys(obj)`. -/
def dmKeys (go : Heap → Nat → Nat → Option Heap) (ra rb : Nat) :
    Heap → List String → Option Heap
  | h, [] => some h
  | h, k :: rest =>
    match dmKey go h ra rb k with
    | none => none
    | some h1 => dmKeys go ra rb h1 rest

/-- One binary `deepMerge(result, obj)` step: iterate the keys of `obj`,
mutating `result`'s node in place.  `none` models the unbounded
recursion on cyclic records (and assignment onto a non-record target,
outside the modelled scope); fuel at least the record-nesting height of
the first argument always suffices. -/
def dm2 : Nat → Heap → Nat → Nat → Option Heap
  | 0, _, _, _ => none
  | fuel + 1, h, ra, rb => dmKeys (dm2 fuel) ra rb h (keysOf (nodeAt h rb))

/-- The left-to-right fold of `deepMerge(...objects)` over the remaining
arguments; the accumulator address stays `objects[0]`. -/
def dmFold (fuel : Nat) (a0 : Nat) : Heap → List Nat → Option (Heap × JSVal)
  | h, [] => some (h, .ref a0)
  | h, b :: rest =>
    match dm2 fuel h a0 b with
    | none => none
    | some h1 => dmFold fuel a0 h1 rest

/-- The public `deepMerge(...objects)`: raises when fewer than two
arguments are supplied, otherwise folds the remaining records into the
first and returns it. -/
def deepMergeJS (fuel : Nat) (h : Heap) (args : List Nat) :
    Except String (Option (Heap × JSVal)) :=
  match args with
  | a0 :: a1 :: rest => .ok (dmFold fuel a0 h (a1 :: rest))
  | _ => .error "deepMerge: this function expects at least 2 objects to be provided"

/-- `softMerge`'s loop over `Object.keys(base)`: build the fields of the
fresh result record in base-key order, threading the heap through the
recursive merges of the deep-record case. -/
def smKeys (go : Heap → Nat → Nat → Option (Heap × Nat)) (deep : Bool)
    (valsF : List (String × JSVal)) :
    Heap → List (String × JSVal) → Option (Heap × List (String × JSVal))
  | h, [] => some (h, [])
  | h, (k, baseV) :: rest =>
    match getKey valsF k with
    | none =>
      match smKeys go deep valsF h rest with
      | none => none
      | some (h2, fs) => some (h2, (k, baseV) :: fs)
    | some valV =>
      if deep && isObjectRef h baseV && isObjectRef h valV then
        match go h (addrOf baseV) (addrOf valV) with
        | none => none
        | some (h1, r') =>
          match smKeys go deep valsF h1 rest with
          | none => none
          | some (h2, fs) => some (h2, (k, .ref r') :: fs)
      else
        match smKeys go deep valsF h rest with
        | none => none
        | some (h2, fs) => some (h2, (k, valV) :: fs)

/-- `softMerge(base, values, {deep})`: a fresh record holding exactly the
keys of `base`, taking the value from `values` when present there
(recursively soft-merged when `deep` and both sides are `isObject`),
and from `base` otherwise.  The result node is allocated once its
fields are assembled. -/
def smF : Nat → Heap → Nat → Nat → Bool → Option (Heap × Nat)
  | 0, _, _, _, _ => none
  | fuel + 1, h, base, vals, deep =>
    match smKeys (fun h' x y => smF fuel h' x y deep) deep
        (fieldsOf (nodeAt h vals)) h (fieldsOf (nodeAt h base)) with
    | none => none
    | some (h1, fs) => some (h1 ++ [.obj fs], h1.length)

/-! Well-formedness and structural predicates. -/

/-- A value's references stay below `len`. -/
def valClosed (len : Nat) : JSVal → Bool
  | .ref a => a < len
  | .prim _ => true

/-- No duplicates in a list of keys. -/
def nodupKeys : List String → Bool
  | [] => true
  | k :: rest => !rest.contains k && nodupKeys rest

/-- No duplicates in a list of values (set elements are distinct by
identity, which is value equality of the model's `JSVal`). -/
def nodupVals : List JSVal → Bool
  | [] => true
  | v :: rest => !rest.contains v && nodupVals rest

/-- Node-level well-formedness: children closed under the heap bound,
record keys duplicate-free, set elements identity-distinct. -/
def nodeWF (len : Nat) (node : JSObj) : Bool :=
  (childVals node).all (valClosed len) &&
    (match node with
     | .obj f => nodupKeys (f.map Prod.fst)
     | .set l => nodupVals l
     | .map e => nodupVals (e.map Prod.fst)
     | _ => true)

/-- Heap well-formedness, as JavaScript guarantees it: every node closed,
every record with distinct keys, every set with identity-distinct
elements. -/
def heapWF (h : Heap) : Bool := h.all (nodeWF h.length)

/-- Closure alone: every node's children stay inside the heap (weaker
than `heapWF`; what extension-stability arguments need). -/
def heapClosed (h : Heap) : Bool :=
  h.all (fun node => (childVals node).all (valClosed h.length))

/-- No Set node anywhere in the heap. -/
def setFree (h : Heap) : Bool :=
  h.all (fun node => match node with | .set _ => false | _ => true)

/-- No Map node anywhere in the heap.  `clone`'s deep-equality guarantee
fails on Maps: the clone's keys are fresh objects while `_compareMaps`
looks keys up by identity. -/
def mapFree (h : Heap) : Bool :=
  h.all (fun node => match node with | .map _ => false | _ => true)

/-- `heightLeB h v n`: the container-nesting height of `v` is at most
`n`; every chain of containment steps from `v` has fewer than `n`
container levels.  A value on a reference cycle satisfies no bound. -/
def heightLeB (h : Heap) : JSVal → Nat → Bool
  | .prim _, _ => true
  | .ref _, 0 => false
  | .ref a, n + 1 => (childVals (nodeAt h a)).all (fun c => heightLeB h c n)

/-- Reachability of an address from a value through container children
(the shared-mutable-structure relation: mutating the node at a reachable
address is observable from the value). -/
inductive Reaches (h : Heap) : JSVal → Nat → Prop where
  | here (a : Nat) : Reaches h (.ref a) a
  | step (a : Nat) (c : JSVal) (t : Nat) :
      c ∈ childVals (nodeAt h a) → Reaches h c t → Reaches h (.ref a) t

/-- The frame contract of one (possibly recursive) `deepMerge` step from
heap `h` to heap `h'` with accumulator `x` and incoming record `y`:
the result heap stays closed and only grows; every pre-existing node
that changed is reachable from one of the two records; and reachability
of pre-existing addresses never grows beyond what the two records
already reached (so mutation stays confined as the fold proceeds). -/
def MergeFrame (h h' : Heap) (x y : Nat) : Prop :=
  heapClosed h' = true ∧ h.length ≤ h'.length ∧
  (∀ i, i < h.length → nodeAt h' i ≠ nodeAt h i →
    Reaches h (.ref x) i ∨ Reaches h (.ref y) i) ∧
  (∀ v t, t < h.length → Reaches h' v t →
    Reaches h v t ∨ Reaches h (.ref x) t ∨ Reaches h (.ref y) t)

/-- Structural correspondence between a value and its deep clone, in one
heap: primitives coincide; Dates carry the same instant; records carry
the same keys in the same order with corresponding values; arrays and
Sets correspond element-wise in insertion order; a WeakMap/WeakSet
corresponds to the empty one (clone drops their contents). -/
inductive DeepSim (h : Heap) : JSVal → JSVal → Prop where
  | prim (p : JSPrim) : DeepSim h (.prim p) (.prim p)
  | date (a b : Nat) (ms : Int) :
      nodeAt h a = .date ms → nodeAt h b = .date ms →
      DeepSim h (.ref a) (.ref b)
  | wmap (a b : Nat) (e : List (JSVal × JSVal)) :
      nodeAt h a = .weakmap e → nodeAt h b = .weakmap [] →
      DeepSim h (.ref a) (.ref b)
  | wset (a b : Nat) (e : List JSVal) :
      nodeAt h a = .weakset e → nodeAt h b = .weakset [] →
      DeepSim h (.ref a) (.ref b)
  | arrN (a b : Nat) (l l' : List JSVal) :
      nodeAt h a = .arr l → nodeAt h b = .arr l' →
      l.length = l'.length →
      (∀ i (hi : i < l.length) (hi' : i < l'.length),
        DeepSim h (l.get ⟨i, hi⟩) (l'.get ⟨i, hi'⟩)) →
      DeepSim h (.ref a) (.ref b)
  | setN (a b : Nat) (l l' : List JSVal) :
      nodeAt h a = .set l → nodeAt h b = .set l' →
      l.length = l'.length →
      (∀ i (hi : i < l.length) (hi' : i < l'.length),
        DeepSim h (l.get ⟨i, hi⟩) (l'.get ⟨i, hi'⟩)) →
      DeepSim h (.ref a) (.ref b)
  | objN (a b : Nat) (f f' : List (String × JSVal)) :
      nodeAt h a = .obj f → nodeAt h b = .obj f' →
      f.map Prod.fst = f'.map Prod.fst →
      (∀ i (hi : i < f.length) (hi' : i < f'.length),
        DeepSim h (f.get ⟨i, hi⟩).2 (f'.get ⟨i, hi'⟩).2) →
      DeepSim h (.ref a) (.ref b)

/-- The node a shallow (`deep: false`) `clone` allocates: the same
contents shared by reference, except that weak collections come out
empty. -/
def shallowCopy : JSObj → JSObj
  | .obj f => .obj f
  | .arr l => .arr l
  | .set l => .set l
  | .map e => .map e
  | .date ms => .date ms
  | .weakmap _ => .weakmap []
  | .weakset _ => .weakset []

/-- Every record node of the heap carries duplicate-free keys (the part
of `heapWF` that the key-by-key record comparison relies on). -/
def keysWF (h : Heap) : Prop :=
  ∀ x, nodupKeys (keysOf (nodeAt h x)) = true

/-- The contract of one deep `clone` step from heap `h` and value `v` to
heap `h'` and value `v'`: the result heap is closed and only grows, no
pre-existing node changes, the clone is a closed value all of whose
reachable addresses are freshly allocated, it corresponds structurally
to the input, and record keys stay duplicate-free. -/
def CloneOut (h : Heap) (v : JSVal) (h' : Heap) (v' : JSVal) : Prop :=
  heapClosed h' = true ∧ h.length ≤ h'.length ∧
  (∀ i, i < h.length → nodeAt h' i = nodeAt h i) ∧
  valClosed h'.length v' = true ∧
  (∀ t, Reaches h' v' t → h.length ≤ t) ∧
  DeepSim h' v v' ∧
  (keysWF h → keysWF h') ∧
  mapFree h' = true

/-- The shape of the traversal cache at every state `_equal` can reach:
pairs are recorded in the two directions adjacently, and a pair is
recorded only when neither member already appears as a key (the code
consults both `cache.get(a)` and `cache.get(b)` before inserting). -/
inductive CacheOK : Cache → Prop where
  | nil : CacheOK []
  | push (x y : Nat) (c : Cache) :
      clook c x = none → clook c y = none → x ≠ y → CacheOK c →
      CacheOK ((x, y) :: (y, x) :: c)

/-- `v` is JSON-faithful within height `n`: its structure consists only
of records, arrays and primitives other than `undefined` and NaN, nested
at most `n` deep.  On such values the serialized form determines the
structural-comparison outcome; `undefined` (dropped from records,
rendered as `null` in arrays), NaN (rendered as `null`), Dates (rendered
as strings) and Sets / weak collections (rendered as empty objects) all
lose information. -/
def jsonFaithful (h : Heap) : JSVal → Nat → Bool
  | .prim .undef, _ => false
  | .prim .nan, _ => false
  | .prim _, _ => true
  | .ref _, 0 => false
  | .ref a, n + 1 =>
    match nodeAt h a with
    | .obj f => (f.map Prod.snd).all (fun c => jsonFaithful h c n)
    | .arr l => l.all (fun c => jsonFaithful h c n)
    | _ => false

/-! Concrete heaps used by the counterexamples and witnesses below. -/

/-- Two Sets with the same size whose elements are structurally equal
only in one matching direction: `A = Set{x1, x2}` with `x1 = {}` and
`x2 = {a: 1}`, and `B = Set{y1, y2}` with `y1 = {}` and `y2 = {}`
(distinct empty records are distinct Set elements, since Set uniqueness
is by reference identity). -/
def setPairHeap : Heap :=
  [.obj [], .obj [("a", .prim (.num 1))], .obj [], .obj [],
   .set [.ref 0, .ref 1], .set [.ref 2, .ref 3]]

/-- A self-referential array `a0 = [a0]` (address 0) compared against
the two-step structure `b0 = [c]` (address 1), `c = [a0]` (address 2). -/
def cycleHeap : Heap := [.arr [.ref 0], .arr [.ref 2], .arr [.ref 0]]

/-- Two records with the same key-value pairs inserted in different
orders: `{a: 1, b: 2}` and `{b: 2, a: 1}`. -/
def keyOrderHeap : Heap :=
  [.obj [("a", .prim (.num 1)), ("b", .prim (.num 2))],
   .obj [("b", .prim (.num 2)), ("a", .prim (.num 1))]]

/-- `{a: [1]}` (record 0, array 1) and `{a: [[2]]}` (record 2, array 3
whose single element is the array 4 = `[2]`). -/
def nestedArrHeap : Heap :=
  [.obj [("a", .ref 1)], .arr [.prim (.num 1)],
   .obj [("a", .ref 3)], .arr [.ref 4], .arr [.prim (.num 2)]]

/-- `{a: {x: 1}}` (record 0, record 1) and `{a: {y: 2}}` (record 2,
record 3). -/
def recPairHeap : Heap :=
  [.obj [("a", .ref 1)], .obj [("x", .prim (.num 1))],
   .obj [("a", .ref 3)], .obj [("y", .prim (.num 2))]]

/-- `{a: [1]}` (record 0, array 1) and `{a: [2]}` (record 2, array 3). -/
def arrPairHeap : Heap :=
  [.obj [("a", .ref 1)], .arr [.prim (.num 1)],
   .obj [("a", .ref 3)], .arr [.prim (.num 2)]]

/-- `{a: 1, b: 2}` (record 0) and `{b: 3, c: 4}` (record 1). -/
def softPairHeap : Heap :=
  [.obj [("a", .prim (.num 1)), ("b", .prim (.num 2))],
   .obj [("b", .prim (.num 3)), ("c", .prim (.num 4))]]

/-- A record with a nested array and a Date: `{a: [1], d: Date(99)}`. -/
def cloneDemoHeap : Heap :=
  [.obj [("a", .ref 1), ("d", .ref 2)], .arr [.prim (.num 1)], .date 99]

/-- A populated WeakMap (address 0) and WeakSet (address 1). -/
def weakDemoHeap : Heap :=
  [.weakmap [(.prim (.num 1), .prim (.num 2))], .weakset [.prim (.num 3)]]

/-- Two distinct one-element arrays `[1]` and `[1]`. -/
def deepDemoHeap : Heap := [.arr [.prim (.num 1)], .arr [.prim (.num 1)]]

/-- A Map with an object key: address 1 is `new Map([[{}, 1]])`,
whose single key is the empty record at address 0. -/
def mapPairHeap : Heap :=
  [.obj [], .map [(.ref 0, .prim (.num 1))]]

/-- Two records whose common key holds a Date: address 2 is
`{k: new Date(1)}` and address 3 is `{k: new Date(2)}`. -/
def softDateHeap : Heap :=
  [.date 1, .date 2, .obj [("k", .ref 0)], .obj [("k", .ref 1)]]

/-- `deepMerge` scenario: the accumulator at address 0 is the
self-referential record `a = {x: a, y: 5}` and the incoming record at
address 1 is `b = {x: {y: {n: 1}}, y: {n: 2}}` (with `{y: {n: 1}}` at
address 2, `{n: 1}` at address 3 and `{n: 2}` at address 4). -/
def dmCexHeap : Heap :=
  [.obj [("x", .ref 0), ("y", .prim (.num 5))],
   .obj [("x", .ref 2), ("y", .ref 4)],
   .obj [("y", .ref 3)],
   .obj [("n", .prim (.num 1))],
   .obj [("n", .prim (.num 2))]]

/-! ## Theorems -/

/-- C7: `equal(x, x)` under default options returns true for every value
`x`, on every heap — including heaps with reference cycles (for `x = x`
the identity check fires before any descent, and NaN takes the NaN-aware
primitive branch), and the call terminates with that boolean rather than
erroring. -/
theorem equal_refl (h : Heap) (v : JSVal) : equalJS h v v {} = .ok true := by
  have key : ∀ w : JSVal, sEq w w = true ∨ w = .prim .nan := by
    intro w
    cases w with
    | ref a => left; simp [sEq]
    | prim p => cases p <;> simp [sEq]
  rcases key v with hs | hn
  · show eqVal (101 + 1) h _ _ [] 0 _ = .ok true
    simp [eqVal, hs]
  · subst hn; rfl

/-- C1, counterexample: `equal` is not symmetric.  With the
comparator-free default options, the Set pair of `setPairHeap` compares
false in one direction and true in the other: every element of
`Set{{}, {}}` finds a structurally equal counterpart in
`Set{{}, {a:1}}`, but `{a:1}` finds none in `Set{{}, {}}` — the O(n²)
search matches elements one-sidedly, without pairing them off. -/
theorem equal_symm_set_cex :
    equalJS setPairHeap (.ref 4) (.ref 5) {} = .ok false ∧
    equalJS setPairHeap (.ref 5) (.ref 4) {} = .ok true := by
  exact ⟨rfl, rfl⟩

/-- C3, counterexample: the fast serialized path is not a pure
optimization.  The records `{a:1, b:2}` and `{b:2, a:1}` are plain,
structurally equal records (equal with the fast path disabled), but
their serializations list the keys in different orders, so with
`fastJSON` enabled `equal` returns false. -/
theorem equal_fastjson_cex :
    equalJS keyOrderHeap (.ref 0) (.ref 1) { fastJSON := false } = .ok true ∧
    equalJS keyOrderHeap (.ref 0) (.ref 1) { fastJSON := true } = .ok false := by
  exact ⟨rfl, rfl⟩

/-- C5, counterexample: concatenation does not preserve incoming
elements.  In `deepMerge({a:[1]}, {a:[[2]]})` the incoming element is
the array `[2]` (the reference at address 4), but
`prevValue.concat(...currentValue)` spreads the incoming array into
`concat` arguments, which flattens array-valued arguments one level: the
merged value for `a` is the two-number array `[1, 2]`, not the claimed
`[1, [2]]` with the incoming element preserved in second position. -/
theorem deepMerge_concat_cex :
    deepMergeJS 5 nestedArrHeap [0, 2] =
      .ok (some
        ([.obj [("a", .ref 5)], .arr [.prim (.num 1)],
          .obj [("a", .ref 3)], .arr [.ref 4], .arr [.prim (.num 2)],
          .arr [.prim (.num 1), .prim (.num 2)]], .ref 0)) ∧
    getKey (fieldsOf (nodeAt nestedArrHeap 2)) "a" = some (.ref 3) ∧
    nodeAt nestedArrHeap 3 = .arr [.ref 4] ∧
    [JSVal.prim (.num 1), .prim (.num 2)] ≠ [JSVal.prim (.num 1), .ref 4] := by
  refine ⟨rfl, rfl, rfl, by decide⟩

/-- C2, counterexample: an unrecorded pair does not always proceed to
the structural descent.  In the comparison of `a0 = [a0]` against
`b0 = [c]`, `c = [a0]` (heap `cycleHeap`), the sub-comparison of the
pair `(a0, c)` runs with traversal state `{a0 ↦ b0, b0 ↦ a0}`: the pair
`(a0, c)` is not recorded in either direction, yet `_equal` returns
false straight from the guard (`cache.get(a0).has(c)` is false), while
the kind-specific descent on that pair (with the pair recorded) returns
true.  The whole comparison `equal(a0, b0)` accordingly returns false. -/
theorem equal_guard_cex :
    clook [(0, 1), (1, 0)] 0 ≠ some 2 ∧
    clook [(0, 1), (1, 0)] 2 ≠ some 0 ∧
    eqVal 10 cycleHeap (.ref 0) (.ref 2) [(0, 1), (1, 0)] 1 {} = .ok false ∧
    eqDescend
      (fun v w => eqVal 9 cycleHeap v w ((0, 2) :: (2, 0) :: [(0, 1), (1, 0)]) 2 {})
      cycleHeap false 0 2 = .ok true ∧
    equalJS cycleHeap (.ref 0) (.ref 1) {} = .ok false := by
  refine ⟨by decide, by decide, rfl, rfl, rfl⟩

/-- C2, amended: the guard of `_equal`, for a container pair that passed
the tag check.  The guard returns true exactly when the pair is recorded
in the traversal state in the direction the code consults (`a`'s entry
first, `b`'s entry only when `a` has none); when either value is
recorded against a third value the guard returns false without
descending; only when neither value is recorded does the comparison
proceed to the kind-specific descent, with the pair recorded in both
directions for the sub-comparisons (and, the cache being threaded
functionally, removed again for the siblings). -/
theorem equal_guard_spec (fuel : Nat) (h : Heap) (x y : Nat) (c : Cache)
    (d : Nat) (o : EqualOptions) (hd : d ≤ o.maxDepth) (hxy : x ≠ y)
    (htag : tagOfObj (nodeAt h x) = tagOfObj (nodeAt h y)) :
    (clook c x = some y →
      eqVal (fuel + 1) h (.ref x) (.ref y) c d o = .ok true) ∧
    (∀ p, clook c x = some p → p ≠ y →
      eqVal (fuel + 1) h (.ref x) (.ref y) c d o = .ok false) ∧
    (clook c x = none → clook c y = some x →
      eqVal (fuel + 1) h (.ref x) (.ref y) c d o = .ok true) ∧
    (clook c x = none → ∀ p, clook c y = some p → p ≠ x →
      eqVal (fuel + 1) h (.ref x) (.ref y) c d o = .ok false) ∧
    (clook c x = none → clook c y = none →
      eqVal (fuel + 1) h (.ref x) (.ref y) c d o =
        eqDescend
          (fun v w => eqVal fuel h v w ((x, y) :: (y, x) :: c) (d + 1) o)
          h o.fastJSON x y) := by
  have hdep : ¬ o.maxDepth < d := Nat.not_lt.mpr hd
  have hse : sEq (.ref x) (.ref y) = false := by
    simp [sEq]
    exact fun hc => absurd hc hxy
  refine ⟨?_, ?_, ?_, ?_, ?_⟩
  · intro hx
    simp [eqVal, hdep, hse, isNullish, typeofJS, htag, hx]
  · intro p hx hp
    simp [eqVal, hdep, hse, isNullish, typeofJS, htag, hx]
    simpa using hp
  · intro hx hy
    simp [eqVal, hdep, hse, isNullish, typeofJS, htag, hx, hy]
  · intro hx p hy hp
    simp [eqVal, hdep, hse, isNullish, typeofJS, htag, hx, hy]
    simpa using hp
  · intro hx hy
    simp [eqVal, hdep, hse, isNullish, typeofJS, htag, hx, hy]

/-- Witness for `equal_guard_spec`, at the sub-comparison state of
`equal_guard_cex`'s run: `x`'s entry maps to a third value, so the
guard returns false. -/
theorem equal_guard_spec_witness :
    ((1 : Nat) ≤ ({} : EqualOptions).maxDepth ∧ (0 : Nat) ≠ 2 ∧
      tagOfObj (nodeAt cycleHeap 0) = tagOfObj (nodeAt cycleHeap 2)) ∧
    eqVal 10 cycleHeap (.ref 0) (.ref 2) [(0, 1), (1, 0)] 1 {} = .ok false :=
  ⟨⟨by decide, by decide, rfl⟩,
    (equal_guard_spec 9 cycleHeap 0 2 [(0, 1), (1, 0)] 1 {}
      (by decide) (by decide) rfl).2.1 1 rfl (by decide)⟩

/-! Lemmas: within the height bound, every comparison returns a boolean
(no depth error).  Only the left value's height matters: the structural
descent always recurses on a child of the left value. -/

theorem eqList_isOk (go : JSVal → JSVal → Except String Bool)
    (l1 l2 : List JSVal) (H : ∀ v ∈ l1, ∀ w, ∃ r, go v w = .ok r) :
    ∃ r, eqList go l1 l2 = .ok r := by
  induction l1 generalizing l2 with
  | nil => cases l2 <;> exact ⟨_, rfl⟩
  | cons x xs ih =>
    cases l2 with
    | nil => exact ⟨_, rfl⟩
    | cons y ys =>
      obtain ⟨r, hr⟩ := H x (by simp) y
      cases r with
      | false => exact ⟨false, by simp [eqList, hr]⟩
      | true =>
        obtain ⟨r', hr'⟩ := ih ys (fun v hv w => H v (by simp [hv]) w)
        exact ⟨r', by simp [eqList, hr, hr']⟩

theorem eqSetFind_isOk (go : JSVal → JSVal → Except String Bool)
    (x : JSVal) (bl : List JSVal) (H : ∀ w, ∃ r, go x w = .ok r) :
    ∃ r, eqSetFind go x bl = .ok r := by
  induction bl with
  | nil => exact ⟨_, rfl⟩
  | cons y ys ih =>
    obtain ⟨r, hr⟩ := H y
    cases r with
    | true => exact ⟨true, by simp [eqSetFind, hr]⟩
    | false =>
      obtain ⟨r', hr'⟩ := ih
      exact ⟨r', by simp [eqSetFind, hr, hr']⟩

theorem eqSetAll_isOk (go : JSVal → JSVal → Except String Bool)
    (bl al : List JSVal) (H : ∀ v ∈ al, ∀ w, ∃ r, go v w = .ok r) :
    ∃ r, eqSetAll go bl al = .ok r := by
  induction al with
  | nil => exact ⟨_, rfl⟩
  | cons x xs ih =>
    obtain ⟨r, hr⟩ := eqSetFind_isOk go x bl (H x (by simp))
    cases r with
    | false => exact ⟨false, by simp [eqSetAll, hr]⟩
    | true =>
      obtain ⟨r', hr'⟩ := ih (fun v hv w => H v (by simp [hv]) w)
      exact ⟨r', by simp [eqSetAll, hr, hr']⟩

theorem eqFields_isOk (go : JSVal → JSVal → Except String Bool)
    (bf af : List (String × JSVal))
    (H : ∀ p ∈ af, ∀ w, ∃ r, go p.2 w = .ok r) :
    ∃ r, eqFields go bf af = .ok r := by
  induction af with
  | nil => exact ⟨_, rfl⟩
  | cons p rest ih =>
    obtain ⟨k, va⟩ := p
    cases hbk : getKey bf k with
    | none => exact ⟨false, by simp [eqFields, hbk]⟩
    | some vb =>
      obtain ⟨r, hr⟩ := H (k, va) (by simp) vb
      cases r with
      | false => exact ⟨false, by simp [eqFields, hbk, hr]⟩
      | true =>
        obtain ⟨r', hr'⟩ := ih (fun q hq w => H q (by simp [hq]) w)
        exact ⟨r', by simp [eqFields, hbk, hr, hr']⟩

theorem eqMapAll_isOk (go : JSVal → JSVal → Except String Bool)
    (be ae : List (JSVal × JSVal))
    (H : ∀ p ∈ ae, ∀ w, ∃ r, go p.2 w = .ok r) :
    ∃ r, eqMapAll go be ae = .ok r := by
  induction ae with
  | nil => exact ⟨true, rfl⟩
  | cons p rest ih =>
    obtain ⟨k, v⟩ := p
    simp only [eqMapAll]
    cases hg : mapGet be k with
    | none => exact ⟨false, rfl⟩
    | some w =>
      dsimp only
      obtain ⟨r, hr⟩ := H (k, v) (List.mem_cons_self _ _) w
      dsimp only at hr
      rw [hr]
      cases r with
      | false => exact ⟨false, rfl⟩
      | true => exact ih (fun q hq w' => H q (List.mem_cons_of_mem _ hq) w')

theorem eqDescend_isOk (go : JSVal → JSVal → Except String Bool) (h : Heap)
    (fj : Bool) (x y : Nat)
    (H : ∀ v ∈ childVals (nodeAt h x), ∀ w, ∃ r, go v w = .ok r) :
    ∃ r, eqDescend go h fj x y = .ok r := by
  unfold eqDescend
  cases hx : nodeAt h x <;> cases hy : nodeAt h y <;> dsimp only <;>
    first
      | exact ⟨_, rfl⟩
      | skip
  case arr.arr l1 l2 =>
    split
    · exact ⟨_, rfl⟩
    · exact eqList_isOk go l1 l2
        (fun v hv w => H v (by rw [hx]; exact hv) w)
  case set.set s1 s2 =>
    split
    · exact ⟨_, rfl⟩
    · exact eqSetAll_isOk go s2 s1
        (fun v hv w => H v (by rw [hx]; exact hv) w)
  case map.map e1 e2 =>
    split
    · exact ⟨_, rfl⟩
    · refine eqMapAll_isOk go e2 e1 (fun p hp w => H p.2 ?_ w)
      rw [hx]
      exact List.mem_append.mpr (Or.inr (List.mem_map_of_mem Prod.snd hp))
  case obj.obj f1 f2 =>
    have body : ∃ r, eqObjBody go f1 f2 = .ok r := by
      unfold eqObjBody
      split
      · exact ⟨_, rfl⟩
      · refine eqFields_isOk go f2 f1 (fun p hp w => H p.2 ?_ w)
        rw [hx]
        exact List.mem_map_of_mem Prod.snd hp
    cases fj with
    | false => exact body
    | true =>
      simp only [eq_self_iff_true, if_true]
      cases jsonOf (h.length + 1) h (.ref x) <;>
        cases jsonOf (h.length + 1) h (.ref y)
      · exact body
      · exact body
      · exact body
      · exact ⟨_, rfl⟩

/-- Pushing "returns a boolean" through one branch of `_equal`'s
`if`-chain. -/
theorem isOk_ite (c : Prop) [Decidable c] (x : Bool) (e : Except String Bool)
    (he : ∃ r, e = .ok r) : ∃ r, (if c then Except.ok x else e) = .ok r := by
  split
  · exact ⟨x, rfl⟩
  · exact he

/-- Any `_equal` call on a left value of height at most `n`, at depth
`d` with `d + n` within the ceiling and fuel above `n`, returns a
boolean. -/
theorem eqVal_isOk (n : Nat) (h : Heap) :
    ∀ (fuel : Nat) (a b : JSVal) (cache : Cache) (d : Nat)
      (o : EqualOptions), heightLeB h a n = true → n < fuel →
      d + n ≤ o.maxDepth → ∃ r, eqVal fuel h a b cache d o = .ok r := by
  have primCase : ∀ (f : Nat) (p : JSPrim) (b : JSVal) (cache : Cache)
      (d : Nat) (o : EqualOptions), ¬ o.maxDepth < d →
      ∃ r, eqVal (f + 1) h (.prim p) b cache d o = .ok r := by
    intro f p b cache d o hdep
    simp only [eqVal]
    rw [if_neg hdep]
    refine isOk_ite _ _ _ (isOk_ite _ _ _ (isOk_ite _ _ _ (isOk_ite _ _ _ ?_)))
    cases b <;> exact ⟨false, rfl⟩
  induction n with
  | zero =>
    intro fuel a b cache d o ha hfuel hd
    obtain ⟨f, rfl⟩ : ∃ f, fuel = f + 1 := ⟨fuel - 1, by omega⟩
    have hdep : ¬ o.maxDepth < d := by omega
    cases a with
    | ref x => simp [heightLeB] at ha
    | prim p => exact primCase f p b cache d o hdep
  | succ m ih =>
    intro fuel a b cache d o ha hfuel hd
    obtain ⟨f, rfl⟩ : ∃ f, fuel = f + 1 := ⟨fuel - 1, by omega⟩
    have hdep : ¬ o.maxDepth < d := by omega
    cases a with
    | prim p => exact primCase f p b cache d o hdep
    | ref x =>
      cases b with
      | prim q =>
        simp only [eqVal]
        rw [if_neg hdep]
        refine isOk_ite _ _ _ (isOk_ite _ _ _ (isOk_ite _ _ _ (isOk_ite _ _ _ ?_)))
        exact ⟨false, rfl⟩
      | ref y =>
        have hkids : ∀ v ∈ childVals (nodeAt h x), ∀ w,
            ∃ r, eqVal f h v w ((x, y) :: (y, x) :: cache) (d + 1) o = .ok r := by
          intro v hv w
          have hvh : heightLeB h v m = true := by
            have := ha
            simp only [heightLeB, List.all_eq_true] at this
            exact this v hv
          exact ih f v w _ (d + 1) o hvh (by omega) (by omega)
        simp only [eqVal]
        rw [if_neg hdep]
        refine isOk_ite _ _ _ (isOk_ite _ _ _ (isOk_ite _ _ _ (isOk_ite _ _ _ ?_)))
        dsimp only
        refine isOk_ite _ _ _ ?_
        cases clook cache x with
        | some p => exact ⟨_, rfl⟩
        | none =>
          cases clook cache y with
          | some p => exact ⟨_, rfl⟩
          | none => exact eqDescend_isOk _ h o.fastJSON x y hkids

/-- C8: exceeding the depth ceiling is an error, not a false result —
at any recursion state with `depth` beyond `maxDepth`, `_equal`
propagates the depth error (third conjunct: a whole `equal` call on
distinct one-element arrays with `maxDepth := 0` surfaces the error at
the top level) — while any call whose left value nests within
`maxDepth` container levels returns a boolean, never that error. -/
theorem equal_depth_spec (h : Heap) (a b : JSVal) (o : EqualOptions) :
    (∀ fuel cache d, o.maxDepth < d →
      eqVal fuel h a b cache d o = .error "Maximum comparison depth exceeded") ∧
    (heightLeB h a o.maxDepth = true → ∃ r, equalJS h a b o = .ok r) ∧
    equalJS deepDemoHeap (.ref 0) (.ref 1) { maxDepth := 0 } =
      .error "Maximum comparison depth exceeded" := by
  refine ⟨?_, ?_, rfl⟩
  · intro fuel cache d hdeep
    cases fuel with
    | zero => rfl
    | succ f => simp [eqVal, hdeep]
  · intro hh
    exact eqVal_isOk o.maxDepth h (o.maxDepth + 2) a b [] 0 o hh
      (by omega) (by omega)

/-- Witness for `equal_depth_spec`: at depth 2 with ceiling 1 the error
fires, and the height-1 arrays of `deepDemoHeap` compare without error
under the defaults. -/
theorem equal_depth_spec_witness :
    (({ maxDepth := 1 } : EqualOptions).maxDepth < 2 ∧
      heightLeB deepDemoHeap (.ref 0) ({} : EqualOptions).maxDepth = true) ∧
    eqVal 5 deepDemoHeap (.ref 0) (.ref 1) [] 2 { maxDepth := 1 } =
      .error "Maximum comparison depth exceeded" ∧
    (∃ r, equalJS deepDemoHeap (.ref 0) (.ref 1) {} = .ok r) :=
  ⟨⟨by decide, by decide⟩,
    (equal_depth_spec deepDemoHeap (.ref 0) (.ref 1) { maxDepth := 1 }).1
      5 [] 2 (by decide),
    (equal_depth_spec deepDemoHeap (.ref 0) (.ref 1) {}).2.1 (by decide)⟩

/-- C10: cloning a WeakMap or WeakSet constructs a new empty WeakMap
(resp. WeakSet) regardless of the `deep` option: none of the original
entries survive into the clone. -/
theorem clone_weak_empty (fuel : Nat) (h : Heap) (a : Nat) (deep : Bool) :
    (∀ entries, nodeAt h a = .weakmap entries →
      cloneF (fuel + 1) h (.ref a) deep = some (h ++ [.weakmap []], .ref h.length)) ∧
    (∀ elems, nodeAt h a = .weakset elems →
      cloneF (fuel + 1) h (.ref a) deep = some (h ++ [.weakset []], .ref h.length)) := by
  constructor <;> intro l hl <;> simp [cloneF, hl]

/-- Witness for `clone_weak_empty`: the populated WeakMap of
`weakDemoHeap` clones to the empty WeakMap. -/
theorem clone_weak_empty_witness :
    nodeAt weakDemoHeap 0 = .weakmap [(.prim (.num 1), .prim (.num 2))] ∧
    cloneF 2 weakDemoHeap (.ref 0) true =
      some (weakDemoHeap ++ [.weakmap []], .ref 2) :=
  ⟨rfl, (clone_weak_empty 1 weakDemoHeap 0 true).1 _ rfl⟩

/-! Association-list and heap update lemmas. -/

theorem getKey_setKey_self (af : List (String × JSVal)) (k : String) (v : JSVal) :
    getKey (setKey af k v) k = some v := by
  induction af with
  | nil => simp [setKey, getKey]
  | cons p rest ih =>
    obtain ⟨k', v'⟩ := p
    by_cases hk : k' = k
    · subst hk; simp [setKey, getKey]
    · simp [setKey, getKey, hk, ih]

theorem getKey_setKey_other (af : List (String × JSVal)) (k : String)
    (v : JSVal) (k' : String) (hne : k' ≠ k) :
    getKey (setKey af k v) k' = getKey af k' := by
  induction af with
  | nil => simp [setKey, getKey, Ne.symm hne]
  | cons p rest ih =>
    obtain ⟨k0, v0⟩ := p
    by_cases hk : k0 = k
    · subst hk
      simp [setKey, getKey, Ne.symm hne]
    · simp [setKey, getKey, hk, ih]

theorem nodeAt_append (h ext : Heap) (a : Nat) (ha : a < h.length) :
    nodeAt (h ++ ext) a = nodeAt h a := by
  simp [nodeAt, List.getD, List.getElem?_append, ha]

theorem nodeAt_set_self (h : Heap) (a : Nat) (node : JSObj)
    (ha : a < h.length) : nodeAt (h.set a node) a = node := by
  simp [nodeAt, List.getD, List.getElem?_set_self', ha]

theorem nodeAt_set_ne (h : Heap) (a i : Nat) (node : JSObj) (hne : i ≠ a) :
    nodeAt (h.set a node) i = nodeAt h i := by
  simp [nodeAt, List.getD, List.getElem?_set_ne (fun hc : a = i => hne hc.symm)]

/-- C5, amended: `deepMerge` folds left to right with this per-key
policy: when both the accumulated and incoming values are arrays, the
result for that key is a fresh array holding the accumulated elements
followed by the incoming elements with array-valued incoming elements
flattened one level (the `concat(...currentValue)` spread — not
element-preserving concatenation); when both are `isObject` values the
accumulated value is kept at the key after recursively merging the
incoming one into it; otherwise the incoming value overwrites.
Assignment touches only the processed key.  The spec's two examples
hold: `deepMerge({a:{x:1}}, {a:{y:2}})` makes the accumulated record
`{x:1, y:2}`, and `deepMerge({a:[1]}, {a:[2]})` makes `a` the fresh
array `[1, 2]`. -/
theorem deepMerge_policy (fuel : Nat) (h : Heap) (ra rb : Nat) (k : String)
    (af : List (String × JSVal)) (ha : nodeAt h ra = .obj af)
    (hlt : ra < h.length) :
    (∀ pa ca pl cl,
      (getKey af k).getD (.prim .undef) = .ref pa →
      (getKey (fieldsOf (nodeAt h rb)) k).getD (.prim .undef) = .ref ca →
      nodeAt h pa = .arr pl → nodeAt h ca = .arr cl →
      dmKey (dm2 fuel) h ra rb k =
        some ((h ++ [JSObj.arr (pl ++ spreadConcat h cl)]).set ra
          (JSObj.obj (setKey af k (.ref h.length))))) ∧
    (∀ pa ca,
      (getKey af k).getD (.prim .undef) = .ref pa →
      (getKey (fieldsOf (nodeAt h rb)) k).getD (.prim .undef) = .ref ca →
      isObjectRef h (.ref pa) = true → isObjectRef h (.ref ca) = true →
      dmKey (dm2 fuel) h ra rb k =
        (dm2 fuel h pa ca).bind (fun h1 => objSetKey h1 ra k (.ref pa))) ∧
    ((isArrRef h ((getKey af k).getD (.prim .undef)) &&
        isArrRef h ((getKey (fieldsOf (nodeAt h rb)) k).getD (.prim .undef)))
          = false →
     (isObjectRef h ((getKey af k).getD (.prim .undef)) &&
        isObjectRef h ((getKey (fieldsOf (nodeAt h rb)) k).getD (.prim .undef)))
          = false →
      dmKey (dm2 fuel) h ra rb k =
        some (h.set ra (JSObj.obj (setKey af k
          ((getKey (fieldsOf (nodeAt h rb)) k).getD (.prim .undef)))))) ∧
    (∀ (v : JSVal) (k' : String), k' ≠ k →
      getKey (setKey af k v) k' = getKey af k') ∧
    (∀ v, getKey (setKey af k v) k = some v) ∧
    deepMergeJS 5 recPairHeap [0, 2] =
      .ok (some ([.obj [("a", .ref 1)],
        .obj [("x", .prim (.num 1)), ("y", .prim (.num 2))],
        .obj [("a", .ref 3)], .obj [("y", .prim (.num 2))]], .ref 0)) ∧
    deepMergeJS 5 arrPairHeap [0, 2] =
      .ok (some ([.obj [("a", .ref 4)], .arr [.prim (.num 1)],
        .obj [("a", .ref 3)], .arr [.prim (.num 2)],
        .arr [.prim (.num 1), .prim (.num 2)]], .ref 0)) := by
  refine ⟨?_, ?_, ?_, fun v k' hk => getKey_setKey_other af k v k' hk,
    fun v => getKey_setKey_self af k v, rfl, rfl⟩
  · intro pa ca pl cl hpa hca hpl hcl
    unfold dmKey
    rw [ha, show fieldsOf (JSObj.obj af) = af from rfl]
    rw [hpa, hca]
    have harr1 : isArrRef h (.ref pa) = true := by simp [isArrRef, hpl]
    have harr2 : isArrRef h (.ref ca) = true := by simp [isArrRef, hcl]
    simp only [harr1, harr2, Bool.and_self, eq_self_iff_true, if_true]
    have hs1 : spreadOne h (.ref pa) = pl := by simp [spreadOne, hpl]
    have hs2 : spreadOne h (.ref ca) = cl := by simp [spreadOne, hcl]
    rw [hs1, hs2]
    unfold objSetKey
    rw [nodeAt_append h [.arr (pl ++ spreadConcat h cl)] ra hlt, ha]
  · intro pa ca hpa hca hobj1 hobj2
    have harr1 : isArrRef h (.ref pa) = false := by
      cases hn : nodeAt h pa <;> simp [isArrRef, hn] <;>
        simp [isObjectRef, hn] at hobj1
    unfold dmKey
    rw [ha, show fieldsOf (JSObj.obj af) = af from rfl]
    rw [hpa, hca]
    simp only [harr1, hobj1, hobj2, Bool.false_and, Bool.and_self, addrOf]
    rw [if_neg (by simp)]
    rw [if_pos trivial]
    cases dm2 fuel h pa ca <;> rfl
  · intro hna hno
    unfold dmKey
    rw [ha, show fieldsOf (JSObj.obj af) = af from rfl]
    simp only [hna, hno]
    rw [if_neg (by simp), if_neg (by simp)]
    unfold objSetKey
    rw [ha]

/-- Witness for `deepMerge_policy`: merging `{b:3, c:4}` into
`{a:1, b:2}`, the key `b` takes the overwrite branch (both values are
numbers). -/
theorem deepMerge_policy_witness :
    (nodeAt softPairHeap 0 =
        .obj [("a", .prim (.num 1)), ("b", .prim (.num 2))] ∧
      0 < softPairHeap.length) ∧
    dmKey (dm2 4) softPairHeap 0 1 "b" =
      some (softPairHeap.set 0
        (.obj [("a", .prim (.num 1)), ("b", .prim (.num 3))])) :=
  ⟨⟨rfl, by decide⟩, by
    have := (deepMerge_policy 4 softPairHeap 0 1 "b"
      [("a", .prim (.num 1)), ("b", .prim (.num 2))] rfl (by decide)).2.2.1
      (by decide) (by decide)
    simpa using this⟩

/-! Closure and extension stability lemmas, for the allocation-threading
proofs of `softMerge` and `clone`. -/

theorem valClosed_mono (v : JSVal) (n m : Nat) (hnm : n ≤ m)
    (hv : valClosed n v = true) : valClosed m v = true := by
  cases v with
  | prim p => rfl
  | ref a =>
    simp [valClosed] at hv ⊢
    omega

theorem heapClosed_child (h : Heap) (hc : heapClosed h = true) (a : Nat) :
    ∀ v ∈ childVals (nodeAt h a), valClosed h.length v = true := by
  intro v hv
  by_cases hb : a < h.length
  · have := (List.all_eq_true.mp hc) (nodeAt h a) (by
      simp [nodeAt, List.getD]
      rw [List.getElem?_eq_getElem hb]
      exact List.getElem_mem hb)
    exact (List.all_eq_true.mp this) v hv
  · have : nodeAt h a = .obj [] := by
      simp [nodeAt, List.getD, List.getElem?_eq_none (by omega : h.length ≤ a)]
    rw [this] at hv
    simp [childVals] at hv

theorem nodeAt_append_self (h : Heap) (x : JSObj) :
    nodeAt (h ++ [x]) h.length = x := by
  simp [nodeAt, List.getD]

theorem heapClosed_append (h : Heap) (x : JSObj)
    (hc : heapClosed h = true)
    (hx : ∀ v ∈ childVals x, valClosed (h.length + 1) v = true) :
    heapClosed (h ++ [x]) = true := by
  simp only [heapClosed, List.all_eq_true] at hc ⊢
  intro node hn
  rcases List.mem_append.mp hn with hn | hn
  · have := hc node hn
    simp only [List.all_eq_true] at this ⊢
    intro v hv
    exact valClosed_mono v h.length (h ++ [x]).length (by simp) (this v hv)
  · simp only [List.mem_singleton] at hn
    subst hn
    intro v hv
    have := hx v hv
    exact valClosed_mono v (h.length + 1) _ (by simp) this

theorem getKey_mem (l : List (String × JSVal)) (k : String) (v : JSVal)
    (hg : getKey l k = some v) : (k, v) ∈ l := by
  induction l with
  | nil => simp [getKey] at hg
  | cons p rest ih =>
    obtain ⟨k0, v0⟩ := p
    by_cases hk : k0 = k
    · subst hk
      simp [getKey] at hg
      simp [hg]
    · simp [getKey, hk] at hg
      simp [ih hg]

theorem isObjectRef_stable (h h2 : Heap) (v : JSVal)
    (hcl : valClosed h.length v = true)
    (hx : ∀ i, i < h.length → nodeAt h2 i = nodeAt h i) :
    isObjectRef h2 v = isObjectRef h v := by
  cases v with
  | prim p => rfl
  | ref a =>
    simp [valClosed] at hcl
    simp [isObjectRef, hx a hcl]

theorem nodeAt_stable_addrOf (h h2 : Heap) (v : JSVal)
    (hcl : valClosed h.length v = true)
    (hx : ∀ i, i < h.length → nodeAt h2 i = nodeAt h i)
    (hv : ∀ p : JSPrim, v ≠ .prim p) :
    nodeAt h2 (addrOf v) = nodeAt h (addrOf v) := by
  cases v with
  | prim p => exact absurd rfl (hv p)
  | ref a =>
    simp [valClosed] at hcl
    exact hx a hcl

/-- The heap- and field-shape behaviour of one `softMerge` key loop.
`go` stands for the recursive `softMerge` call; `Hgo` is its inductive
contract (extension, freshness, key-set preservation). -/
theorem smKeys_spec (go : Heap → Nat → Nat → Option (Heap × Nat))
    (deep : Bool) (valsF : List (String × JSVal))
    (Hgo : ∀ h0 x y h1 r1, heapClosed h0 = true →
      go h0 x y = some (h1, r1) →
      heapClosed h1 = true ∧ (∀ i, i < h0.length → nodeAt h1 i = nodeAt h0 i) ∧
      h0.length ≤ h1.length ∧ h0.length ≤ r1 ∧ r1 < h1.length ∧
      ∃ fs', nodeAt h1 r1 = .obj fs' ∧
        fs'.map Prod.fst = (fieldsOf (nodeAt h0 x)).map Prod.fst) :
    ∀ (l : List (String × JSVal)) (h h2 : Heap) (fs : List (String × JSVal)),
      heapClosed h = true →
      (∀ p ∈ l, valClosed h.length p.2 = true) →
      (∀ p ∈ valsF, valClosed h.length p.2 = true) →
      smKeys go deep valsF h l = some (h2, fs) →
      heapClosed h2 = true ∧
      (∀ i, i < h.length → nodeAt h2 i = nodeAt h i) ∧
      h.length ≤ h2.length ∧
      fs.map Prod.fst = l.map Prod.fst ∧
      (∀ p ∈ fs, valClosed h2.length p.2 = true) ∧
      (∀ k bv, getKey l k = some bv →
        (getKey valsF k = none → getKey fs k = some bv) ∧
        (∀ vv, getKey valsF k = some vv →
          ((deep && isObjectRef h bv && isObjectRef h vv) = false →
            getKey fs k = some vv) ∧
          ((deep && isObjectRef h bv && isObjectRef h vv) = true →
            ∃ r', getKey fs k = some (.ref r') ∧ h.length ≤ r' ∧
              r' < h2.length ∧
              ∃ fs', nodeAt h2 r' = .obj fs' ∧
                fs'.map Prod.fst =
                  (fieldsOf (nodeAt h (addrOf bv))).map Prod.fst))) := by
  intro l
  induction l with
  | nil =>
    intro h h2 fs hc _ _ hsm
    simp [smKeys] at hsm
    obtain ⟨rfl, rfl⟩ := hsm
    refine ⟨hc, fun i _ => rfl, le_rfl, rfl, by simp, ?_⟩
    intro k bv hg
    simp [getKey] at hg
  | cons p rest ih =>
    intro h h2 fs hc hcl hclv hsm
    obtain ⟨k0, bv0⟩ := p
    have hbv0 : valClosed h.length bv0 = true := hcl (k0, bv0) (by simp)
    simp only [smKeys] at hsm
    cases hv0 : getKey valsF k0 with
    | none =>
      rw [hv0] at hsm
      dsimp only at hsm
      cases hrest : smKeys go deep valsF h rest with
      | none => rw [hrest] at hsm; simp at hsm
      | some pr =>
        obtain ⟨h2', fs'⟩ := pr
        rw [hrest] at hsm
        simp at hsm
        obtain ⟨rfl, rfl⟩ := hsm
        obtain ⟨ihc, ihstable, ihlen, ihkeys, ihvc, ihkey⟩ :=
          ih h h2' fs' hc (fun q hq => hcl q (by simp [hq])) hclv hrest
        refine ⟨ihc, ihstable, ihlen, by simp [ihkeys], ?_, ?_⟩
        · intro q hq
          rcases List.mem_cons.mp hq with rfl | hq
          · exact valClosed_mono _ _ _ ihlen hbv0
          · exact ihvc q hq
        · intro k bv hg
          by_cases hk : k0 = k
          · subst hk
            simp [getKey] at hg
            subst hg
            constructor
            · intro _
              simp [getKey]
            · intro vv hvv
              rw [hv0] at hvv
              simp at hvv
          · simp [getKey, hk] at hg
            have := ihkey k bv hg
            constructor
            · intro hnone
              simp [getKey, hk]
              exact (this.1 hnone)
            · intro vv hvv
              refine ⟨?_, ?_⟩
              · intro hcond
                simp [getKey, hk]
                exact ((this.2 vv hvv).1 hcond)
              · intro hcond
                obtain ⟨r', hr1, hr2, hr3, hfs⟩ := (this.2 vv hvv).2 hcond
                exact ⟨r', by simp [getKey, hk, hr1], hr2, hr3, hfs⟩
    | some vv0 =>
      rw [hv0] at hsm
      dsimp only at hsm
      have hvv0 : valClosed h.length vv0 = true :=
        hclv (k0, vv0) (getKey_mem valsF k0 vv0 hv0)
      cases hcond : (deep && isObjectRef h bv0 && isObjectRef h vv0) with
      | false =>
        rw [show (deep && isObjectRef h bv0 && isObjectRef h vv0) = false
            from hcond] at hsm
        simp only [Bool.false_eq_true, if_false] at hsm
        cases hrest : smKeys go deep valsF h rest with
        | none => rw [hrest] at hsm; simp at hsm
        | some pr =>
          obtain ⟨h2', fs'⟩ := pr
          rw [hrest] at hsm
          simp at hsm
          obtain ⟨rfl, rfl⟩ := hsm
          obtain ⟨ihc, ihstable, ihlen, ihkeys, ihvc, ihkey⟩ :=
            ih h h2' fs' hc (fun q hq => hcl q (by simp [hq])) hclv hrest
          refine ⟨ihc, ihstable, ihlen, by simp [ihkeys], ?_, ?_⟩
          · intro q hq
            rcases List.mem_cons.mp hq with rfl | hq
            · exact valClosed_mono _ _ _ ihlen hvv0
            · exact ihvc q hq
          · intro k bv hg
            by_cases hk : k0 = k
            · subst hk
              simp [getKey] at hg
              subst hg
              constructor
              · intro hnone
                rw [hv0] at hnone
                simp at hnone
              · intro vv hvv
                rw [hv0] at hvv
                simp at hvv
                subst hvv
                refine ⟨fun _ => by simp [getKey], fun hcc => ?_⟩
                rw [hcc] at hcond
                simp at hcond
            · simp [getKey, hk] at hg
              have := ihkey k bv hg
              constructor
              · intro hnone
                simp [getKey, hk]
                exact (this.1 hnone)
              · intro vv hvv
                refine ⟨?_, ?_⟩
                · intro hcc
                  simp [getKey, hk]
                  exact ((this.2 vv hvv).1 hcc)
                · intro hcc
                  obtain ⟨r', hr1, hr2, hr3, hfs⟩ := (this.2 vv hvv).2 hcc
                  exact ⟨r', by simp [getKey, hk, hr1], hr2, hr3, hfs⟩
      | true =>
        rw [show (deep && isObjectRef h bv0 && isObjectRef h vv0) = true
            from hcond] at hsm
        simp only [if_true] at hsm
        cases hgo : go h (addrOf bv0) (addrOf vv0) with
        | none => rw [hgo] at hsm; simp at hsm
        | some pr1 =>
          obtain ⟨h1, r1⟩ := pr1
          rw [hgo] at hsm
          obtain ⟨goc, gostable, golen, gofresh1, gofresh2, gfs', hgfs',
            hgkeys⟩ := Hgo h (addrOf bv0) (addrOf vv0) h1 r1 hc hgo
          dsimp only at hsm
          cases hrest : smKeys go deep valsF h1 rest with
          | none => rw [hrest] at hsm; simp at hsm
          | some pr =>
            obtain ⟨h2', fs'⟩ := pr
            rw [hrest] at hsm
            simp at hsm
            obtain ⟨rfl, rfl⟩ := hsm
            obtain ⟨ihc, ihstable, ihlen, ihkeys, ihvc, ihkey⟩ :=
              ih h1 h2' fs' goc
                (fun q hq => valClosed_mono _ _ _ golen
                  (hcl q (by simp [hq])))
                (fun q hq => valClosed_mono _ _ _ golen (hclv q hq)) hrest
            have hstable : ∀ i, i < h.length → nodeAt h2' i = nodeAt h i := by
              intro i hi
              rw [ihstable i (by omega), gostable i hi]
            refine ⟨ihc, hstable, by omega, by simp [ihkeys], ?_, ?_⟩
            · intro q hq
              rcases List.mem_cons.mp hq with rfl | hq
              · simp [valClosed]
                omega
              · exact ihvc q hq
            · intro k bv hg
              by_cases hk : k0 = k
              · subst hk
                simp [getKey] at hg
                subst hg
                constructor
                · intro hnone
                  rw [hv0] at hnone
                  simp at hnone
                · intro vv hvv
                  rw [hv0] at hvv
                  simp at hvv
                  subst hvv
                  refine ⟨fun hcc => by rw [hcc] at hcond; simp at hcond,
                    fun _ => ?_⟩
                  refine ⟨r1, by simp [getKey], gofresh1, by omega,
                    gfs', ?_, ?_⟩
                  · rw [ihstable r1 gofresh2]
                    exact hgfs'
                  · rw [hgkeys]
              · simp [getKey, hk] at hg
                have hbv : valClosed h.length bv = true :=
                  hcl (k, bv) (by simp; exact Or.inr (getKey_mem rest k bv hg))
                have hvvc : ∀ vv, getKey valsF k = some vv →
                    valClosed h.length vv = true := fun vv hvv =>
                  hclv (k, vv) (getKey_mem valsF k vv hvv)
                have := ihkey k bv hg
                have hcondeq : ∀ vv, getKey valsF k = some vv →
                    (deep && isObjectRef h1 bv && isObjectRef h1 vv) =
                      (deep && isObjectRef h bv && isObjectRef h vv) := by
                  intro vv hvv
                  rw [isObjectRef_stable h h1 bv hbv gostable,
                    isObjectRef_stable h h1 vv (hvvc vv hvv) gostable]
                constructor
                · intro hnone
                  simp [getKey, hk]
                  exact (this.1 hnone)
                · intro vv hvv
                  refine ⟨?_, ?_⟩
                  · intro hcc
                    simp [getKey, hk]
                    exact ((this.2 vv hvv).1 (by rw [hcondeq vv hvv, hcc]))
                  · intro hcc
                    obtain ⟨r', hr1, hr2, hr3, fs'', hfs1, hfs2⟩ :=
                      (this.2 vv hvv).2 (by rw [hcondeq vv hvv, hcc])
                    refine ⟨r', by simp [getKey, hk, hr1], by omega, hr3,
                      fs'', hfs1, ?_⟩
                    rw [hfs2]
                    cases bv with
                    | prim p => simp [isObjectRef] at hcc
                    | ref ab =>
                      simp [valClosed] at hbv
                      rw [show addrOf (JSVal.ref ab) = ab from rfl,
                        gostable ab hbv]

theorem fields_closed (h : Heap) (hc : heapClosed h = true) (a : Nat) :
    ∀ p ∈ fieldsOf (nodeAt h a), valClosed h.length p.2 = true := by
  intro p hp
  apply heapClosed_child h hc a
  cases hn : nodeAt h a with
  | obj f =>
    rw [hn] at hp
    simp only [fieldsOf] at hp
    exact List.mem_map_of_mem Prod.snd hp
  | arr l => rw [hn] at hp; simp [fieldsOf] at hp
  | set l => rw [hn] at hp; simp [fieldsOf] at hp
  | map e => rw [hn] at hp; simp [fieldsOf] at hp
  | date ms => rw [hn] at hp; simp [fieldsOf] at hp
  | weakmap e => rw [hn] at hp; simp [fieldsOf] at hp
  | weakset e => rw [hn] at hp; simp [fieldsOf] at hp

/-- The full contract of `softMerge` on the heap model: extension (no
existing node changes), freshness of the result record, exact key set,
and the per-key selection policy, with the recursive deep-record case
yielding a fresh record whose key set is that of the base's nested
record. -/
theorem smF_spec : ∀ (fuel : Nat) (h : Heap) (base vals : Nat)
    (deep : Bool) (h' : Heap) (r : Nat), heapClosed h = true →
    smF fuel h base vals deep = some (h', r) →
    heapClosed h' = true ∧
    (∀ i, i < h.length → nodeAt h' i = nodeAt h i) ∧
    h.length ≤ h'.length ∧ h.length ≤ r ∧ r < h'.length ∧
    ∃ fs, nodeAt h' r = .obj fs ∧
      fs.map Prod.fst = (fieldsOf (nodeAt h base)).map Prod.fst ∧
      (∀ k bv, getKey (fieldsOf (nodeAt h base)) k = some bv →
        (getKey (fieldsOf (nodeAt h vals)) k = none →
          getKey fs k = some bv) ∧
        (∀ vv, getKey (fieldsOf (nodeAt h vals)) k = some vv →
          ((deep && isObjectRef h bv && isObjectRef h vv) = false →
            getKey fs k = some vv) ∧
          ((deep && isObjectRef h bv && isObjectRef h vv) = true →
            ∃ r2, getKey fs k = some (.ref r2) ∧ h.length ≤ r2 ∧
              r2 < h'.length ∧
              ∃ fs2, nodeAt h' r2 = .obj fs2 ∧
                fs2.map Prod.fst =
                  (fieldsOf (nodeAt h (addrOf bv))).map Prod.fst))) := by
  intro fuel
  induction fuel with
  | zero => intro h base vals deep h' r _ hsm; simp [smF] at hsm
  | succ f ih =>
    intro h base vals deep h' r hc hsm
    simp only [smF] at hsm
    cases hks : smKeys (fun h' x y => smF f h' x y deep) deep
        (fieldsOf (nodeAt h vals)) h (fieldsOf (nodeAt h base)) with
    | none => rw [hks] at hsm; simp at hsm
    | some pr =>
      obtain ⟨h1, fs⟩ := pr
      rw [hks] at hsm
      simp at hsm
      obtain ⟨rfl, rfl⟩ := hsm
      have Hgo : ∀ h0 x y h1 r1, heapClosed h0 = true →
          (fun h' x y => smF f h' x y deep) h0 x y = some (h1, r1) →
          heapClosed h1 = true ∧
          (∀ i, i < h0.length → nodeAt h1 i = nodeAt h0 i) ∧
          h0.length ≤ h1.length ∧ h0.length ≤ r1 ∧ r1 < h1.length ∧
          ∃ fs', nodeAt h1 r1 = .obj fs' ∧
            fs'.map Prod.fst = (fieldsOf (nodeAt h0 x)).map Prod.fst := by
        intro h0 x y h1 r1 hc0 hgo
        obtain ⟨c1, c2, c3, c4, c5, fs', hfs1, hfs2, _⟩ :=
          ih h0 x y deep h1 r1 hc0 hgo
        exact ⟨c1, c2, c3, c4, c5, fs', hfs1, hfs2⟩
      obtain ⟨ihc, ihstable, ihlen, ihkeys, ihvc, ihkey⟩ :=
        smKeys_spec _ deep _ Hgo (fieldsOf (nodeAt h base)) h h1 fs hc
          (fields_closed h hc base) (fields_closed h hc vals) hks
      have hlen' : (h1 ++ [JSObj.obj fs]).length = h1.length + 1 := by simp
      refine ⟨?_, ?_, by omega, by omega, by omega, fs, ?_, ihkeys, ?_⟩
      · refine heapClosed_append h1 (.obj fs) ihc ?_
        intro v hv
        simp only [childVals] at hv
        obtain ⟨p, hp, rfl⟩ := List.mem_map.mp hv
        exact valClosed_mono _ _ _ (by omega) (ihvc p hp)
      · intro i hi
        rw [nodeAt_append h1 [JSObj.obj fs] i (by omega)]
        exact ihstable i hi
      · exact nodeAt_append_self h1 (.obj fs)
      · intro k bv hg
        have := ihkey k bv hg
        refine ⟨this.1, ?_⟩
        intro vv hvv
        refine ⟨(this.2 vv hvv).1, ?_⟩
        intro hcc
        obtain ⟨r2, hr1, hr2, hr3, fs2, hfs1, hfs2⟩ := (this.2 vv hvv).2 hcc
        refine ⟨r2, hr1, hr2, by omega, fs2, ?_, hfs2⟩
        rw [nodeAt_append h1 [JSObj.obj fs] r2 hr3]
        exact hfs1

/-- C6 corrected.  `softMerge(base, overrides)` returns a freshly
allocated record whose key list is exactly `base`'s (overrides introduce
no keys — and even the order is preserved); each key takes the
override's value when the key is present in the overrides, and the
base's value otherwise — except that when `deep` holds and BOTH values
satisfy `isObject` (any non-array object: plain records, but also Dates,
Sets, Maps, …, since the code tests `isObject`, not "is a plain
record"), the key instead gets a fresh recursively-soft-merged record
carrying the nested base value's key set; no pre-existing heap node is
modified, so neither input record is mutated.  Final conjunct: the
spec's example, `softMerge({a:1, b:2}, {b:3, c:4})` yields the fresh
record `{a:1, b:3}`. -/
theorem softMerge_spec (fuel : Nat) (h : Heap) (base vals : Nat)
    (deep : Bool) (h' : Heap) (r : Nat) (hc : heapClosed h = true)
    (hsm : smF fuel h base vals deep = some (h', r)) :
    (heapClosed h' = true ∧
    (∀ i, i < h.length → nodeAt h' i = nodeAt h i) ∧
    h.length ≤ h'.length ∧ h.length ≤ r ∧ r < h'.length ∧
    ∃ fs, nodeAt h' r = .obj fs ∧
      fs.map Prod.fst = (fieldsOf (nodeAt h base)).map Prod.fst ∧
      (∀ k bv, getKey (fieldsOf (nodeAt h base)) k = some bv →
        (getKey (fieldsOf (nodeAt h vals)) k = none →
          getKey fs k = some bv) ∧
        (∀ vv, getKey (fieldsOf (nodeAt h vals)) k = some vv →
          ((deep && isObjectRef h bv && isObjectRef h vv) = false →
            getKey fs k = some vv) ∧
          ((deep && isObjectRef h bv && isObjectRef h vv) = true →
            ∃ r2, getKey fs k = some (.ref r2) ∧ h.length ≤ r2 ∧
              r2 < h'.length ∧
              ∃ fs2, nodeAt h' r2 = .obj fs2 ∧
                fs2.map Prod.fst =
                  (fieldsOf (nodeAt h (addrOf bv))).map Prod.fst)))) ∧
    smF 5 softPairHeap 0 1 true =
      some (softPairHeap ++
        [.obj [("a", .prim (.num 1)), ("b", .prim (.num 3))]], 2) :=
  ⟨smF_spec fuel h base vals deep h' r hc hsm, rfl⟩

/-- Witness for `softMerge_spec`, at the spec's own example. -/
theorem softMerge_spec_witness :
    (heapClosed softPairHeap = true ∧
      smF 5 softPairHeap 0 1 true =
        some (softPairHeap ++
          [.obj [("a", .prim (.num 1)), ("b", .prim (.num 3))]], 2)) ∧
    heapClosed (softPairHeap ++
      [.obj [("a", .prim (.num 1)), ("b", .prim (.num 3))]]) = true :=
  ⟨⟨by decide, rfl⟩,
    (softMerge_spec 5 softPairHeap 0 1 true _ 2 (by decide) rfl).1.1⟩

/-! Reachability lemmas and the frame analysis of `deepMerge`. -/

theorem reaches_child (h : Heap) (a : Nat) (c : JSVal) (t : Nat)
    (hm : c ∈ childVals (nodeAt h a)) (hr : Reaches h c t) :
    Reaches h (.ref a) t := Reaches.step a c t hm hr

theorem mem_fieldsOf_child (node : JSObj) (p : String × JSVal)
    (hp : p ∈ fieldsOf node) : p.2 ∈ childVals node := by
  cases node <;> simp [fieldsOf] at hp
  case obj f =>
    exact List.mem_map_of_mem Prod.snd hp

theorem setKey_val_mem (af : List (String × JSVal)) (k : String) (v c : JSVal) :
    c ∈ (setKey af k v).map Prod.snd → c ∈ af.map Prod.snd ∨ c = v := by
  induction af with
  | nil =>
    intro hc
    simp [setKey] at hc
    exact Or.inr hc
  | cons p rest ih =>
    obtain ⟨k0, v0⟩ := p
    intro hc
    by_cases hk : k0 = k
    · subst hk
      simp only [setKey, eq_self_iff_true, if_true, List.map_cons,
        List.mem_cons] at hc
      exact hc.elim (fun hceq => Or.inr hceq) (fun hm => Or.inl (by simp [hm]))
    · simp only [setKey, if_neg hk, List.map_cons, List.mem_cons] at hc
      refine hc.elim (fun hceq => Or.inl (by simp [hceq])) (fun hm => ?_)
      rcases ih hm with hmm | hveq
      · exact Or.inl (by simp at hmm ⊢; exact Or.inr hmm)
      · exact Or.inr hveq

theorem spreadConcat_mem (h : Heap) (l : List JSVal) (v : JSVal)
    (hv : v ∈ spreadConcat h l) :
    v ∈ l ∨ ∃ a l', JSVal.ref a ∈ l ∧ nodeAt h a = .arr l' ∧ v ∈ l' := by
  induction l with
  | nil => simp [spreadConcat] at hv
  | cons x rest ih =>
    simp only [spreadConcat, List.mem_append] at hv
    rcases hv with hv | hv
    · cases x with
      | prim p => simp [spreadOne] at hv; simp [hv]
      | ref a =>
        cases hn : nodeAt h a with
        | arr l' =>
          simp [spreadOne, hn] at hv
          exact Or.inr ⟨a, l', by simp, hn, hv⟩
        | obj f => simp [spreadOne, hn] at hv; simp [hv]
        | set s => simp [spreadOne, hn] at hv; simp [hv]
        | map e => simp [spreadOne, hn] at hv; simp [hv]
        | date ms => simp [spreadOne, hn] at hv; simp [hv]
        | weakmap e => simp [spreadOne, hn] at hv; simp [hv]
        | weakset e => simp [spreadOne, hn] at hv; simp [hv]
    · rcases ih hv with hm | ⟨a, l', hal, hnode, hvm⟩
      · simp [hm]
      · exact Or.inr ⟨a, l', by simp [hal], hnode, hvm⟩

theorem nodeAt_dangling (h : Heap) (j : Nat) (hj : h.length ≤ j) :
    nodeAt h j = .obj [] := by
  simp [nodeAt, List.getD, List.getElem?_eq_none hj]

theorem reaches_dangling (h : Heap) (j t : Nat) (hj : h.length ≤ j)
    (hr : Reaches h (.ref j) t) : t = j := by
  cases hr with
  | here => rfl
  | step a c t hm hr =>
    rw [nodeAt_dangling h j hj] at hm
    simp [childVals] at hm

theorem nodeAt_ge_append (h ext : Heap) (a : Nat) (ha : h.length ≤ a) :
    nodeAt (h ++ ext) a ∈ ext ∨ nodeAt (h ++ ext) a = .obj [] := by
  by_cases hb : a - h.length < ext.length
  · left
    rw [show nodeAt (h ++ ext) a = List.getD ext (a - h.length) (JSObj.obj [])
      from List.getD_append_right h ext _ a ha]
    simp [List.getD, List.getElem?_eq_getElem hb, List.getElem_mem]
  · right
    exact nodeAt_dangling _ a (by simp; omega)

/-- The frame of one in-place record assignment with optional fresh
allocations: `h' = (h ++ ext).set ra (obj af')`, where the fresh nodes'
children and the assigned fields either come from `ra`'s old children,
satisfy a reach bound `P`, or point into the fresh region.  `cut`
bounds the addresses the evolution conclusion speaks about. -/
theorem mergeMut (h : Heap) (ra : Nat) (ext : List JSObj)
    (af af' : List (String × JSVal)) (cut : Nat) (P : Nat → Prop)
    (hra : nodeAt h ra = .obj af) (hlt : ra < h.length)
    (hc : heapClosed h = true) (hcut : cut ≤ h.length)
    (hext : ∀ node ∈ ext, ∀ c ∈ childVals node,
      valClosed h.length c = true ∧
      (∀ t, t < cut → Reaches h c t → P t))
    (haf : ∀ c ∈ af'.map Prod.snd,
      c ∈ childVals (nodeAt h ra) ∨
      (valClosed h.length c = true ∧ (∀ t, t < cut → Reaches h c t → P t)) ∨
      (∃ j, c = JSVal.ref j ∧ h.length ≤ j ∧ j < h.length + ext.length)) :
    heapClosed ((h ++ ext).set ra (.obj af')) = true ∧
    ((h ++ ext).set ra (.obj af')).length = h.length + ext.length ∧
    (∀ i, i ≠ ra → nodeAt ((h ++ ext).set ra (.obj af')) i = nodeAt (h ++ ext) i) ∧
    (∀ i, i ≠ ra → i < h.length →
      nodeAt ((h ++ ext).set ra (.obj af')) i = nodeAt h i) ∧
    (∀ v t, t < cut → Reaches ((h ++ ext).set ra (.obj af')) v t →
      Reaches h v t ∨ P t) := by
  have hlen : ((h ++ ext).set ra (.obj af')).length = h.length + ext.length := by
    simp
  have hstable : ∀ i, i ≠ ra →
      nodeAt ((h ++ ext).set ra (.obj af')) i = nodeAt (h ++ ext) i := by
    intro i hi
    exact nodeAt_set_ne (h ++ ext) ra i (.obj af') hi
  have hstable2 : ∀ i, i ≠ ra → i < h.length →
      nodeAt ((h ++ ext).set ra (.obj af')) i = nodeAt h i := by
    intro i hi hb
    rw [hstable i hi]
    exact nodeAt_append h ext i hb
  have hraNode : nodeAt ((h ++ ext).set ra (.obj af')) ra = .obj af' := by
    apply nodeAt_set_self
    simp
    omega
  refine ⟨?_, hlen, hstable, hstable2, ?_⟩
  · -- closure of the result heap
    refine List.all_eq_true.mpr ?_
    intro node hn
    refine List.all_eq_true.mpr ?_
    intro c hcm
    rw [hlen]
    obtain ⟨i, hi, rfl⟩ : ∃ i, ∃ hb : i < ((h ++ ext).set ra (.obj af')).length,
        ((h ++ ext).set ra (.obj af'))[i] = node := by
      obtain ⟨i, hb, he⟩ := List.getElem_of_mem hn
      exact ⟨i, hb, he⟩
    have hiAt : nodeAt ((h ++ ext).set ra (.obj af')) i =
        ((h ++ ext).set ra (.obj af'))[i] := by
      simp [nodeAt, List.getD, List.getElem?_eq_getElem hi]
    rw [← hiAt] at hcm
    by_cases hieq : i = ra
    · rw [hieq] at hcm
      rw [hraNode] at hcm
      rcases haf c (by simpa [childVals] using hcm) with hold | ⟨hcl, _⟩ | ⟨j, rfl, hj1, hj2⟩
      · have := heapClosed_child h hc ra c hold
        exact valClosed_mono c h.length _ (by omega) this
      · exact valClosed_mono c h.length _ (by omega) hcl
      · simp [valClosed]
        omega
    · rw [hstable i hieq] at hcm
      by_cases hb : i < h.length
      · rw [nodeAt_append h ext i hb] at hcm
        have := heapClosed_child h hc i c hcm
        exact valClosed_mono c h.length _ (by omega) this
      · rcases nodeAt_ge_append h ext i (by omega) with hm | hm
        · have := hext _ hm c hcm
          exact valClosed_mono c h.length _ (by omega) this.1
        · rw [hm] at hcm
          simp [childVals] at hcm
  · intro v t ht hr
    induction hr with
    | here a => exact Or.inl (Reaches.here a)
    | step a c t hcm hr ih =>
      by_cases hieq : a = ra
      · rw [hieq] at hcm
        rw [hraNode] at hcm
        rcases haf c (by simpa [childVals] using hcm) with hold | ⟨_, hbound⟩ |
            ⟨j, rfl, hj1, _⟩
        · rcases ih ht with hr' | hp
          · exact Or.inl (Reaches.step a c t (by rw [hieq, hra]; rw [hra] at hold; exact hold) hr')
          · exact Or.inr hp
        · rcases ih ht with hr' | hp
          · exact Or.inr (hbound t ht hr')
          · exact Or.inr hp
        · rcases ih ht with hr' | hp
          · have := reaches_dangling h j t hj1 hr'
            omega
          · exact Or.inr hp
      · by_cases hb : a < h.length
        · rw [hstable2 a hieq hb] at hcm
          rcases ih ht with hr' | hp
          · exact Or.inl (Reaches.step a c t hcm hr')
          · exact Or.inr hp
        · rw [hstable a hieq] at hcm
          rcases nodeAt_ge_append h ext a (by omega) with hm | hm
          · have := hext _ hm c hcm
            rcases ih ht with hr' | hp
            · exact Or.inr (this.2 t ht hr')
            · exact Or.inr hp
          · rw [hm] at hcm
            simp [childVals] at hcm

theorem MergeFrame_refl (h : Heap) (x y : Nat) (hc : heapClosed h = true) :
    MergeFrame h h x y :=
  ⟨hc, le_rfl, fun _ _ hne => absurd rfl hne, fun _ _ _ hr => Or.inl hr⟩

theorem MergeFrame_trans (h h1 h2 : Heap) (x y : Nat)
    (m1 : MergeFrame h h1 x y) (m2 : MergeFrame h1 h2 x y) :
    MergeFrame h h2 x y := by
  obtain ⟨c1, l1, f1, e1⟩ := m1
  obtain ⟨c2, l2, f2, e2⟩ := m2
  refine ⟨c2, by omega, ?_, ?_⟩
  · intro i hi hne
    by_cases h1ne : nodeAt h1 i = nodeAt h i
    · have hne2 : nodeAt h2 i ≠ nodeAt h1 i := by rw [h1ne]; exact hne
      rcases f2 i (by omega) hne2 with hr | hr
      · rcases e1 (.ref x) i hi hr with h' | h' | h'
        · exact Or.inl h'
        · exact Or.inl h'
        · exact Or.inr h'
      · rcases e1 (.ref y) i hi hr with h' | h' | h'
        · exact Or.inr h'
        · exact Or.inl h'
        · exact Or.inr h'
    · exact f1 i hi h1ne
  · intro v t ht hr
    rcases e2 v t (by omega) hr with h' | h' | h'
    · exact e1 v t ht h'
    · rcases e1 (.ref x) t ht h' with h'' | h'' | h''
      · exact Or.inr (Or.inl h'')
      · exact Or.inr (Or.inl h'')
      · exact Or.inr (Or.inr h'')
    · rcases e1 (.ref y) t ht h' with h'' | h'' | h''
      · exact Or.inr (Or.inr h'')
      · exact Or.inr (Or.inl h'')
      · exact Or.inr (Or.inr h'')

/-- A defaulted field read that is a reference was an actual field. -/
theorem getD_ref (af : List (String × JSVal)) (k : String) (pa : Nat)
    (hg : (getKey af k).getD (.prim .undef) = .ref pa) :
    getKey af k = some (.ref pa) := by
  cases hgk : getKey af k with
  | none => rw [hgk] at hg; simp at hg
  | some v => rw [hgk] at hg; simp at hg; rw [hg]

/-- A field value of a record node is one of its children. -/
theorem field_child (h : Heap) (a : Nat) (k : String) (v : JSVal)
    (hg : getKey (fieldsOf (nodeAt h a)) k = some v) :
    v ∈ childVals (nodeAt h a) :=
  mem_fieldsOf_child (nodeAt h a) (k, v)
    (getKey_mem (fieldsOf (nodeAt h a)) k v hg)

/-- Frame of one `deepMerge` key step. -/
theorem dmKey_frame (go : Heap → Nat → Nat → Option Heap)
    (Hgo : ∀ h0 x y h0', heapClosed h0 = true → x < h0.length →
      go h0 x y = some h0' → MergeFrame h0 h0' x y)
    (h : Heap) (ra rb : Nat) (k : String) (h' : Heap)
    (hc : heapClosed h = true) (hra : ra < h.length)
    (hd : dmKey go h ra rb k = some h') : MergeFrame h h' ra rb := by
  have hPrevChild : ∀ v, (getKey (fieldsOf (nodeAt h ra)) k).getD (.prim .undef) = v →
      ∀ t, Reaches h v t → Reaches h (.ref ra) t := by
    intro v hv t hr
    cases v with
    | prim p => cases hr
    | ref pa =>
      exact reaches_child h ra _ t (field_child h ra k _ (getD_ref _ k pa hv)) hr
  have hCurChild : ∀ v, (getKey (fieldsOf (nodeAt h rb)) k).getD (.prim .undef) = v →
      ∀ t, Reaches h v t → Reaches h (.ref rb) t := by
    intro v hv t hr
    cases v with
    | prim p => cases hr
    | ref ca =>
      exact reaches_child h rb _ t (field_child h rb k _ (getD_ref _ k ca hv)) hr
  unfold dmKey at hd
  dsimp only at hd
  split at hd
  case isTrue hcond =>
    -- both arrays: fresh concat node, assignment of the fresh reference
    rcases Bool.and_eq_true_iff.mp hcond with ⟨hpa, hca⟩
    obtain ⟨pa, hprev, pl, hpl⟩ : ∃ pa,
        (getKey (fieldsOf (nodeAt h ra)) k).getD (.prim .undef) = .ref pa ∧
        ∃ pl, nodeAt h pa = .arr pl := by
      cases hv : (getKey (fieldsOf (nodeAt h ra)) k).getD (.prim .undef) with
      | prim p => rw [hv] at hpa; simp [isArrRef] at hpa
      | ref pa =>
        rw [hv] at hpa
        cases hn : nodeAt h pa with
        | arr pl => exact ⟨pa, rfl, pl, hn⟩
        | obj f => simp [isArrRef, hn] at hpa
        | set s => simp [isArrRef, hn] at hpa
        | map me => simp [isArrRef, hn] at hpa
        | date ms => simp [isArrRef, hn] at hpa
        | weakmap e => simp [isArrRef, hn] at hpa
        | weakset e => simp [isArrRef, hn] at hpa
    obtain ⟨ca, hcur, cl, hcl⟩ : ∃ ca,
        (getKey (fieldsOf (nodeAt h rb)) k).getD (.prim .undef) = .ref ca ∧
        ∃ cl, nodeAt h ca = .arr cl := by
      cases hv : (getKey (fieldsOf (nodeAt h rb)) k).getD (.prim .undef) with
      | prim p => rw [hv] at hca; simp [isArrRef] at hca
      | ref ca =>
        rw [hv] at hca
        cases hn : nodeAt h ca with
        | arr cl => exact ⟨ca, rfl, cl, hn⟩
        | obj f => simp [isArrRef, hn] at hca
        | set s => simp [isArrRef, hn] at hca
        | map me => simp [isArrRef, hn] at hca
        | date ms => simp [isArrRef, hn] at hca
        | weakmap e => simp [isArrRef, hn] at hca
        | weakset e => simp [isArrRef, hn] at hca
    rw [hprev, hcur] at hd
    unfold objSetKey at hd
    rw [nodeAt_append h _ ra hra] at hd
    cases haN : nodeAt h ra with
    | obj af =>
      rw [haN] at hd
      simp only [Option.some.injEq] at hd
      subst hd
      have hpaLt : pa < h.length := by
        have := heapClosed_child h hc ra (.ref pa)
          (by rw [haN]; exact (by rw [← haN]; exact field_child h ra k _ (getD_ref _ k pa (by rw [haN] at hprev ⊢; exact hprev))))
        simpa [valClosed] using this
      have hmut := mergeMut h ra [.arr (spreadOne h (.ref pa) ++
          spreadConcat h (spreadOne h (.ref ca)))] af
        (setKey af k (.ref h.length)) h.length
        (fun t => Reaches h (.ref ra) t ∨ Reaches h (.ref rb) t)
        haN hra hc le_rfl ?_ ?_
      · obtain ⟨mc, mlen, _, mstable2, mev⟩ := hmut
        refine ⟨mc, by rw [mlen]; omega, ?_, ?_⟩
        · intro i hi hne
          by_cases hieq : i = ra
          · rw [hieq]
            exact Or.inl (Reaches.here ra)
          · exact absurd (mstable2 i hieq hi) hne
        · intro v t ht hr
          rcases mev v t ht hr with h' | h' | h'
          · exact Or.inl h'
          · exact Or.inr (Or.inl h')
          · exact Or.inr (Or.inr h')
      · intro node hn c hcm
        simp only [List.mem_singleton] at hn
        subst hn
        simp only [childVals, List.mem_append] at hcm
        rcases hcm with hcm | hcm
        · rw [show spreadOne h (.ref pa) = pl by simp [spreadOne, hpl]] at hcm
          refine ⟨heapClosed_child h hc pa c (by rw [hpl]; exact hcm), ?_⟩
          intro t _ hr
          refine Or.inl (hPrevChild _ hprev t ?_)
          exact reaches_child h pa c t (by rw [hpl]; exact hcm) hr
        · rw [show spreadOne h (.ref ca) = cl by simp [spreadOne, hcl]] at hcm
          rcases spreadConcat_mem h cl c hcm with hm | ⟨a', l', hal, hnode, hvm⟩
          · refine ⟨heapClosed_child h hc ca c (by rw [hcl]; exact hm), ?_⟩
            intro t _ hr
            refine Or.inr (hCurChild _ hcur t ?_)
            exact reaches_child h ca c t (by rw [hcl]; exact hm) hr
          · refine ⟨heapClosed_child h hc a' c (by rw [hnode]; exact hvm), ?_⟩
            intro t _ hr
            refine Or.inr (hCurChild _ hcur t ?_)
            refine reaches_child h ca _ t (by rw [hcl]; exact hal) ?_
            exact reaches_child h a' c t (by rw [hnode]; exact hvm) hr
      · intro c hcm
        rcases setKey_val_mem af k (.ref h.length) c hcm with hm | rfl
        · exact Or.inl (by rw [haN]; simpa [childVals] using hm)
        · exact Or.inr (Or.inr ⟨h.length, rfl, le_rfl, by simp⟩)
    | arr l => rw [haN] at hd; simp at hd
    | set l => rw [haN] at hd; simp at hd
    | map e => rw [haN] at hd; simp at hd
    | date ms => rw [haN] at hd; simp at hd
    | weakmap e => rw [haN] at hd; simp at hd
    | weakset e => rw [haN] at hd; simp at hd
  case isFalse =>
    split at hd
    case isTrue hcond =>
      -- both records: recursive merge then re-assignment of the accumulated
      rcases Bool.and_eq_true_iff.mp hcond with ⟨hpo, hco⟩
      obtain ⟨pa, hprev⟩ : ∃ pa,
          (getKey (fieldsOf (nodeAt h ra)) k).getD (.prim .undef) = .ref pa := by
        cases hv : (getKey (fieldsOf (nodeAt h ra)) k).getD (.prim .undef) with
        | prim p => rw [hv] at hpo; simp [isObjectRef] at hpo
        | ref pa => exact ⟨pa, rfl⟩
      obtain ⟨ca, hcur⟩ : ∃ ca,
          (getKey (fieldsOf (nodeAt h rb)) k).getD (.prim .undef) = .ref ca := by
        cases hv : (getKey (fieldsOf (nodeAt h rb)) k).getD (.prim .undef) with
        | prim p => rw [hv] at hco; simp [isObjectRef] at hco
        | ref ca => exact ⟨ca, rfl⟩
      rw [hprev, hcur] at hd
      simp only [addrOf] at hd
      cases hgo : go h pa ca with
      | none => rw [hgo] at hd; simp at hd
      | some h1 =>
        rw [hgo] at hd
        dsimp only at hd
        have hpaLt : pa < h.length := by
          have := heapClosed_child h hc ra (.ref pa)
            (field_child h ra k _ (getD_ref _ k pa hprev))
          simpa [valClosed] using this
        obtain ⟨ic, il, ifr, iev⟩ := Hgo h pa ca h1 hc hpaLt hgo
        unfold objSetKey at hd
        cases haN1 : nodeAt h1 ra with
        | obj af1 =>
          rw [haN1] at hd
          simp only [Option.some.injEq] at hd
          subst hd
          have hset : h1.set ra (JSObj.obj (setKey af1 k (.ref pa))) =
              (h1 ++ []).set ra (JSObj.obj (setKey af1 k (.ref pa))) := by
            simp
          have hmut := mergeMut h1 ra [] af1 (setKey af1 k (.ref pa)) h.length
            (fun t => Reaches h (.ref ra) t ∨ Reaches h (.ref rb) t)
            haN1 (by omega) ic (by omega) (by simp) ?_
          · obtain ⟨mc, mlen, _, mstable2, mev⟩ := hmut
            rw [← hset] at mc mlen mstable2 mev
            refine ⟨mc, by simp; omega, ?_, ?_⟩
            · intro i hi hne
              by_cases hieq : i = ra
              · rw [hieq]
                exact Or.inl (Reaches.here ra)
              · have hstep : nodeAt h1 i ≠ nodeAt h i := by
                  intro he
                  exact hne (by rw [mstable2 i hieq (by omega), he])
                rcases ifr i hi hstep with hr | hr
                · exact Or.inl (hPrevChild _ hprev i hr)
                · exact Or.inr (hCurChild _ hcur i hr)
            · intro v t ht hr
              rcases mev v t ht hr with h' | h' | h'
              · rcases iev v t ht h' with h'' | h'' | h''
                · exact Or.inl h''
                · exact Or.inr (Or.inl (hPrevChild _ hprev t h''))
                · exact Or.inr (Or.inr (hCurChild _ hcur t h''))
              · exact Or.inr (Or.inl h')
              · exact Or.inr (Or.inr h')
          · intro c hcm
            rcases setKey_val_mem af1 k (.ref pa) c hcm with hm | rfl
            · exact Or.inl (by rw [haN1]; simpa [childVals] using hm)
            · refine Or.inr (Or.inl ⟨by simp [valClosed]; omega, ?_⟩)
              intro t ht hr
              rcases iev (.ref pa) t ht hr with h' | h' | h'
              · exact Or.inl (hPrevChild _ hprev t h')
              · exact Or.inl (hPrevChild _ hprev t h')
              · exact Or.inr (hCurChild _ hcur t h')
        | arr l => rw [haN1] at hd; simp at hd
        | set l => rw [haN1] at hd; simp at hd
        | map e => rw [haN1] at hd; simp at hd
        | date ms => rw [haN1] at hd; simp at hd
        | weakmap e => rw [haN1] at hd; simp at hd
        | weakset e => rw [haN1] at hd; simp at hd
    case isFalse =>
      -- overwrite with the incoming value
      unfold objSetKey at hd
      cases haN : nodeAt h ra with
      | obj af =>
        rw [haN] at hd
        simp only [Option.some.injEq] at hd
        subst hd
        have hset : h.set ra (JSObj.obj (setKey af k
            ((getKey (fieldsOf (nodeAt h rb)) k).getD (.prim .undef)))) =
            (h ++ []).set ra (JSObj.obj (setKey af k
              ((getKey (fieldsOf (nodeAt h rb)) k).getD (.prim .undef)))) := by
          simp
        have hmut := mergeMut h ra [] af
          (setKey af k ((getKey (fieldsOf (nodeAt h rb)) k).getD (.prim .undef)))
          h.length (fun t => Reaches h (.ref ra) t ∨ Reaches h (.ref rb) t)
          haN hra hc le_rfl (by simp) ?_
        · obtain ⟨mc, mlen, _, mstable2, mev⟩ := hmut
          rw [← hset] at mc mlen mstable2 mev
          refine ⟨mc, by simp, ?_, ?_⟩
          · intro i hi hne
            by_cases hieq : i = ra
            · rw [hieq]
              exact Or.inl (Reaches.here ra)
            · exact absurd (mstable2 i hieq hi) hne
          · intro v t ht hr
            rcases mev v t ht hr with h' | h' | h'
            · exact Or.inl h'
            · exact Or.inr (Or.inl h')
            · exact Or.inr (Or.inr h')
        · have hcurClosed : valClosed h.length
              ((getKey (fieldsOf (nodeAt h rb)) k).getD (.prim .undef)) = true := by
            cases hg : getKey (fieldsOf (nodeAt h rb)) k with
            | none => rfl
            | some v =>
              simpa using heapClosed_child h hc rb v (field_child h rb k v hg)
          intro c hcm
          rcases setKey_val_mem af k _ c hcm with hm | hceq
          · exact Or.inl (by rw [haN]; simpa [childVals] using hm)
          · refine Or.inr (Or.inl ⟨by rw [hceq]; exact hcurClosed, ?_⟩)
            intro t _ hr
            rw [hceq] at hr
            exact Or.inr (hCurChild _ rfl t hr)
      | arr l => rw [haN] at hd; simp at hd
      | set l => rw [haN] at hd; simp at hd
      | map e => rw [haN] at hd; simp at hd
      | date ms => rw [haN] at hd; simp at hd
      | weakmap e => rw [haN] at hd; simp at hd
      | weakset e => rw [haN] at hd; simp at hd

/-- Frame of the whole key loop of one binary `deepMerge` step. -/
theorem dmKeys_frame (go : Heap → Nat → Nat → Option Heap)
    (Hgo : ∀ h0 x y h0', heapClosed h0 = true → x < h0.length →
      go h0 x y = some h0' → MergeFrame h0 h0' x y) (ra rb : Nat) :
    ∀ (l : List String) (h h' : Heap), heapClosed h = true →
      ra < h.length → dmKeys go ra rb h l = some h' →
      MergeFrame h h' ra rb := by
  intro l
  induction l with
  | nil =>
    intro h h' hc hra hd
    simp [dmKeys] at hd
    subst hd
    exact MergeFrame_refl h ra rb hc
  | cons k rest ih =>
    intro h h' hc hra hd
    simp only [dmKeys] at hd
    cases hk : dmKey go h ra rb k with
    | none => rw [hk] at hd; simp at hd
    | some h1 =>
      rw [hk] at hd
      dsimp only at hd
      have m1 := dmKey_frame go Hgo h ra rb k h1 hc hra hk
      have m2 := ih h1 h' m1.1 (by
        obtain ⟨_, hl, _, _⟩ := m1
        omega) hd
      exact MergeFrame_trans h h1 h' ra rb m1 m2

/-- Frame of one binary `deepMerge(result, obj)` step. -/
theorem dm2_frame : ∀ (fuel : Nat) (h : Heap) (ra rb : Nat) (h' : Heap),
    heapClosed h = true → ra < h.length → dm2 fuel h ra rb = some h' →
    MergeFrame h h' ra rb := by
  intro fuel
  induction fuel with
  | zero => intro h ra rb h' _ _ hd; simp [dm2] at hd
  | succ f ih =>
    intro h ra rb h' hc hra hd
    simp only [dm2] at hd
    exact dmKeys_frame (dm2 f) (fun h0 x y h0' hc0 hx0 hd0 => ih h0 x y h0' hc0 hx0 hd0)
      ra rb (keysOf (nodeAt h rb)) h h' hc hra hd

/-- C9 corrected: `deepMerge` uses its first argument as the
accumulator.  Called
with fewer than two arguments it raises an error and merges nothing;
on success it returns exactly the first record (by reference); and a
binary merge step mutates no pre-existing node other than those
reachable from the accumulator or the incoming record (the incoming
record's values become reachable from the first argument as they are
linked in, which is how its sub-records can subsequently be mutated by
the recursive merges). -/
theorem deepMerge_accumulator (fuel : Nat) (h : Heap) (a b : Nat) :
    (∀ args : List Nat, args.length < 2 → deepMergeJS fuel h args =
      .error "deepMerge: this function expects at least 2 objects to be provided") ∧
    (∀ args h' v, deepMergeJS fuel h args = .ok (some (h', v)) →
      ∃ a0 rest, args = a0 :: rest ∧ v = .ref a0) ∧
    (heapClosed h = true → a < h.length → ∀ h', dm2 fuel h a b = some h' →
      h.length ≤ h'.length ∧
      (∀ i, i < h.length → nodeAt h' i ≠ nodeAt h i →
        Reaches h (.ref a) i ∨ Reaches h (.ref b) i) ∧
      (∀ v t, t < h.length → Reaches h' v t →
        Reaches h v t ∨ Reaches h (.ref a) t ∨ Reaches h (.ref b) t)) := by
  refine ⟨?_, ?_, ?_⟩
  · intro args hlen
    match args with
    | [] => rfl
    | [a0] => rfl
    | a0 :: a1 :: rest => simp at hlen; omega
  · intro args h' v hd
    match args with
    | [] => simp [deepMergeJS] at hd
    | [a0] => simp [deepMergeJS] at hd
    | a0 :: a1 :: rest =>
      refine ⟨a0, a1 :: rest, rfl, ?_⟩
      simp only [deepMergeJS, Except.ok.injEq] at hd
      have : ∀ (bs : List Nat) (h0 h1 : Heap) (v1 : JSVal),
          dmFold fuel a0 h0 bs = some (h1, v1) → v1 = .ref a0 := by
        intro bs
        induction bs with
        | nil => intro h0 h1 v1 hf; simp [dmFold] at hf; exact hf.2.symm
        | cons b0 rest ih =>
          intro h0 h1 v1 hf
          simp only [dmFold] at hf
          cases hm : dm2 fuel h0 a0 b0 with
          | none => rw [hm] at hf; simp at hf
          | some h2 => rw [hm] at hf; exact ih h2 h1 v1 hf
      exact this (a1 :: rest) h h' v hd
  · intro hc hal h' hd
    obtain ⟨_, hl, hf, he⟩ := dm2_frame fuel h a b h' hc hal hd
    exact ⟨hl, hf, he⟩

/-- Witness for `deepMerge_accumulator`: on `recPairHeap`,
`deepMerge({a:{x:1}}, {a:{y:2}})` returns the first record, and the
frame conjunct applies to the binary step. -/
theorem deepMerge_accumulator_witness :
    (([] : List Nat).length < 2 ∧ heapClosed recPairHeap = true ∧
      (0 : Nat) < recPairHeap.length ∧
      dm2 3 recPairHeap 0 2 = some
        [.obj [("a", .ref 1)],
         .obj [("x", .prim (.num 1)), ("y", .prim (.num 2))],
         .obj [("a", .ref 3)], .obj [("y", .prim (.num 2))]]) ∧
    deepMergeJS 3 recPairHeap [] =
      .error "deepMerge: this function expects at least 2 objects to be provided" ∧
    (recPairHeap.length ≤
      ([JSObj.obj [("a", .ref 1)],
        .obj [("x", .prim (.num 1)), ("y", .prim (.num 2))],
        .obj [("a", .ref 3)], .obj [("y", .prim (.num 2))]] : Heap).length) :=
  ⟨⟨by decide, by decide, by decide, rfl⟩,
    (deepMerge_accumulator 3 recPairHeap 0 2).1 [] (by decide),
    ((deepMerge_accumulator 3 recPairHeap 0 2).2.2 (by decide) (by decide)
      _ rfl).1⟩

/-! ## Clone: structural lemmas -/

theorem clook_mem (c : Cache) (x p : Nat) (hl : clook c x = some p) :
    (x, p) ∈ c := by
  induction c with
  | nil => simp [clook] at hl
  | cons q rest ih =>
    obtain ⟨k, v⟩ := q
    simp only [clook] at hl
    by_cases hk : k = x
    · subst hk
      rw [if_pos rfl] at hl
      injection hl with hv
      subst hv
      exact List.mem_cons_self _ _
    · rw [if_neg hk] at hl
      exact List.mem_cons_of_mem _ (ih hl)

theorem heapWF_closed (h : Heap) (hwf : heapWF h = true) :
    heapClosed h = true := by
  simp only [heapWF, List.all_eq_true] at hwf
  simp only [heapClosed, List.all_eq_true]
  intro node hn
  have := hwf node hn
  simp only [nodeWF, Bool.and_eq_true] at this
  exact List.all_eq_true.mp this.1

theorem nodeAt_keys_nodup (h : Heap) (hwf : heapWF h = true) (x : Nat) :
    nodupKeys (keysOf (nodeAt h x)) = true := by
  by_cases hb : x < h.length
  · have hmem : nodeAt h x ∈ h := by
      simp [nodeAt, List.getD]
      rw [List.getElem?_eq_getElem hb]
      exact List.getElem_mem hb
    have := (List.all_eq_true.mp hwf) (nodeAt h x) hmem
    simp only [nodeWF, Bool.and_eq_true] at this
    cases hn : nodeAt h x with
    | obj f => rw [hn] at this; exact this.2
    | arr l => simp [keysOf, nodupKeys]
    | set l => simp [keysOf, nodupKeys]
    | map e => simp [keysOf, nodupKeys]
    | date ms => simp [keysOf, nodupKeys]
    | weakmap e => simp [keysOf, nodupKeys]
    | weakset e => simp [keysOf, nodupKeys]
  · have : nodeAt h x = .obj [] := by
      simp [nodeAt, List.getD, List.getElem?_eq_none (by omega : h.length ≤ x)]
    rw [this]
    simp [keysOf, nodupKeys]

theorem nodeAt_mapkeys_nodup (h : Heap) (hwf : heapWF h = true) (x : Nat)
    (e : List (JSVal × JSVal)) (hn : nodeAt h x = .map e) :
    nodupVals (e.map Prod.fst) = true := by
  by_cases hb : x < h.length
  · have hmem : nodeAt h x ∈ h := by
      simp [nodeAt, List.getD]
      rw [List.getElem?_eq_getElem hb]
      exact List.getElem_mem hb
    have := (List.all_eq_true.mp hwf) (nodeAt h x) hmem
    simp only [nodeWF, Bool.and_eq_true] at this
    rw [hn] at this
    exact this.2
  · rw [nodeAt_dangling h x (by omega)] at hn
    cases hn

theorem reaches_confined (h h2 : Heap)
    (hext : ∀ i, i < h.length → nodeAt h2 i = nodeAt h i)
    (hc : heapClosed h = true) :
    ∀ (v : JSVal) (t : Nat), valClosed h.length v = true →
      Reaches h2 v t → t < h.length ∧ Reaches h v t := by
  intro v t hv hr
  induction hr with
  | here a =>
    simp [valClosed] at hv
    exact ⟨hv, .here a⟩
  | step a c t hcm hr ih =>
    simp [valClosed] at hv
    rw [hext a hv] at hcm
    have hcc : valClosed h.length c = true := heapClosed_child h hc a c hcm
    obtain ⟨ht, hrc⟩ := ih hcc
    exact ⟨ht, .step a c t hcm hrc⟩

theorem DeepSim_stable (h h2 : Heap) (hc : heapClosed h = true)
    (hext : ∀ i, i < h.length → nodeAt h2 i = nodeAt h i)
    (v v' : JSVal) (hsim : DeepSim h v v') :
    valClosed h.length v = true → valClosed h.length v' = true →
    DeepSim h2 v v' := by
  induction hsim with
  | prim p => intro _ _; exact .prim p
  | date a b ms ha hb =>
    intro hv hv'
    simp [valClosed] at hv hv'
    exact .date a b ms ((hext a hv).trans ha) ((hext b hv').trans hb)
  | wmap a b e ha hb =>
    intro hv hv'
    simp [valClosed] at hv hv'
    exact .wmap a b e ((hext a hv).trans ha) ((hext b hv').trans hb)
  | wset a b e ha hb =>
    intro hv hv'
    simp [valClosed] at hv hv'
    exact .wset a b e ((hext a hv).trans ha) ((hext b hv').trans hb)
  | arrN a b l l' ha hb hlen hch ih =>
    intro hv hv'
    simp [valClosed] at hv hv'
    refine .arrN a b l l' ((hext a hv).trans ha) ((hext b hv').trans hb) hlen ?_
    intro i hi hi'
    refine ih i hi hi' ?_ ?_
    · exact heapClosed_child h hc a _ (by rw [ha]; exact List.get_mem l i hi)
    · exact heapClosed_child h hc b _ (by rw [hb]; exact List.get_mem l' i hi')
  | setN a b l l' ha hb hlen hch ih =>
    intro hv hv'
    simp [valClosed] at hv hv'
    refine .setN a b l l' ((hext a hv).trans ha) ((hext b hv').trans hb) hlen ?_
    intro i hi hi'
    refine ih i hi hi' ?_ ?_
    · exact heapClosed_child h hc a _ (by rw [ha]; exact List.get_mem l i hi)
    · exact heapClosed_child h hc b _ (by rw [hb]; exact List.get_mem l' i hi')
  | objN a b f f' ha hb hkeys hch ih =>
    intro hv hv'
    simp [valClosed] at hv hv'
    refine .objN a b f f' ((hext a hv).trans ha) ((hext b hv').trans hb) hkeys ?_
    intro i hi hi'
    refine ih i hi hi' ?_ ?_
    · exact heapClosed_child h hc a _ (by
        rw [ha]
        exact List.mem_map_of_mem Prod.snd (List.get_mem f i hi))
    · exact heapClosed_child h hc b _ (by
        rw [hb]
        exact List.mem_map_of_mem Prod.snd (List.get_mem f' i hi'))

theorem heightLeB_mono (h : Heap) :
    ∀ (n m : Nat), n ≤ m → ∀ v, heightLeB h v n = true →
      heightLeB h v m = true := by
  intro n
  induction n with
  | zero =>
    intro m _ v hv
    cases v with
    | prim p => cases m <;> rfl
    | ref a => simp [heightLeB] at hv
  | succ n ih =>
    intro m hm v hv
    cases v with
    | prim p => cases m <;> rfl
    | ref a =>
      obtain ⟨m', rfl⟩ : ∃ m', m = m' + 1 := ⟨m - 1, by omega⟩
      simp only [heightLeB, List.all_eq_true] at hv ⊢
      intro c hcm
      exact ih m' (by omega) c (hv c hcm)

theorem heightLeB_stable (h h2 : Heap) (hc : heapClosed h = true)
    (hext : ∀ i, i < h.length → nodeAt h2 i = nodeAt h i) :
    ∀ (n : Nat) (v : JSVal), valClosed h.length v = true →
      heightLeB h v n = true → heightLeB h2 v n = true := by
  intro n
  induction n with
  | zero =>
    intro v hv hh
    cases v with
    | prim p => rfl
    | ref a => simp [heightLeB] at hh
  | succ n ih =>
    intro v hv hh
    cases v with
    | prim p => rfl
    | ref a =>
      simp [valClosed] at hv
      simp only [heightLeB, List.all_eq_true] at hh ⊢
      rw [hext a hv]
      intro c hcm
      exact ih c (heapClosed_child h hc a c hcm) (hh c hcm)

theorem heightLeB_reach (h : Heap) :
    ∀ (v : JSVal) (t : Nat), Reaches h v t →
      ∀ n, heightLeB h v n = true → heightLeB h (.ref t) n = true := by
  intro v t hr
  induction hr with
  | here a => intro n hn; exact hn
  | step a c t hcm hr ih =>
    intro n hn
    cases n with
    | zero => simp [heightLeB] at hn
    | succ n =>
      simp only [heightLeB, List.all_eq_true] at hn
      exact heightLeB_mono h n (n + 1) (by omega) _ (ih n (hn c hcm))

theorem noSelfReach (h : Heap) :
    ∀ (n : Nat) (a : Nat), heightLeB h (.ref a) n = true →
      ∀ c ∈ childVals (nodeAt h a), ¬ Reaches h c a := by
  intro n
  induction n with
  | zero => intro a ha; simp [heightLeB] at ha
  | succ n ih =>
    intro a ha c hcm hr
    simp only [heightLeB, List.all_eq_true] at ha
    have hcn : heightLeB h c n = true := ha c hcm
    have han : heightLeB h (.ref a) n = true := heightLeB_reach h c a hr n hcn
    exact ih a han c hcm hr

theorem heightLeB_of_sim (h : Heap) :
    ∀ (n : Nat) (v v' : JSVal), DeepSim h v v' →
      heightLeB h v n = true → heightLeB h v' n = true := by
  intro n
  induction n with
  | zero =>
    intro v v' hsim hv
    cases hsim with
    | prim p => rfl
    | date a b ms ha hb => simp [heightLeB] at hv
    | wmap a b e ha hb => simp [heightLeB] at hv
    | wset a b e ha hb => simp [heightLeB] at hv
    | arrN a b l l' ha hb hlen hch => simp [heightLeB] at hv
    | setN a b l l' ha hb hlen hch => simp [heightLeB] at hv
    | objN a b f f' ha hb hkeys hch => simp [heightLeB] at hv
  | succ n ih =>
    intro v v' hsim hv
    cases hsim with
    | prim p => rfl
    | date a b ms ha hb =>
      simp [heightLeB, hb, childVals]
    | wmap a b e ha hb =>
      simp [heightLeB, hb, childVals]
    | wset a b e ha hb =>
      simp [heightLeB, hb, childVals]
    | arrN a b l l' ha hb hlen hch =>
      simp only [heightLeB, ha, hb, childVals, List.all_eq_true] at *
      intro c hcm
      obtain ⟨⟨j, hj⟩, rfl⟩ := List.mem_iff_get.mp hcm
      have hj' : j < l.length := by omega
      exact ih _ _ (hch j hj' hj) (hv _ (List.get_mem l j hj'))
    | setN a b l l' ha hb hlen hch =>
      simp only [heightLeB, ha, hb, childVals, List.all_eq_true] at *
      intro c hcm
      obtain ⟨⟨j, hj⟩, rfl⟩ := List.mem_iff_get.mp hcm
      have hj' : j < l.length := by omega
      exact ih _ _ (hch j hj' hj) (hv _ (List.get_mem l j hj'))
    | objN a b f f' ha hb hkeys hch =>
      simp only [heightLeB, ha, hb, childVals, List.all_eq_true] at *
      intro c hcm
      simp only [List.mem_map] at hcm
      obtain ⟨p, hp, rfl⟩ := hcm
      obtain ⟨⟨j, hj⟩, rfl⟩ := List.mem_iff_get.mp hp
      have hj' : j < f.length := by
        have := congrArg List.length hkeys
        simp at this
        omega
      refine ih _ _ (hch j hj' hj) ?_
      refine hv _ ?_
      exact List.mem_map_of_mem Prod.snd (List.get_mem f j hj')

theorem mapFree_append (h : Heap) (node : JSObj)
    (hnode : ∀ e, node ≠ JSObj.map e) (hmf : mapFree h = true) :
    mapFree (h ++ [node]) = true := by
  simp only [mapFree, List.all_eq_true] at hmf ⊢
  intro x hx
  rcases List.mem_append.mp hx with hx | hx
  · exact hmf x hx
  · simp only [List.mem_singleton] at hx
    subst hx
    cases x with
    | map e => exact absurd rfl (hnode e)
    | obj f => rfl
    | arr l => rfl
    | set l => rfl
    | date ms => rfl
    | weakmap e => rfl
    | weakset e => rfl

theorem mapFree_nodeAt (h : Heap) (hmf : mapFree h = true) (x : Nat)
    (e : List (JSVal × JSVal)) : nodeAt h x ≠ .map e := by
  intro hn
  by_cases hb : x < h.length
  · have hmem : nodeAt h x ∈ h := by
      simp [nodeAt, List.getD]
      rw [List.getElem?_eq_getElem hb]
      exact List.getElem_mem hb
    have := (List.all_eq_true.mp hmf) _ hmem
    rw [hn] at this
    simp at this
  · rw [nodeAt_dangling h x (by omega)] at hn
    cases hn

theorem keysWF_append (h : Heap) (node : JSObj)
    (hnode : nodupKeys (keysOf node) = true) :
    keysWF h → keysWF (h ++ [node]) := by
  intro kw x
  rcases Nat.lt_trichotomy x h.length with hx | hx | hx
  · rw [nodeAt_append h _ x hx]
    exact kw x
  · rw [hx, nodeAt_append_self]
    exact hnode
  · rw [nodeAt_dangling _ x (by simp; omega)]
    simp [keysOf, nodupKeys]

theorem cloneList_tot (go : Heap → JSVal → Option (Heap × JSVal)) (n : Nat)
    (hgo : ∀ h v, heapClosed h = true → mapFree h = true →
      valClosed h.length v = true → heightLeB h v n = true →
      ∃ h' v', go h v = some (h', v') ∧ CloneOut h v h' v') :
    ∀ (l : List JSVal) (h : Heap),
    heapClosed h = true → mapFree h = true →
    (∀ v ∈ l, valClosed h.length v = true) →
    (∀ v ∈ l, heightLeB h v n = true) →
    ∃ h2 l', cloneList go h l = some (h2, l') ∧
      heapClosed h2 = true ∧ h.length ≤ h2.length ∧
      (∀ i, i < h.length → nodeAt h2 i = nodeAt h i) ∧
      l'.length = l.length ∧
      (∀ v' ∈ l', valClosed h2.length v' = true) ∧
      (∀ v' ∈ l', ∀ t, Reaches h2 v' t → h.length ≤ t) ∧
      (∀ i (hi : i < l.length) (hi' : i < l'.length),
        DeepSim h2 (l.get ⟨i, hi⟩) (l'.get ⟨i, hi'⟩)) ∧
      (keysWF h → keysWF h2) ∧
      mapFree h2 = true := by
  intro l
  induction l with
  | nil =>
    intro h hc hmf _ _
    refine ⟨h, [], rfl, hc, le_refl _, fun i _ => rfl, rfl, ?_, ?_, ?_,
      fun kw => kw, hmf⟩
    · intro v' hv'; simp at hv'
    · intro v' hv'; simp at hv'
    · intro i hi hi'; simp at hi
  | cons v rest ih =>
    intro h hc hmf hcl hht
    obtain ⟨h1, v0, hgo1, hco⟩ :=
      hgo h v hc hmf (hcl v (List.mem_cons_self _ _))
        (hht v (List.mem_cons_self _ _))
    unfold CloneOut at hco
    obtain ⟨hc1, hlen1, hext1, hvc1, hfr1, hsim1, hkn1, hmf1⟩ := hco
    obtain ⟨h2, l', hrest, hc2, hlen2, hext2, hlen', hvc2, hfr2, hsims, hkn2,
        hmf2⟩ :=
      ih h1 hc1 hmf1
        (fun w hw => valClosed_mono w h.length h1.length hlen1
          (hcl w (List.mem_cons_of_mem _ hw)))
        (fun w hw => heightLeB_stable h h1 hc hext1 n w
          (hcl w (List.mem_cons_of_mem _ hw)) (hht w (List.mem_cons_of_mem _ hw)))
    refine ⟨h2, v0 :: l', ?_, hc2, le_trans hlen1 hlen2, ?_, by simp [hlen'],
      ?_, ?_, ?_, fun kw => hkn2 (hkn1 kw), hmf2⟩
    · simp only [cloneList, hgo1, hrest]
    · intro i hi
      exact (hext2 i (lt_of_lt_of_le hi hlen1)).trans (hext1 i hi)
    · intro v' hv'
      rcases List.mem_cons.mp hv' with rfl | hv'
      · exact valClosed_mono _ h1.length h2.length hlen2 hvc1
      · exact hvc2 v' hv'
    · intro v' hv' t hr
      rcases List.mem_cons.mp hv' with rfl | hv'
      · exact hfr1 t (reaches_confined h1 h2 hext2 hc1 v' t hvc1 hr).2
      · exact le_trans hlen1 (hfr2 v' hv' t hr)
    · intro i hi hi'
      cases i with
      | zero =>
        simp only [List.get]
        exact DeepSim_stable h1 h2 hc1 hext2 v v0 hsim1
          (valClosed_mono v h.length h1.length hlen1
            (hcl v (List.mem_cons_self _ _))) hvc1
      | succ i =>
        simp only [List.get]
        exact hsims i (Nat.lt_of_succ_lt_succ hi) (Nat.lt_of_succ_lt_succ hi')

theorem cloneFields_tot (go : Heap → JSVal → Option (Heap × JSVal)) (n : Nat)
    (hgo : ∀ h v, heapClosed h = true → mapFree h = true →
      valClosed h.length v = true → heightLeB h v n = true →
      ∃ h' v', go h v = some (h', v') ∧ CloneOut h v h' v') :
    ∀ (l : List (String × JSVal)) (h : Heap),
    heapClosed h = true → mapFree h = true →
    (∀ p ∈ l, valClosed h.length p.2 = true) →
    (∀ p ∈ l, heightLeB h p.2 n = true) →
    ∃ h2 l', cloneFields go h l = some (h2, l') ∧
      heapClosed h2 = true ∧ h.length ≤ h2.length ∧
      (∀ i, i < h.length → nodeAt h2 i = nodeAt h i) ∧
      l'.map Prod.fst = l.map Prod.fst ∧
      (∀ p ∈ l', valClosed h2.length p.2 = true) ∧
      (∀ p ∈ l', ∀ t, Reaches h2 p.2 t → h.length ≤ t) ∧
      (∀ i (hi : i < l.length) (hi' : i < l'.length),
        DeepSim h2 (l.get ⟨i, hi⟩).2 (l'.get ⟨i, hi'⟩).2) ∧
      (keysWF h → keysWF h2) ∧
      mapFree h2 = true := by
  intro l
  induction l with
  | nil =>
    intro h hc hmf _ _
    refine ⟨h, [], rfl, hc, le_refl _, fun i _ => rfl, rfl, ?_, ?_, ?_,
      fun kw => kw, hmf⟩
    · intro p hp; simp at hp
    · intro p hp; simp at hp
    · intro i hi hi'; simp at hi
  | cons p rest ih =>
    obtain ⟨k, v⟩ := p
    intro h hc hmf hcl hht
    obtain ⟨h1, v0, hgo1, hco⟩ :=
      hgo h v hc hmf (hcl (k, v) (List.mem_cons_self _ _))
        (hht (k, v) (List.mem_cons_self _ _))
    unfold CloneOut at hco
    obtain ⟨hc1, hlen1, hext1, hvc1, hfr1, hsim1, hkn1, hmf1⟩ := hco
    obtain ⟨h2, l', hrest, hc2, hlen2, hext2, hkeys, hvc2, hfr2, hsims, hkn2,
        hmf2⟩ :=
      ih h1 hc1 hmf1
        (fun w hw => valClosed_mono w.2 h.length h1.length hlen1
          (hcl w (List.mem_cons_of_mem _ hw)))
        (fun w hw => heightLeB_stable h h1 hc hext1 n w.2
          (hcl w (List.mem_cons_of_mem _ hw)) (hht w (List.mem_cons_of_mem _ hw)))
    refine ⟨h2, (k, v0) :: l', ?_, hc2, le_trans hlen1 hlen2, ?_,
      by simp [hkeys], ?_, ?_, ?_, fun kw => hkn2 (hkn1 kw), hmf2⟩
    · simp only [cloneFields, hgo1, hrest]
    · intro i hi
      exact (hext2 i (lt_of_lt_of_le hi hlen1)).trans (hext1 i hi)
    · intro q hq
      rcases List.mem_cons.mp hq with rfl | hq
      · exact valClosed_mono _ h1.length h2.length hlen2 hvc1
      · exact hvc2 q hq
    · intro q hq t hr
      rcases List.mem_cons.mp hq with rfl | hq
      · exact hfr1 t (reaches_confined h1 h2 hext2 hc1 _ t hvc1 hr).2
      · exact le_trans hlen1 (hfr2 q hq t hr)
    · intro i hi hi'
      cases i with
      | zero =>
        simp only [List.get]
        exact DeepSim_stable h1 h2 hc1 hext2 v v0 hsim1
          (valClosed_mono v h.length h1.length hlen1
            (hcl (k, v) (List.mem_cons_self _ _))) hvc1
      | succ i =>
        simp only [List.get]
        exact hsims i (Nat.lt_of_succ_lt_succ hi) (Nat.lt_of_succ_lt_succ hi')

theorem cloneF_deep_spec : ∀ (fuel : Nat) (n : Nat) (h : Heap) (v : JSVal),
    heapClosed h = true → valClosed h.length v = true →
    heightLeB h v n = true → mapFree h = true → n < fuel →
    ∃ h' v', cloneF fuel h v true = some (h', v') ∧ CloneOut h v h' v' := by
  intro fuel
  induction fuel with
  | zero => intro n h v _ _ _ _ hlt; omega
  | succ fuel ih =>
    intro n h v hc hv hht hmf hlt
    cases v with
    | prim p =>
      refine ⟨h, .prim p, rfl, ?_⟩
      unfold CloneOut
      refine ⟨hc, le_refl _, fun i _ => rfl, rfl, ?_, .prim p, fun kw => kw,
        hmf⟩
      intro t hr
      cases hr
    | ref a =>
      have ha : a < h.length := by simpa [valClosed] using hv
      cases n with
      | zero => simp [heightLeB] at hht
      | succ n =>
        have hlt' : n < fuel := by omega
        cases hn : nodeAt h a with
        | date ms =>
          refine ⟨h ++ [.date ms], .ref h.length, by simp [cloneF, hn], ?_⟩
          unfold CloneOut
          refine ⟨?_, by simp, fun i hi => nodeAt_append h _ i hi,
            by simp [valClosed], ?_, ?_, ?_, ?_⟩
          · exact heapClosed_append h _ hc (by intro w hw; simp [childVals] at hw)
          · intro t hr
            cases hr with
            | here _ => exact le_refl _
            | step _ c t hcm hr' =>
              rw [nodeAt_append_self] at hcm
              simp [childVals] at hcm
          · exact .date a h.length ms ((nodeAt_append h _ a ha).trans hn)
              (nodeAt_append_self h _)
          · exact keysWF_append h _ (by simp [keysOf, nodupKeys])
          · exact mapFree_append h _ (fun e hEq => by cases hEq) hmf
        | weakmap e =>
          refine ⟨h ++ [.weakmap []], .ref h.length, by simp [cloneF, hn], ?_⟩
          unfold CloneOut
          refine ⟨?_, by simp, fun i hi => nodeAt_append h _ i hi,
            by simp [valClosed], ?_, ?_, ?_, ?_⟩
          · exact heapClosed_append h _ hc (by intro w hw; simp [childVals] at hw)
          · intro t hr
            cases hr with
            | here _ => exact le_refl _
            | step _ c t hcm hr' =>
              rw [nodeAt_append_self] at hcm
              simp [childVals] at hcm
          · exact .wmap a h.length e ((nodeAt_append h _ a ha).trans hn)
              (nodeAt_append_self h _)
          · exact keysWF_append h _ (by simp [keysOf, nodupKeys])
          · exact mapFree_append h _ (fun e hEq => by cases hEq) hmf
        | weakset e =>
          refine ⟨h ++ [.weakset []], .ref h.length, by simp [cloneF, hn], ?_⟩
          unfold CloneOut
          refine ⟨?_, by simp, fun i hi => nodeAt_append h _ i hi,
            by simp [valClosed], ?_, ?_, ?_, ?_⟩
          · exact heapClosed_append h _ hc (by intro w hw; simp [childVals] at hw)
          · intro t hr
            cases hr with
            | here _ => exact le_refl _
            | step _ c t hcm hr' =>
              rw [nodeAt_append_self] at hcm
              simp [childVals] at hcm
          · exact .wset a h.length e ((nodeAt_append h _ a ha).trans hn)
              (nodeAt_append_self h _)
          · exact keysWF_append h _ (by simp [keysOf, nodupKeys])
          · exact mapFree_append h _ (fun e hEq => by cases hEq) hmf
        | arr l =>
          have hchc : ∀ c ∈ l, valClosed h.length c = true := by
            intro c hcm
            exact heapClosed_child h hc a c (by rw [hn]; exact hcm)
          have hchh : ∀ c ∈ l, heightLeB h c n = true := by
            simp only [heightLeB, hn, childVals, List.all_eq_true] at hht
            exact hht
          obtain ⟨h1, l', hcl, hc1, hlen1, hext1, hlen', hvc1, hfr1, hsims,
              hkn, hmf1⟩ :=
            cloneList_tot (fun h' v' => cloneF fuel h' v' true) n
              (fun h' v' hc' hmf' hv' hh' => ih n h' v' hc' hv' hh' hmf' hlt')
              l h hc hmf hchc hchh
          have hext' : ∀ i, i < h.length →
              nodeAt (h1 ++ [JSObj.arr l']) i = nodeAt h i := by
            intro i hi
            exact (nodeAt_append h1 _ i (lt_of_lt_of_le hi hlen1)).trans (hext1 i hi)
          refine ⟨h1 ++ [.arr l'], .ref h1.length, by simp [cloneF, hn, hcl], ?_⟩
          unfold CloneOut
          refine ⟨?_, by simp; omega, hext', by simp [valClosed], ?_, ?_, ?_,
            ?_⟩
          · refine heapClosed_append h1 _ hc1 ?_
            intro w hw
            simp only [childVals] at hw
            exact valClosed_mono _ _ _ (by simp) (hvc1 w hw)
          · intro t hr
            cases hr with
            | here _ => exact le_trans hlen1 (le_refl _)
            | step _ c t hcm hr' =>
              rw [nodeAt_append_self] at hcm
              simp only [childVals] at hcm
              exact hfr1 c hcm t
                (reaches_confined h1 _ (fun i hi => nodeAt_append h1 _ i hi)
                  hc1 c t (hvc1 c hcm) hr').2
          · refine .arrN a h1.length l l' ((hext' a ha).trans hn)
              (nodeAt_append_self h1 _) hlen'.symm ?_
            intro i hi hi'
            refine DeepSim_stable h1 _ hc1 (fun j hj => nodeAt_append h1 _ j hj)
              _ _ (hsims i hi hi') ?_ ?_
            · exact valClosed_mono _ _ _ hlen1 (hchc _ (List.get_mem l i hi))
            · exact hvc1 _ (List.get_mem l' i hi')
          · exact fun kw => keysWF_append h1 _ (by simp [keysOf, nodupKeys])
              (hkn kw)
          · exact mapFree_append h1 _ (fun e hEq => by cases hEq) hmf1
        | set l =>
          have hchc : ∀ c ∈ l, valClosed h.length c = true := by
            intro c hcm
            exact heapClosed_child h hc a c (by rw [hn]; exact hcm)
          have hchh : ∀ c ∈ l, heightLeB h c n = true := by
            simp only [heightLeB, hn, childVals, List.all_eq_true] at hht
            exact hht
          obtain ⟨h1, l', hcl, hc1, hlen1, hext1, hlen', hvc1, hfr1, hsims,
              hkn, hmf1⟩ :=
            cloneList_tot (fun h' v' => cloneF fuel h' v' true) n
              (fun h' v' hc' hmf' hv' hh' => ih n h' v' hc' hv' hh' hmf' hlt')
              l h hc hmf hchc hchh
          have hext' : ∀ i, i < h.length →
              nodeAt (h1 ++ [JSObj.set l']) i = nodeAt h i := by
            intro i hi
            exact (nodeAt_append h1 _ i (lt_of_lt_of_le hi hlen1)).trans (hext1 i hi)
          refine ⟨h1 ++ [.set l'], .ref h1.length, by simp [cloneF, hn, hcl], ?_⟩
          unfold CloneOut
          refine ⟨?_, by simp; omega, hext', by simp [valClosed], ?_, ?_, ?_,
            ?_⟩
          · refine heapClosed_append h1 _ hc1 ?_
            intro w hw
            simp only [childVals] at hw
            exact valClosed_mono _ _ _ (by simp) (hvc1 w hw)
          · intro t hr
            cases hr with
            | here _ => exact le_trans hlen1 (le_refl _)
            | step _ c t hcm hr' =>
              rw [nodeAt_append_self] at hcm
              simp only [childVals] at hcm
              exact hfr1 c hcm t
                (reaches_confined h1 _ (fun i hi => nodeAt_append h1 _ i hi)
                  hc1 c t (hvc1 c hcm) hr').2
          · refine .setN a h1.length l l' ((hext' a ha).trans hn)
              (nodeAt_append_self h1 _) hlen'.symm ?_
            intro i hi hi'
            refine DeepSim_stable h1 _ hc1 (fun j hj => nodeAt_append h1 _ j hj)
              _ _ (hsims i hi hi') ?_ ?_
            · exact valClosed_mono _ _ _ hlen1 (hchc _ (List.get_mem l i hi))
            · exact hvc1 _ (List.get_mem l' i hi')
          · exact fun kw => keysWF_append h1 _ (by simp [keysOf, nodupKeys])
              (hkn kw)
          · exact mapFree_append h1 _ (fun e hEq => by cases hEq) hmf1
        | map e => exact absurd hn (mapFree_nodeAt h hmf a e)
        | obj f =>
          have hchc : ∀ p ∈ f, valClosed h.length p.2 = true := by
            intro p hp
            exact heapClosed_child h hc a p.2
              (by rw [hn]; exact List.mem_map_of_mem Prod.snd hp)
          have hchh : ∀ p ∈ f, heightLeB h p.2 n = true := by
            simp only [heightLeB, hn, childVals, List.all_eq_true] at hht
            intro p hp
            exact hht p.2 (List.mem_map_of_mem Prod.snd hp)
          obtain ⟨h1, fs, hcl, hc1, hlen1, hext1, hkeys, hvc1, hfr1, hsims,
              hkn, hmf1⟩ :=
            cloneFields_tot (fun h' v' => cloneF fuel h' v' true) n
              (fun h' v' hc' hmf' hv' hh' => ih n h' v' hc' hv' hh' hmf' hlt')
              f h hc hmf hchc hchh
          have hext' : ∀ i, i < h.length →
              nodeAt (h1 ++ [JSObj.obj fs]) i = nodeAt h i := by
            intro i hi
            exact (nodeAt_append h1 _ i (lt_of_lt_of_le hi hlen1)).trans (hext1 i hi)
          refine ⟨h1 ++ [.obj fs], .ref h1.length, by simp [cloneF, hn, hcl], ?_⟩
          unfold CloneOut
          refine ⟨?_, by simp; omega, hext', by simp [valClosed], ?_, ?_, ?_,
            ?_⟩
          · refine heapClosed_append h1 _ hc1 ?_
            intro w hw
            simp only [childVals, List.mem_map] at hw
            obtain ⟨q, hq, rfl⟩ := hw
            exact valClosed_mono _ _ _ (by simp) (hvc1 q hq)
          · intro t hr
            cases hr with
            | here _ => exact le_trans hlen1 (le_refl _)
            | step _ c t hcm hr' =>
              rw [nodeAt_append_self] at hcm
              simp only [childVals, List.mem_map] at hcm
              obtain ⟨q, hq, rfl⟩ := hcm
              exact hfr1 q hq t
                (reaches_confined h1 _ (fun i hi => nodeAt_append h1 _ i hi)
                  hc1 q.2 t (hvc1 q hq) hr').2
          · refine .objN a h1.length f fs ((hext' a ha).trans hn)
              (nodeAt_append_self h1 _) hkeys.symm ?_
            intro i hi hi'
            refine DeepSim_stable h1 _ hc1 (fun j hj => nodeAt_append h1 _ j hj)
              _ _ (hsims i hi hi') ?_ ?_
            · exact valClosed_mono _ _ _ hlen1 (hchc _ (List.get_mem f i hi))
            · exact hvc1 _ (List.get_mem fs i hi')
          · intro kw
            refine keysWF_append h1 _ ?_ (hkn kw)
            have := kw a
            rw [hn] at this
            simpa [keysOf, hkeys] using this
          · exact mapFree_append h1 _ (fun e hEq => by cases hEq) hmf1

/-! ## Clone: the deep clone compares equal to its original -/

theorem eqVal_prim_refl (h : Heap) (o : EqualOptions) (p : JSPrim)
    (cache : Cache) (fuel depth : Nat) (hd : depth ≤ o.maxDepth) :
    eqVal (fuel + 1) h (.prim p) (.prim p) cache depth o = .ok true := by
  simp only [eqVal]
  rw [if_neg (by omega : ¬ o.maxDepth < depth)]
  cases p <;> simp [sEq, isNullish, typeofJS, isNaNJS]

theorem eqVal_step (fuel : Nat) (h : Heap) (x y : Nat) (c : Cache) (d : Nat)
    (o : EqualOptions) (hd : ¬ o.maxDepth < d) (hxy : x ≠ y)
    (htag : tagOfObj (nodeAt h x) = tagOfObj (nodeAt h y))
    (hcx : clook c x = none) (hcy : clook c y = none) :
    eqVal (fuel + 1) h (.ref x) (.ref y) c d o =
      eqDescend (fun v w => eqVal fuel h v w ((x, y) :: (y, x) :: c) (d + 1) o)
        h o.fastJSON x y := by
  have hse : sEq (.ref x) (.ref y) = false := by
    simp [sEq]
    exact fun hc => absurd hc hxy
  simp [eqVal, hd, hse, isNullish, typeofJS, htag, hcx, hcy]

theorem eqList_true (go : JSVal → JSVal → Except String Bool) :
    ∀ (l l' : List JSVal), l.length = l'.length →
    (∀ i (hi : i < l.length) (hi' : i < l'.length),
      go (l.get ⟨i, hi⟩) (l'.get ⟨i, hi'⟩) = .ok true) →
    eqList go l l' = .ok true := by
  intro l
  induction l with
  | nil =>
    intro l' hlen _
    cases l' with
    | nil => rfl
    | cons y ys => simp at hlen
  | cons x xs ih =>
    intro l' hlen hpt
    cases l' with
    | nil => simp at hlen
    | cons y ys =>
      have h0 := hpt 0 (by simp) (by simp)
      simp only [List.get] at h0
      simp only [eqList, h0]
      refine ih ys (by simpa using hlen) ?_
      intro i hi hi'
      have := hpt (i + 1) (Nat.succ_lt_succ hi) (Nat.succ_lt_succ hi')
      simpa [List.get] using this

theorem eqSetFind_true (go : JSVal → JSVal → Except String Bool) (x : JSVal) :
    ∀ (bl : List JSVal),
    (∀ y ∈ bl, ∃ r, go x y = .ok r) →
    (∃ y ∈ bl, go x y = .ok true) →
    eqSetFind go x bl = .ok true := by
  intro bl
  induction bl with
  | nil =>
    intro _ hex
    simp at hex
  | cons y ys ih =>
    intro hok hex
    obtain ⟨r, hr⟩ := hok y (List.mem_cons_self _ _)
    cases r with
    | true => simp [eqSetFind, hr]
    | false =>
      simp only [eqSetFind, hr]
      refine ih (fun z hz => hok z (List.mem_cons_of_mem _ hz)) ?_
      obtain ⟨z, hz, hzt⟩ := hex
      rcases List.mem_cons.mp hz with rfl | hz
      · rw [hzt] at hr
        simp at hr
      · exact ⟨z, hz, hzt⟩

theorem eqSetAll_true (go : JSVal → JSVal → Except String Bool)
    (bl : List JSVal) :
    ∀ (al : List JSVal),
    (∀ x ∈ al, eqSetFind go x bl = .ok true) →
    eqSetAll go bl al = .ok true := by
  intro al
  induction al with
  | nil => intro _; rfl
  | cons x xs ih =>
    intro hall
    simp only [eqSetAll, hall x (List.mem_cons_self _ _)]
    exact ih (fun z hz => hall z (List.mem_cons_of_mem _ hz))

theorem nodupKeys_head (k : String) (ks : List String)
    (h : nodupKeys (k :: ks) = true) : k ∉ ks ∧ nodupKeys ks = true := by
  simp only [nodupKeys, Bool.and_eq_true, Bool.not_eq_true'] at h
  exact ⟨by simpa using h.1, h.2⟩

theorem eqFields_true (go : JSVal → JSVal → Except String Bool) :
    ∀ (af af' bf : List (String × JSVal)),
    af'.map Prod.fst = af.map Prod.fst →
    nodupKeys (af.map Prod.fst) = true →
    (∀ k, k ∈ af.map Prod.fst → getKey bf k = getKey af' k) →
    (∀ i (hi : i < af.length) (hi' : i < af'.length),
      go (af.get ⟨i, hi⟩).2 (af'.get ⟨i, hi'⟩).2 = .ok true) →
    eqFields go bf af = .ok true := by
  intro af
  induction af with
  | nil => intro af' bf _ _ _ _; rfl
  | cons p rest ih =>
    obtain ⟨k, va⟩ := p
    intro af' bf hkeys hnd hget hpt
    cases af' with
    | nil => simp at hkeys
    | cons q rest' =>
      obtain ⟨k', vb⟩ := q
      simp only [List.map_cons, List.cons.injEq] at hkeys
      obtain ⟨hk', hkeys'⟩ := hkeys
      subst hk'
      have hgb : getKey bf k' = some vb := by
        rw [hget k' (by simp)]
        simp [getKey]
      have h0 : go va vb = .ok true := by
        have := hpt 0 (by simp) (by simp)
        simpa [List.get] using this
      simp only [eqFields, hgb, h0]
      obtain ⟨hknotin, hnd'⟩ :=
        nodupKeys_head k' (rest.map Prod.fst) (by simpa using hnd)
      refine ih rest' bf hkeys' hnd' ?_ ?_
      · intro k2 hk2
        have hne : k2 ≠ k' := fun hEq => hknotin (hEq ▸ hk2)
        rw [hget k2 (by simp [hk2])]
        simp [getKey, Ne.symm hne]
      · intro i hi hi'
        have := hpt (i + 1) (Nat.succ_lt_succ hi) (Nat.succ_lt_succ hi')
        simpa [List.get] using this

theorem eqVal_sim (h : Heap) (hkw : keysWF h) (o : EqualOptions)
    (hfj : o.fastJSON = false) :
    ∀ (n fuel : Nat) (v v' : JSVal) (cache : Cache) (depth : Nat),
    heightLeB h v n = true → heightLeB h v' n = true →
    DeepSim h v v' →
    (∀ t, Reaches h v t → ¬ Reaches h v' t) →
    (∀ kp ∈ cache, ¬ Reaches h v kp.1 ∧ ¬ Reaches h v' kp.1) →
    depth + n ≤ o.maxDepth → n < fuel →
    eqVal fuel h v v' cache depth o = .ok true := by
  intro n
  induction n with
  | zero =>
    intro fuel v v' cache depth hh hh' hsim hdisj hcache hdep hfuel
    obtain ⟨f, rfl⟩ : ∃ f, fuel = f + 1 := ⟨fuel - 1, by omega⟩
    cases hsim with
    | prim p => exact eqVal_prim_refl h o p cache f depth (by omega)
    | date a b ms ha hb => simp [heightLeB] at hh
    | wmap a b e ha hb => simp [heightLeB] at hh
    | wset a b e ha hb => simp [heightLeB] at hh
    | arrN a b l l' ha hb hlen hch => simp [heightLeB] at hh
    | setN a b l l' ha hb hlen hch => simp [heightLeB] at hh
    | objN a b fA fB ha hb hkeys hch => simp [heightLeB] at hh
  | succ n ih =>
    intro fuel v v' cache depth hh hh' hsim hdisj hcache hdep hfuel
    obtain ⟨f, rfl⟩ : ∃ f, fuel = f + 1 := ⟨fuel - 1, by omega⟩
    have hhA := hh
    have hhB := hh'
    cases hsim with
    | prim p => exact eqVal_prim_refl h o p cache f depth (by omega)
    | date a b ms ha hb =>
      have hne : a ≠ b := by
        intro hEq
        subst hEq
        exact hdisj a (.here a) (.here a)
      have hcx : clook cache a = none := by
        cases hg : clook cache a with
        | none => rfl
        | some p =>
          exact absurd (Reaches.here a)
            (hcache (a, p) (clook_mem cache a p hg)).1
      have hcy : clook cache b = none := by
        cases hg : clook cache b with
        | none => rfl
        | some p =>
          exact absurd (Reaches.here b)
            (hcache (b, p) (clook_mem cache b p hg)).2
      rw [eqVal_step f h a b cache depth o (by omega) hne
        (by simp [ha, hb, tagOfObj]) hcx hcy]
      simp [eqDescend, ha, hb]
    | wmap a b e ha hb =>
      have hne : a ≠ b := by
        intro hEq
        subst hEq
        exact hdisj a (.here a) (.here a)
      have hcx : clook cache a = none := by
        cases hg : clook cache a with
        | none => rfl
        | some p =>
          exact absurd (Reaches.here a)
            (hcache (a, p) (clook_mem cache a p hg)).1
      have hcy : clook cache b = none := by
        cases hg : clook cache b with
        | none => rfl
        | some p =>
          exact absurd (Reaches.here b)
            (hcache (b, p) (clook_mem cache b p hg)).2
      rw [eqVal_step f h a b cache depth o (by omega) hne
        (by simp [ha, hb, tagOfObj]) hcx hcy]
      simp [eqDescend, ha, hb]
    | wset a b e ha hb =>
      have hne : a ≠ b := by
        intro hEq
        subst hEq
        exact hdisj a (.here a) (.here a)
      have hcx : clook cache a = none := by
        cases hg : clook cache a with
        | none => rfl
        | some p =>
          exact absurd (Reaches.here a)
            (hcache (a, p) (clook_mem cache a p hg)).1
      have hcy : clook cache b = none := by
        cases hg : clook cache b with
        | none => rfl
        | some p =>
          exact absurd (Reaches.here b)
            (hcache (b, p) (clook_mem cache b p hg)).2
      rw [eqVal_step f h a b cache depth o (by omega) hne
        (by simp [ha, hb, tagOfObj]) hcx hcy]
      simp [eqDescend, ha, hb]
    | arrN a b l l' ha hb hlen hch =>
      have hne : a ≠ b := by
        intro hEq
        subst hEq
        exact hdisj a (.here a) (.here a)
      have hcx : clook cache a = none := by
        cases hg : clook cache a with
        | none => rfl
        | some p =>
          exact absurd (Reaches.here a)
            (hcache (a, p) (clook_mem cache a p hg)).1
      have hcy : clook cache b = none := by
        cases hg : clook cache b with
        | none => rfl
        | some p =>
          exact absurd (Reaches.here b)
            (hcache (b, p) (clook_mem cache b p hg)).2
      rw [eqVal_step f h a b cache depth o (by omega) hne
        (by simp [ha, hb, tagOfObj]) hcx hcy]
      simp only [eqDescend, ha, hb]
      rw [if_neg (not_ne_iff.mpr hlen)]
      simp only [heightLeB, ha, hb, childVals, List.all_eq_true] at hh hh'
      refine eqList_true _ l l' hlen ?_
      intro i hi hi'
      have hmemA : l.get ⟨i, hi⟩ ∈ childVals (nodeAt h a) := by
        rw [ha]
        exact List.get_mem l i hi
      have hmemB : l'.get ⟨i, hi'⟩ ∈ childVals (nodeAt h b) := by
        rw [hb]
        exact List.get_mem l' i hi'
      refine ih f _ _ ((a, b) :: (b, a) :: cache) (depth + 1)
        (hh _ (List.get_mem l i hi)) (hh' _ (List.get_mem l' i hi'))
        (hch i hi hi') ?_ ?_ (by omega) (by omega)
      · intro t hrt hrt'
        exact hdisj t (.step a _ t hmemA hrt) (.step b _ t hmemB hrt')
      · intro kp hkp
        rcases List.mem_cons.mp hkp with rfl | hkp
        · constructor
          · exact noSelfReach h (n + 1) a hhA _ hmemA
          · intro hr
            exact hdisj a (.here a) (.step b _ a hmemB hr)
        rcases List.mem_cons.mp hkp with rfl | hkp
        · constructor
          · intro hr
            exact hdisj b (.step a _ b hmemA hr) (.here b)
          · exact noSelfReach h (n + 1) b hhB _ hmemB
        · constructor
          · intro hr
            exact (hcache kp hkp).1 (.step a _ kp.1 hmemA hr)
          · intro hr
            exact (hcache kp hkp).2 (.step b _ kp.1 hmemB hr)
    | setN a b l l' ha hb hlen hch =>
      have hne : a ≠ b := by
        intro hEq
        subst hEq
        exact hdisj a (.here a) (.here a)
      have hcx : clook cache a = none := by
        cases hg : clook cache a with
        | none => rfl
        | some p =>
          exact absurd (Reaches.here a)
            (hcache (a, p) (clook_mem cache a p hg)).1
      have hcy : clook cache b = none := by
        cases hg : clook cache b with
        | none => rfl
        | some p =>
          exact absurd (Reaches.here b)
            (hcache (b, p) (clook_mem cache b p hg)).2
      rw [eqVal_step f h a b cache depth o (by omega) hne
        (by simp [ha, hb, tagOfObj]) hcx hcy]
      simp only [eqDescend, ha, hb]
      rw [if_neg (not_ne_iff.mpr hlen)]
      simp only [heightLeB, ha, hb, childVals, List.all_eq_true] at hh hh'
      refine eqSetAll_true _ l' l ?_
      intro x hx
      obtain ⟨⟨j, hj⟩, rfl⟩ := List.mem_iff_get.mp hx
      have hj' : j < l'.length := by omega
      have hmemA : l.get ⟨j, hj⟩ ∈ childVals (nodeAt h a) := by
        rw [ha]
        exact List.get_mem l j hj
      have hmemB : l'.get ⟨j, hj'⟩ ∈ childVals (nodeAt h b) := by
        rw [hb]
        exact List.get_mem l' j hj'
      refine eqSetFind_true _ _ l' ?_ ?_
      · intro y hy
        exact eqVal_isOk n h f _ y ((a, b) :: (b, a) :: cache) (depth + 1) o
          (hh _ (List.get_mem l j hj)) (by omega) (by omega)
      · refine ⟨l'.get ⟨j, hj'⟩, List.get_mem l' j hj', ?_⟩
        refine ih f _ _ ((a, b) :: (b, a) :: cache) (depth + 1)
          (hh _ (List.get_mem l j hj)) (hh' _ (List.get_mem l' j hj'))
          (hch j hj hj') ?_ ?_ (by omega) (by omega)
        · intro t hrt hrt'
          exact hdisj t (.step a _ t hmemA hrt) (.step b _ t hmemB hrt')
        · intro kp hkp
          rcases List.mem_cons.mp hkp with rfl | hkp
          · constructor
            · exact noSelfReach h (n + 1) a hhA _ hmemA
            · intro hr
              exact hdisj a (.here a) (.step b _ a hmemB hr)
          rcases List.mem_cons.mp hkp with rfl | hkp
          · constructor
            · intro hr
              exact hdisj b (.step a _ b hmemA hr) (.here b)
            · exact noSelfReach h (n + 1) b hhB _ hmemB
          · constructor
            · intro hr
              exact (hcache kp hkp).1 (.step a _ kp.1 hmemA hr)
            · intro hr
              exact (hcache kp hkp).2 (.step b _ kp.1 hmemB hr)
    | objN a b fA fB ha hb hkeys hch =>
      have hne : a ≠ b := by
        intro hEq
        subst hEq
        exact hdisj a (.here a) (.here a)
      have hcx : clook cache a = none := by
        cases hg : clook cache a with
        | none => rfl
        | some p =>
          exact absurd (Reaches.here a)
            (hcache (a, p) (clook_mem cache a p hg)).1
      have hcy : clook cache b = none := by
        cases hg : clook cache b with
        | none => rfl
        | some p =>
          exact absurd (Reaches.here b)
            (hcache (b, p) (clook_mem cache b p hg)).2
      rw [eqVal_step f h a b cache depth o (by omega) hne
        (by simp [ha, hb, tagOfObj]) hcx hcy]
      simp only [eqDescend, ha, hb, hfj, if_false]
      have hflen : fA.length = fB.length := by
        have := congrArg List.length hkeys
        simpa using this
      simp only [eqObjBody]
      rw [if_neg (not_ne_iff.mpr hflen)]
      have hndA : nodupKeys (fA.map Prod.fst) = true := by
        have := hkw a
        rw [ha] at this
        simpa [keysOf] using this
      simp only [heightLeB, ha, hb, childVals, List.all_eq_true] at hh hh'
      refine eqFields_true _ fA fB fB hkeys.symm hndA (fun k _ => rfl) ?_
      intro i hi hi'
      have hmemA : (fA.get ⟨i, hi⟩).2 ∈ childVals (nodeAt h a) := by
        rw [ha]
        exact List.mem_map_of_mem Prod.snd (List.get_mem fA i hi)
      have hmemB : (fB.get ⟨i, hi'⟩).2 ∈ childVals (nodeAt h b) := by
        rw [hb]
        exact List.mem_map_of_mem Prod.snd (List.get_mem fB i hi')
      refine ih f _ _ ((a, b) :: (b, a) :: cache) (depth + 1)
        (hh _ (List.mem_map_of_mem Prod.snd (List.get_mem fA i hi)))
        (hh' _ (List.mem_map_of_mem Prod.snd (List.get_mem fB i hi')))
        (hch i hi hi') ?_ ?_ (by omega) (by omega)
      · intro t hrt hrt'
        exact hdisj t (.step a _ t hmemA hrt) (.step b _ t hmemB hrt')
      · intro kp hkp
        rcases List.mem_cons.mp hkp with rfl | hkp
        · constructor
          · exact noSelfReach h (n + 1) a hhA _ hmemA
          · intro hr
            exact hdisj a (.here a) (.step b _ a hmemB hr)
        rcases List.mem_cons.mp hkp with rfl | hkp
        · constructor
          · intro hr
            exact hdisj b (.step a _ b hmemA hr) (.here b)
          · exact noSelfReach h (n + 1) b hhB _ hmemB
        · constructor
          · intro hr
            exact (hcache kp hkp).1 (.step a _ kp.1 hmemA hr)
          · intro hr
            exact (hcache kp hkp).2 (.step b _ kp.1 hmemB hr)

theorem cloneF_shallow (fuel : Nat) (h : Heap) (a : Nat) :
    cloneF (fuel + 1) h (.ref a) false =
      some (h ++ [shallowCopy (nodeAt h a)], .ref h.length) ∧
    childVals (shallowCopy (nodeAt h a)) = childVals (nodeAt h a) := by
  cases hn : nodeAt h a <;> simp [cloneF, hn, shallowCopy, childVals]

/-- C4 corrected: on a well-formed, Map-free heap (`mapFree h`), for
every closed value `x` of bounded container height (the spec itself
excludes cyclic input from `clone`, §7), the deep clone succeeds,
changes no pre-existing node, shares no mutable container with `x` (no
address is reachable both from `x` and from the clone, so no mutation of
one is observable from the other), and deep-equals `x` under `equal`
with any sufficiently deep comparator-free options; the shallow clone
copies only the top-level node — sharing the nested containers by
reference, so the original and the shallow clone have literally the same
child values (mutations through them are mutually observable), except
that weak collections come out empty.  The Map-free restriction is
necessary: `clone(x, {deep: true})` deep-clones Map KEYS, while
`equal`'s `_compareMaps` looks keys up by identity (`b.has(key)`), so a
Map with an object key is never `equal` to its deep clone — see the
counterexample; Errors (whose clone keeps only message/name/stack while
`equal` compares all own enumerable properties) fail similarly in the
program and lie outside this model. -/
theorem clone_spec (h : Heap) (v : JSVal) (n : Nat)
    (hwf : heapWF h = true) (hv : valClosed h.length v = true)
    (hht : heightLeB h v n = true) (hmf : mapFree h = true) :
    (∀ fuel, n < fuel → ∃ h' v',
      cloneF fuel h v true = some (h', v') ∧
      (∀ i, i < h.length → nodeAt h' i = nodeAt h i) ∧
      (∀ t, ¬ (Reaches h' v t ∧ Reaches h' v' t)) ∧
      (∀ o : EqualOptions, o.fastJSON = false → n ≤ o.maxDepth →
        equalJS h' v v' o = .ok true)) ∧
    (∀ fuel a, v = .ref a →
      cloneF (fuel + 1) h v false =
        some (h ++ [shallowCopy (nodeAt h a)], .ref h.length) ∧
      childVals (shallowCopy (nodeAt h a)) = childVals (nodeAt h a)) := by
  constructor
  · intro fuel hfuel
    have hC : heapClosed h = true := heapWF_closed h hwf
    obtain ⟨h', v', heq, hco⟩ :=
      cloneF_deep_spec fuel n h v hC hv hht hmf hfuel
    unfold CloneOut at hco
    obtain ⟨hc', hlen', hext', hvc', hfr', hsim', hkn', hmf'⟩ := hco
    refine ⟨h', v', heq, hext', ?_, ?_⟩
    · rintro t ⟨hrOld, hrNew⟩
      have h1 := (reaches_confined h h' hext' hC v t hv hrOld).1
      have h2 := hfr' t hrNew
      omega
    · intro o hfj hmd
      have hkwh' : keysWF h' := hkn' (fun x => nodeAt_keys_nodup h hwf x)
      have hhv : heightLeB h' v n = true :=
        heightLeB_stable h h' hC hext' n v hv hht
      have hhv' : heightLeB h' v' n = true :=
        heightLeB_of_sim h' n v v' hsim' hhv
      show eqVal (o.maxDepth + 2) h' v v' [] 0 o = .ok true
      refine eqVal_sim h' hkwh' o hfj n (o.maxDepth + 2) v v' [] 0 hhv hhv'
        hsim' ?_ (by intro kp hkp; simp at hkp) (by omega) (by omega)
      intro t hrt hrt'
      have h1 := (reaches_confined h h' hext' hC v t hv hrt).1
      have h2 := hfr' t hrt'
      omega
  · intro fuel a hva
    subst hva
    exact cloneF_shallow fuel h a

/-- Witness for `clone_spec` on `{a: [1], d: Date(99)}`: the heap is
well-formed, the deep clone exists with fuel 3 and compares equal to the
original under every comparator-free, fastJSON-free options record of
depth at least 2. -/
theorem clone_spec_witness :
    heapWF cloneDemoHeap = true ∧
    ∃ h' v', cloneF 3 cloneDemoHeap (.ref 0) true = some (h', v') ∧
      (∀ o : EqualOptions, o.fastJSON = false → 2 ≤ o.maxDepth →
        equalJS h' (.ref 0) v' o = .ok true) := by
  refine ⟨by decide, ?_⟩
  obtain ⟨h', v', heq, hext, hdisj, hEq⟩ :=
    (clone_spec cloneDemoHeap (.ref 0) 2 (by decide) (by decide)
      (by decide) (by decide)).1 3 (by decide)
  exact ⟨h', v', heq, hEq⟩

/-! ## Symmetry of `equal` on Set-free heaps -/

theorem beq_comm_law {α : Type} [BEq α] [LawfulBEq α] (a b : α) :
    (a == b) = (b == a) := by
  by_cases h : a = b
  · subst h; rfl
  · have h1 : (a == b) = false := beq_eq_false_iff_ne.mpr h
    have h2 : (b == a) = false := beq_eq_false_iff_ne.mpr (Ne.symm h)
    rw [h1, h2]

theorem sEq_comm (a b : JSVal) : sEq a b = sEq b a := by
  have key : ∀ x y : JSVal, (x == y) = (y == x) := fun x y => beq_comm_law x y
  cases a with
  | ref x =>
    cases b with
    | ref y => simp [sEq, key]
    | prim q => cases q <;> simp [sEq, key]
  | prim p =>
    cases b with
    | ref y => cases p <;> simp [sEq, key]
    | prim q => cases p <;> cases q <;> simp [sEq, key]

theorem setFree_nodeAt (h : Heap) (hsf : setFree h = true) (x : Nat)
    (l : List JSVal) : nodeAt h x ≠ .set l := by
  intro hn
  by_cases hb : x < h.length
  · have hmem : nodeAt h x ∈ h := by
      simp [nodeAt, List.getD]
      rw [List.getElem?_eq_getElem hb]
      exact List.getElem_mem hb
    have := (List.all_eq_true.mp hsf) _ hmem
    rw [hn] at this
    simp at this
  · rw [nodeAt_dangling h x (by omega)] at hn
    cases hn

theorem clook_swap (c : Cache) (hok : CacheOK c) :
    ∀ q, clook (c.map Prod.swap) q = clook c q := by
  induction hok with
  | nil => intro q; rfl
  | push x y c hx hy hne hok ih =>
    intro q
    simp only [List.map_cons, Prod.swap_prod_mk]
    by_cases hqx : q = x
    · subst hqx
      simp [clook, hne, Ne.symm hne]
    · by_cases hqy : q = y
      · subst hqy
        simp [clook, hne, Ne.symm hne]
      · simp [clook, Ne.symm hqx, Ne.symm hqy, ih]

theorem clook_pair (c : Cache) (hok : CacheOK c) :
    ∀ x y, clook c x = some y → clook c y = some x := by
  induction hok with
  | nil => intro x y hl; simp [clook] at hl
  | push u v c hu hv hne hok ih =>
    intro x y hl
    by_cases hxu : u = x
    · subst hxu
      simp only [clook, if_pos rfl] at hl
      injection hl with hvy
      subst hvy
      simp [clook, hne]
    · by_cases hxv : v = x
      · subst hxv
        simp only [clook, if_neg hne, if_pos rfl] at hl
        injection hl with huy
        subst huy
        simp [clook]
      · simp only [clook, if_neg hxu, if_neg hxv] at hl
        have hrec := ih x y hl
        have hyu : u ≠ y := by
          intro hEq
          subst hEq
          rw [hrec] at hu
          cases hu
        have hyv : v ≠ y := by
          intro hEq
          subst hEq
          rw [hrec] at hv
          cases hv
        simp [clook, hyu, hyv, hrec]

theorem jsonBeqArr_symm (go : Json → Json → Bool)
    (hgo : ∀ a b, go a b = go b a) :
    ∀ l1 l2, jsonBeqArr go l1 l2 = jsonBeqArr go l2 l1 := by
  intro l1
  induction l1 with
  | nil => intro l2; cases l2 <;> rfl
  | cons x xs ih =>
    intro l2
    cases l2 with
    | nil => rfl
    | cons y ys => simp [jsonBeqArr, hgo x y, ih ys]

theorem jsonBeqObj_symm (go : Json → Json → Bool)
    (hgo : ∀ a b, go a b = go b a) :
    ∀ l1 l2, jsonBeqObj go l1 l2 = jsonBeqObj go l2 l1 := by
  intro l1
  induction l1 with
  | nil => intro l2; cases l2 <;> rfl
  | cons x xs ih =>
    obtain ⟨k1, j1⟩ := x
    intro l2
    cases l2 with
    | nil => rfl
    | cons y ys =>
      obtain ⟨k2, j2⟩ := y
      simp [jsonBeqObj, hgo j1 j2, ih ys, beq_comm_law k1 k2]

theorem jsonBeq_symm : ∀ (f : Nat) (a b : Json),
    jsonBeq f a b = jsonBeq f b a := by
  intro f
  induction f with
  | zero => intro a b; rfl
  | succ f ih =>
    intro a b
    cases a <;> cases b <;> simp only [jsonBeq] <;>
      first
        | rfl
        | exact beq_comm_law _ _
        | exact jsonBeqArr_symm (jsonBeq f) ih _ _
        | exact jsonBeqObj_symm (jsonBeq f) ih _ _

theorem eqList_agree (go go' : JSVal → JSVal → Except String Bool)
    (hgo : ∀ x y s s', go x y = .ok s → go' y x = .ok s' → s = s') :
    ∀ (l1 l2 : List JSVal) (r r' : Bool),
    eqList go l1 l2 = .ok r → eqList go' l2 l1 = .ok r' → r = r' := by
  intro l1
  induction l1 with
  | nil =>
    intro l2 r r' hf hb
    cases l2 with
    | nil =>
      simp only [eqList, Except.ok.injEq] at hf hb
      rw [← hf, ← hb]
    | cons y ys =>
      simp only [eqList, Except.ok.injEq] at hf hb
      rw [← hf, ← hb]
  | cons x xs ih =>
    intro l2 r r' hf hb
    cases l2 with
    | nil =>
      simp only [eqList, Except.ok.injEq] at hf hb
      rw [← hf, ← hb]
    | cons y ys =>
      cases hxy : go x y with
      | error e => simp [eqList, hxy] at hf
      | ok s =>
        cases hyx : go' y x with
        | error e => simp [eqList, hyx] at hb
        | ok s' =>
          have hss : s = s' := hgo x y s s' hxy hyx
          subst hss
          cases s with
          | false =>
            simp only [eqList, hxy, hyx, Except.ok.injEq] at hf hb
            rw [← hf, ← hb]
          | true =>
            simp only [eqList, hxy, hyx] at hf hb
            exact ih ys r r' hf hb

theorem eqFields_elim_true (go : JSVal → JSVal → Except String Bool)
    (bf : List (String × JSVal)) :
    ∀ af, eqFields go bf af = .ok true →
    ∀ k va, (k, va) ∈ af →
      ∃ vb, getKey bf k = some vb ∧ go va vb = .ok true := by
  intro af
  induction af with
  | nil =>
    intro _ k va hm
    simp at hm
  | cons p rest ih =>
    obtain ⟨k0, v0⟩ := p
    intro hf k va hm
    cases hg : getKey bf k0 with
    | none => simp [eqFields, hg] at hf
    | some vb0 =>
      cases hcmp : go v0 vb0 with
      | error e => simp [eqFields, hg, hcmp] at hf
      | ok s =>
        cases s with
        | false => simp [eqFields, hg, hcmp] at hf
        | true =>
          simp only [eqFields, hg, hcmp] at hf
          rcases List.mem_cons.mp hm with hm0 | hm'
          · cases hm0
            exact ⟨vb0, hg, hcmp⟩
          · exact ih hf k va hm'

theorem eqFields_elim_false (go : JSVal → JSVal → Except String Bool)
    (bf : List (String × JSVal)) :
    ∀ af, eqFields go bf af = .ok false →
    ∃ k va, (k, va) ∈ af ∧
      (getKey bf k = none ∨
        ∃ vb, getKey bf k = some vb ∧ go va vb = .ok false) := by
  intro af
  induction af with
  | nil =>
    intro hf
    simp [eqFields] at hf
  | cons p rest ih =>
    obtain ⟨k0, v0⟩ := p
    intro hf
    cases hg : getKey bf k0 with
    | none => exact ⟨k0, v0, List.mem_cons_self _ _, Or.inl hg⟩
    | some vb0 =>
      cases hcmp : go v0 vb0 with
      | error e => simp [eqFields, hg, hcmp] at hf
      | ok s =>
        cases s with
        | false =>
          exact ⟨k0, v0, List.mem_cons_self _ _, Or.inr ⟨vb0, hg, hcmp⟩⟩
        | true =>
          simp only [eqFields, hg, hcmp] at hf
          obtain ⟨k, va, hm, hw⟩ := ih hf
          exact ⟨k, va, List.mem_cons_of_mem _ hm, hw⟩

theorem getKey_some_mem_keys :
    ∀ (l : List (String × JSVal)) (k : String) (v : JSVal),
    getKey l k = some v → k ∈ l.map Prod.fst := by
  intro l
  induction l with
  | nil =>
    intro k v hg
    simp [getKey] at hg
  | cons p rest ih =>
    obtain ⟨k0, v0⟩ := p
    intro k v hg
    simp only [getKey] at hg
    by_cases hk : k0 = k
    · subst hk
      simp
    · rw [if_neg hk] at hg
      simp [ih k v hg]

theorem keys_getKey_some : ∀ (l : List (String × JSVal)) (k : String),
    k ∈ l.map Prod.fst → ∃ v, getKey l k = some v := by
  intro l
  induction l with
  | nil =>
    intro k hk
    simp at hk
  | cons p rest ih =>
    obtain ⟨k0, v0⟩ := p
    intro k hk
    by_cases he : k0 = k
    · exact ⟨v0, by simp [getKey, he]⟩
    · simp only [List.map_cons, List.mem_cons] at hk
      rcases hk with rfl | hk
      · exact absurd rfl he
      · obtain ⟨v, hv⟩ := ih k hk
        exact ⟨v, by simp [getKey, he, hv]⟩

theorem mem_getKey_nodup : ∀ (l : List (String × JSVal)) (k : String)
    (v : JSVal), nodupKeys (l.map Prod.fst) = true → (k, v) ∈ l →
    getKey l k = some v := by
  intro l
  induction l with
  | nil =>
    intro k v _ hm
    simp at hm
  | cons p rest ih =>
    obtain ⟨k0, v0⟩ := p
    intro k v hnd hm
    obtain ⟨hnotin, hnd'⟩ :=
      nodupKeys_head k0 (rest.map Prod.fst) (by simpa using hnd)
    rcases List.mem_cons.mp hm with hm0 | hm'
    · cases hm0
      simp [getKey]
    · have hne : k0 ≠ k := by
        intro hEq
        subst hEq
        exact hnotin (List.mem_map_of_mem Prod.fst hm')
      simp [getKey, hne, ih k v hnd' hm']

theorem nodupKeys_nodup : ∀ (l : List String), nodupKeys l = true →
    l.Nodup := by
  intro l
  induction l with
  | nil => intro _; exact List.nodup_nil
  | cons k rest ih =>
    intro h
    obtain ⟨hnotin, h'⟩ := nodupKeys_head k rest h
    exact List.nodup_cons.mpr ⟨hnotin, ih h'⟩

theorem keys_covered {α : Type} (A B : List α) (hA : A.Nodup)
    (hlen : B.length ≤ A.length) (hsub : A ⊆ B) :
    ∀ k, k ∈ B → k ∈ A := by
  intro k hk
  exact ((List.subperm_of_subset hA hsub).perm_of_length_le hlen).mem_iff.mpr hk

theorem nodupVals_head (k : JSVal) (ks : List JSVal)
    (h : nodupVals (k :: ks) = true) : k ∉ ks ∧ nodupVals ks = true := by
  simp only [nodupVals, Bool.and_eq_true, Bool.not_eq_true'] at h
  exact ⟨by simpa using h.1, h.2⟩

theorem nodupVals_nodup : ∀ (l : List JSVal), nodupVals l = true →
    l.Nodup := by
  intro l
  induction l with
  | nil => intro _; exact List.nodup_nil
  | cons k rest ih =>
    intro h
    obtain ⟨hnotin, h'⟩ := nodupVals_head k rest h
    exact List.nodup_cons.mpr ⟨hnotin, ih h'⟩

theorem mapGet_mem (l : List (JSVal × JSVal)) (k v : JSVal)
    (hg : mapGet l k = some v) : (k, v) ∈ l := by
  induction l with
  | nil => simp [mapGet] at hg
  | cons p rest ih =>
    obtain ⟨k0, v0⟩ := p
    simp only [mapGet] at hg
    by_cases hk : k0 = k
    · subst hk
      rw [if_pos rfl] at hg
      injection hg with hv
      subst hv
      exact List.mem_cons_self _ _
    · rw [if_neg hk] at hg
      exact List.mem_cons_of_mem _ (ih hg)

theorem mapGet_some_mem_keys :
    ∀ (l : List (JSVal × JSVal)) (k v : JSVal),
    mapGet l k = some v → k ∈ l.map Prod.fst := by
  intro l
  induction l with
  | nil =>
    intro k v hg
    simp [mapGet] at hg
  | cons p rest ih =>
    obtain ⟨k0, v0⟩ := p
    intro k v hg
    simp only [mapGet] at hg
    by_cases hk : k0 = k
    · subst hk
      simp
    · rw [if_neg hk] at hg
      simp [ih k v hg]

theorem keys_mapGet_some : ∀ (l : List (JSVal × JSVal)) (k : JSVal),
    k ∈ l.map Prod.fst → ∃ v, mapGet l k = some v := by
  intro l
  induction l with
  | nil =>
    intro k hk
    simp at hk
  | cons p rest ih =>
    obtain ⟨k0, v0⟩ := p
    intro k hk
    by_cases he : k0 = k
    · exact ⟨v0, by simp [mapGet, he]⟩
    · simp only [List.map_cons, List.mem_cons] at hk
      rcases hk with rfl | hk
      · exact absurd rfl he
      · obtain ⟨v, hv⟩ := ih k hk
        exact ⟨v, by simp [mapGet, he, hv]⟩

theorem mem_mapGet_nodup : ∀ (l : List (JSVal × JSVal)) (k v : JSVal),
    nodupVals (l.map Prod.fst) = true → (k, v) ∈ l →
    mapGet l k = some v := by
  intro l
  induction l with
  | nil =>
    intro k v _ hm
    simp at hm
  | cons p rest ih =>
    obtain ⟨k0, v0⟩ := p
    intro k v hnd hm
    obtain ⟨hnotin, hnd'⟩ :=
      nodupVals_head k0 (rest.map Prod.fst) (by simpa using hnd)
    rcases List.mem_cons.mp hm with hm0 | hm'
    · cases hm0
      simp [mapGet]
    · have hne : k0 ≠ k := by
        intro hEq
        subst hEq
        exact hnotin (List.mem_map_of_mem Prod.fst hm')
      simp [mapGet, hne, ih k v hnd' hm']

theorem eqMapAll_elim_true (go : JSVal → JSVal → Except String Bool)
    (be : List (JSVal × JSVal)) :
    ∀ ae, eqMapAll go be ae = .ok true →
    ∀ k v, (k, v) ∈ ae →
      ∃ w, mapGet be k = some w ∧ go v w = .ok true := by
  intro ae
  induction ae with
  | nil =>
    intro _ k v hm
    simp at hm
  | cons p rest ih =>
    obtain ⟨k0, v0⟩ := p
    intro hf k v hm
    cases hg : mapGet be k0 with
    | none => simp [eqMapAll, hg] at hf
    | some w0 =>
      cases hcmp : go v0 w0 with
      | error e => simp [eqMapAll, hg, hcmp] at hf
      | ok s =>
        cases s with
        | false => simp [eqMapAll, hg, hcmp] at hf
        | true =>
          simp only [eqMapAll, hg, hcmp] at hf
          rcases List.mem_cons.mp hm with hm0 | hm'
          · cases hm0
            exact ⟨w0, hg, hcmp⟩
          · exact ih hf k v hm'

theorem eqMapAll_elim_false (go : JSVal → JSVal → Except String Bool)
    (be : List (JSVal × JSVal)) :
    ∀ ae, eqMapAll go be ae = .ok false →
    ∃ k v, (k, v) ∈ ae ∧
      (mapGet be k = none ∨
        ∃ w, mapGet be k = some w ∧ go v w = .ok false) := by
  intro ae
  induction ae with
  | nil =>
    intro hf
    simp [eqMapAll] at hf
  | cons p rest ih =>
    obtain ⟨k0, v0⟩ := p
    intro hf
    cases hg : mapGet be k0 with
    | none => exact ⟨k0, v0, List.mem_cons_self _ _, Or.inl hg⟩
    | some w0 =>
      cases hcmp : go v0 w0 with
      | error e => simp [eqMapAll, hg, hcmp] at hf
      | ok s =>
        cases s with
        | false =>
          exact ⟨k0, v0, List.mem_cons_self _ _, Or.inr ⟨w0, hg, hcmp⟩⟩
        | true =>
          simp only [eqMapAll, hg, hcmp] at hf
          obtain ⟨k, v, hm, hw⟩ := ih hf
          exact ⟨k, v, List.mem_cons_of_mem _ hm, hw⟩

theorem eqMapAll_agree (go go' : JSVal → JSVal → Except String Bool)
    (hgo : ∀ x y s s', go x y = .ok s → go' y x = .ok s' → s = s')
    (e1 e2 : List (JSVal × JSVal))
    (hnd1 : nodupVals (e1.map Prod.fst) = true)
    (hnd2 : nodupVals (e2.map Prod.fst) = true)
    (hlenEq : e1.length = e2.length) (r r' : Bool)
    (hf : eqMapAll go e2 e1 = .ok r) (hb : eqMapAll go' e1 e2 = .ok r') :
    r = r' := by
  cases r with
  | true =>
    cases r' with
    | true => rfl
    | false =>
      obtain ⟨k, w, hmB, hbad⟩ := eqMapAll_elim_false go' e1 e2 hb
      have hsub : (e1.map Prod.fst) ⊆ (e2.map Prod.fst) := by
        intro k1 hk1
        simp only [List.mem_map] at hk1
        obtain ⟨p, hp, rfl⟩ := hk1
        obtain ⟨k1, v1⟩ := p
        obtain ⟨w1, hg1, _⟩ := eqMapAll_elim_true go e2 e1 hf k1 v1 hp
        exact mapGet_some_mem_keys e2 k1 w1 hg1
      have hcov := keys_covered (e1.map Prod.fst) (e2.map Prod.fst)
        (nodupVals_nodup _ hnd1) (by simp [hlenEq]) hsub
      have hkB : k ∈ e2.map Prod.fst := List.mem_map_of_mem Prod.fst hmB
      have hkA : k ∈ e1.map Prod.fst := hcov k hkB
      rcases hbad with hnone | ⟨v, hgv, hcmp⟩
      · obtain ⟨v, hv⟩ := keys_mapGet_some e1 k hkA
        rw [hv] at hnone
        cases hnone
      · have hmA : (k, v) ∈ e1 := mapGet_mem e1 k v hgv
        obtain ⟨w1, hg1, hok1⟩ := eqMapAll_elim_true go e2 e1 hf k v hmA
        have hgw : mapGet e2 k = some w := mem_mapGet_nodup e2 k w hnd2 hmB
        rw [hgw] at hg1
        injection hg1 with hEq
        subst hEq
        exact absurd (hgo v w true false hok1 hcmp) (by simp)
  | false =>
    cases r' with
    | false => rfl
    | true =>
      obtain ⟨k, v, hmA, hbad⟩ := eqMapAll_elim_false go e2 e1 hf
      have hsub : (e2.map Prod.fst) ⊆ (e1.map Prod.fst) := by
        intro k2 hk2
        simp only [List.mem_map] at hk2
        obtain ⟨p, hp, rfl⟩ := hk2
        obtain ⟨k2, v2⟩ := p
        obtain ⟨v1, hg1, _⟩ := eqMapAll_elim_true go' e1 e2 hb k2 v2 hp
        exact mapGet_some_mem_keys e1 k2 v1 hg1
      have hcov := keys_covered (e2.map Prod.fst) (e1.map Prod.fst)
        (nodupVals_nodup _ hnd2) (by simp [hlenEq]) hsub
      have hkA : k ∈ e1.map Prod.fst := List.mem_map_of_mem Prod.fst hmA
      have hkB : k ∈ e2.map Prod.fst := hcov k hkA
      rcases hbad with hnone | ⟨w, hgw, hcmp⟩
      · obtain ⟨w, hw⟩ := keys_mapGet_some e2 k hkB
        rw [hw] at hnone
        cases hnone
      · have hmB : (k, w) ∈ e2 := mapGet_mem e2 k w hgw
        obtain ⟨v1, hg1, hok1⟩ := eqMapAll_elim_true go' e1 e2 hb k w hmB
        have hgv2 : mapGet e1 k = some v := mem_mapGet_nodup e1 k v hnd1 hmA
        rw [hgv2] at hg1
        injection hg1 with hEq
        subst hEq
        exact absurd (hgo v w false true hcmp hok1) (by simp)

theorem eqObjBody_agree (go go' : JSVal → JSVal → Except String Bool)
    (hgo : ∀ x y s s', go x y = .ok s → go' y x = .ok s' → s = s')
    (f1 f2 : List (String × JSVal))
    (hnd1 : nodupKeys (f1.map Prod.fst) = true)
    (hnd2 : nodupKeys (f2.map Prod.fst) = true)
    (r r' : Bool)
    (hf : eqObjBody go f1 f2 = .ok r) (hb : eqObjBody go' f2 f1 = .ok r') :
    r = r' := by
  by_cases hlen : f1.length ≠ f2.length
  · have hlen' : f2.length ≠ f1.length := fun hEq => hlen hEq.symm
    simp only [eqObjBody] at hf hb
    rw [if_pos hlen] at hf
    rw [if_pos hlen'] at hb
    injection hf with h1
    injection hb with h2
    rw [← h1, ← h2]
  · have hlenEq : f1.length = f2.length := not_ne_iff.mp hlen
    simp only [eqObjBody, if_neg hlen] at hf
    simp only [eqObjBody, if_neg (not_ne_iff.mpr hlenEq.symm)] at hb
    cases r with
    | true =>
      cases r' with
      | true => rfl
      | false =>
        obtain ⟨k, vb, hmB, hbad⟩ := eqFields_elim_false go' f1 f2 hb
        have hsub : (f1.map Prod.fst) ⊆ (f2.map Prod.fst) := by
          intro k1 hk1
          simp only [List.mem_map] at hk1
          obtain ⟨p, hp, rfl⟩ := hk1
          obtain ⟨k1, v1⟩ := p
          obtain ⟨vb1, hg1, _⟩ := eqFields_elim_true go f2 f1 hf k1 v1 hp
          exact getKey_some_mem_keys f2 k1 vb1 hg1
        have hcov := keys_covered (f1.map Prod.fst) (f2.map Prod.fst)
          (nodupKeys_nodup _ hnd1) (by simp [hlenEq]) hsub
        have hkB : k ∈ f2.map Prod.fst := List.mem_map_of_mem Prod.fst hmB
        have hkA : k ∈ f1.map Prod.fst := hcov k hkB
        rcases hbad with hnone | ⟨va, hga, hcmp⟩
        · obtain ⟨va, hva⟩ := keys_getKey_some f1 k hkA
          rw [hva] at hnone
          cases hnone
        · have hmA : (k, va) ∈ f1 := getKey_mem f1 k va hga
          obtain ⟨vb1, hg1, hok1⟩ := eqFields_elim_true go f2 f1 hf k va hmA
          have hgb2 : getKey f2 k = some vb := mem_getKey_nodup f2 k vb hnd2 hmB
          rw [hgb2] at hg1
          injection hg1 with hEq
          subst hEq
          exact absurd (hgo va vb true false hok1 hcmp) (by simp)
    | false =>
      cases r' with
      | false => rfl
      | true =>
        obtain ⟨k, va, hmA, hbad⟩ := eqFields_elim_false go f2 f1 hf
        have hsub : (f2.map Prod.fst) ⊆ (f1.map Prod.fst) := by
          intro k2 hk2
          simp only [List.mem_map] at hk2
          obtain ⟨p, hp, rfl⟩ := hk2
          obtain ⟨k2, v2⟩ := p
          obtain ⟨va1, hg1, _⟩ := eqFields_elim_true go' f1 f2 hb k2 v2 hp
          exact getKey_some_mem_keys f1 k2 va1 hg1
        have hcov := keys_covered (f2.map Prod.fst) (f1.map Prod.fst)
          (nodupKeys_nodup _ hnd2) (by simp [hlenEq]) hsub
        have hkA : k ∈ f1.map Prod.fst := List.mem_map_of_mem Prod.fst hmA
        have hkB : k ∈ f2.map Prod.fst := hcov k hkA
        rcases hbad with hnone | ⟨vb, hgb, hcmp⟩
        · obtain ⟨vb, hvb⟩ := keys_getKey_some f2 k hkB
          rw [hvb] at hnone
          cases hnone
        · have hmB : (k, vb) ∈ f2 := getKey_mem f2 k vb hgb
          obtain ⟨va1, hg1, hok1⟩ := eqFields_elim_true go' f1 f2 hb k vb hmB
          have hga2 : getKey f1 k = some va := mem_getKey_nodup f1 k va hnd1 hmA
          rw [hga2] at hg1
          injection hg1 with hEq
          subst hEq
          exact absurd (hgo va vb false true hcmp hok1) (by simp)

theorem eqVal_agree (h : Heap) (hsf : setFree h = true) (hkw : keysWF h)
    (hmwf : ∀ x e, nodeAt h x = JSObj.map e →
      nodupVals (e.map Prod.fst) = true) :
    ∀ (fuel : Nat) (a b : JSVal) (c : Cache) (d : Nat) (o : EqualOptions)
      (r r' : Bool), CacheOK c →
    eqVal fuel h a b c d o = .ok r →
    eqVal fuel h b a (c.map Prod.swap) d o = .ok r' →
    r = r' := by
  intro fuel
  induction fuel with
  | zero =>
    intro a b c d o r r' _ hf hb
    simp [eqVal] at hf
  | succ fuel ih =>
    intro a b c d o r r' hok hf hb
    simp only [eqVal] at hf hb
    by_cases hdep : o.maxDepth < d
    · rw [if_pos hdep] at hf
      cases hf
    rw [if_neg hdep] at hf hb
    by_cases hse : sEq a b = true
    · rw [if_pos hse] at hf
      rw [if_pos (by rw [sEq_comm]; exact hse)] at hb
      injection hf with h1
      injection hb with h2
      rw [← h1, ← h2]
    have hse' : ¬ sEq b a = true := by rw [sEq_comm]; exact hse
    rw [if_neg hse] at hf
    rw [if_neg hse'] at hb
    by_cases hnl : (isNullish a || isNullish b) = true
    · rw [if_pos hnl] at hf
      rw [if_pos (by rw [Bool.or_comm]; exact hnl)] at hb
      injection hf with h1
      injection hb with h2
      rw [← h1, ← h2]
      cases hst : o.strict with
      | true => simp [sEq_comm a b]
      | false => simp [Bool.and_comm]
    rw [if_neg hnl] at hf
    rw [if_neg (by rw [Bool.or_comm]; exact hnl)] at hb
    by_cases hty : typeofJS a = typeofJS b
    · rw [if_neg (not_ne_iff.mpr hty)] at hf
      rw [if_neg (not_ne_iff.mpr hty.symm)] at hb
      by_cases htyo : typeofJS a = "object"
      · rw [if_neg (not_ne_iff.mpr htyo)] at hf
        rw [if_neg (not_ne_iff.mpr (hty ▸ htyo))] at hb
        cases a with
        | prim p =>
          cases b with
          | prim q =>
            injection hf with h1
            injection hb with h2
            rw [← h1, ← h2]
          | ref y =>
            injection hf with h1
            injection hb with h2
            rw [← h1, ← h2]
        | ref x =>
          cases b with
          | prim q =>
            injection hf with h1
            injection hb with h2
            rw [← h1, ← h2]
          | ref y =>
            -- the container pair: guard, then kind-specific descent
            dsimp only at hf hb
            have hxy : x ≠ y := by
              intro hEq
              subst hEq
              simp [sEq] at hse
            rw [clook_swap c hok x, clook_swap c hok y] at hb
            by_cases htag : tagOfObj (nodeAt h x) = tagOfObj (nodeAt h y)
            · rw [if_neg (not_ne_iff.mpr htag)] at hf
              rw [if_neg (not_ne_iff.mpr htag.symm)] at hb
              cases hcx : clook c x with
              | some p =>
                rw [hcx] at hf
                cases hcy : clook c y with
                | some q =>
                  rw [hcy] at hb
                  injection hf with h1
                  injection hb with h2
                  rw [← h1, ← h2]
                  by_cases hpy : p = y
                  · subst hpy
                    have := clook_pair c hok x p hcx
                    rw [hcy] at this
                    injection this with h3
                    simp [h3]
                  · by_cases hqx : q = x
                    · subst hqx
                      have := clook_pair c hok y q hcy
                      rw [hcx] at this
                      injection this with h3
                      exact absurd h3 hpy
                    · have hL : (p == y) = false := beq_eq_false_iff_ne.mpr hpy
                      have hR : (q == x) = false := beq_eq_false_iff_ne.mpr hqx
                      rw [hL, hR]
                | none =>
                  rw [hcy, hcx] at hb
                  injection hf with h1
                  injection hb with h2
                  rw [← h1, ← h2]
              | none =>
                rw [hcx] at hf
                cases hcy : clook c y with
                | some q =>
                  rw [hcy] at hf
                  rw [hcy] at hb
                  injection hf with h1
                  injection hb with h2
                  rw [← h1, ← h2]
                | none =>
                  rw [hcy] at hf
                  rw [hcy, hcx] at hb
                  -- both descend with mirrored caches
                  have hokx : CacheOK ((x, y) :: (y, x) :: c) :=
                    .push x y c hcx hcy hxy hok
                  have hcsw : ((x, y) :: (y, x) :: c).map Prod.swap =
                      (y, x) :: (x, y) :: c.map Prod.swap := by
                    simp
                  have hgo : ∀ v w s s',
                      eqVal fuel h v w ((x, y) :: (y, x) :: c) (d + 1) o = .ok s →
                      eqVal fuel h w v ((y, x) :: (x, y) :: c.map Prod.swap)
                        (d + 1) o = .ok s' →
                      s = s' := by
                    intro v w s s' h1 h2
                    refine ih v w ((x, y) :: (y, x) :: c) (d + 1) o s s' hokx h1 ?_
                    rw [hcsw]
                    exact h2
                  -- case on the node kinds
                  cases hnx : nodeAt h x with
                  | set l => exact absurd hnx (setFree_nodeAt h hsf x l)
                  | map e1 =>
                    cases hny : nodeAt h y with
                    | map e2 =>
                      have hnd1 : nodupVals (e1.map Prod.fst) = true :=
                        hmwf x e1 hnx
                      have hnd2 : nodupVals (e2.map Prod.fst) = true :=
                        hmwf y e2 hny
                      simp only [eqDescend, hnx, hny] at hf hb
                      by_cases hll : e1.length = e2.length
                      · rw [if_neg (not_ne_iff.mpr hll)] at hf
                        rw [if_neg (not_ne_iff.mpr hll.symm)] at hb
                        exact eqMapAll_agree _ _ hgo e1 e2 hnd1 hnd2 hll
                          r r' hf hb
                      · rw [if_pos hll] at hf
                        rw [if_pos (fun hEq => hll hEq.symm)] at hb
                        injection hf with h1
                        injection hb with h2
                        rw [← h1, ← h2]
                    | set l => exact absurd hny (setFree_nodeAt h hsf y l)
                    | date m =>
                      rw [hnx, hny] at htag
                      exact absurd htag (by simp [tagOfObj])
                    | arr l =>
                      rw [hnx, hny] at htag
                      exact absurd htag (by simp [tagOfObj])
                    | obj f =>
                      rw [hnx, hny] at htag
                      exact absurd htag (by simp [tagOfObj])
                    | weakmap e0 =>
                      rw [hnx, hny] at htag
                      exact absurd htag (by simp [tagOfObj])
                    | weakset e0 =>
                      rw [hnx, hny] at htag
                      exact absurd htag (by simp [tagOfObj])
                  | date m1 =>
                    cases hny : nodeAt h y with
                    | date m2 =>
                      simp only [eqDescend, hnx, hny, Except.ok.injEq] at hf hb
                      rw [← hf, ← hb]
                      exact beq_comm_law m1 m2
                    | obj f => rw [hnx, hny] at htag; exact absurd htag (by simp [tagOfObj])
                    | arr l => rw [hnx, hny] at htag; exact absurd htag (by simp [tagOfObj])
                    | set l => exact absurd hny (setFree_nodeAt h hsf y l)
                    | map e0 =>
                      rw [hnx, hny] at htag
                      exact absurd htag (by simp [tagOfObj])
                    | weakmap e => rw [hnx, hny] at htag; exact absurd htag (by simp [tagOfObj])
                    | weakset e => rw [hnx, hny] at htag; exact absurd htag (by simp [tagOfObj])
                  | arr l1 =>
                    cases hny : nodeAt h y with
                    | arr l2 =>
                      simp only [eqDescend, hnx, hny] at hf hb
                      by_cases hll : l1.length = l2.length
                      · rw [if_neg (not_ne_iff.mpr hll)] at hf
                        rw [if_neg (not_ne_iff.mpr hll.symm)] at hb
                        exact eqList_agree _ _ hgo l1 l2 r r' hf hb
                      · rw [if_pos hll] at hf
                        rw [if_pos (fun hEq => hll hEq.symm)] at hb
                        injection hf with h1
                        injection hb with h2
                        rw [← h1, ← h2]
                    | date m => rw [hnx, hny] at htag; exact absurd htag (by simp [tagOfObj])
                    | obj f => rw [hnx, hny] at htag; exact absurd htag (by simp [tagOfObj])
                    | set l => exact absurd hny (setFree_nodeAt h hsf y l)
                    | map e0 =>
                      rw [hnx, hny] at htag
                      exact absurd htag (by simp [tagOfObj])
                    | weakmap e => rw [hnx, hny] at htag; exact absurd htag (by simp [tagOfObj])
                    | weakset e => rw [hnx, hny] at htag; exact absurd htag (by simp [tagOfObj])
                  | obj f1 =>
                    cases hny : nodeAt h y with
                    | obj f2 =>
                      have hnd1 : nodupKeys (f1.map Prod.fst) = true := by
                        have := hkw x
                        rw [hnx] at this
                        simpa [keysOf] using this
                      have hnd2 : nodupKeys (f2.map Prod.fst) = true := by
                        have := hkw y
                        rw [hny] at this
                        simpa [keysOf] using this
                      simp only [eqDescend, hnx, hny] at hf hb
                      cases hfj : o.fastJSON with
                      | false =>
                        rw [hfj] at hf hb
                        rw [if_neg (by simp)] at hf
                        rw [if_neg (by simp)] at hb
                        exact eqObjBody_agree _ _ hgo f1 f2 hnd1 hnd2 r r' hf hb
                      | true =>
                        rw [hfj] at hf hb
                        rw [if_pos rfl] at hf
                        rw [if_pos rfl] at hb
                        cases hjx : jsonOf (h.length + 1) h (.ref x) with
                        | some ja =>
                          cases hjy : jsonOf (h.length + 1) h (.ref y) with
                          | some jb =>
                            rw [hjx, hjy] at hf
                            rw [hjy, hjx] at hb
                            injection hf with h1
                            injection hb with h2
                            rw [← h1, ← h2]
                            exact jsonBeq_symm (h.length + 1) ja jb
                          | none =>
                            rw [hjx, hjy] at hf
                            rw [hjy] at hb
                            exact eqObjBody_agree _ _ hgo f1 f2 hnd1 hnd2 r r' hf hb
                        | none =>
                          rw [hjx] at hf hb
                          cases hjy : jsonOf (h.length + 1) h (.ref y) with
                          | some jb =>
                            rw [hjy] at hb
                            exact eqObjBody_agree _ _ hgo f1 f2 hnd1 hnd2 r r' hf hb
                          | none =>
                            rw [hjy] at hb
                            exact eqObjBody_agree _ _ hgo f1 f2 hnd1 hnd2 r r' hf hb
                    | date m => rw [hnx, hny] at htag; exact absurd htag (by simp [tagOfObj])
                    | arr l => rw [hnx, hny] at htag; exact absurd htag (by simp [tagOfObj])
                    | set l => exact absurd hny (setFree_nodeAt h hsf y l)
                    | map e0 =>
                      rw [hnx, hny] at htag
                      exact absurd htag (by simp [tagOfObj])
                    | weakmap e => rw [hnx, hny] at htag; exact absurd htag (by simp [tagOfObj])
                    | weakset e => rw [hnx, hny] at htag; exact absurd htag (by simp [tagOfObj])
                  | weakmap e1 =>
                    cases hny : nodeAt h y with
                    | weakmap e2 =>
                      simp only [eqDescend, hnx, hny, Except.ok.injEq] at hf hb
                      rw [← hf, ← hb]
                    | date m => rw [hnx, hny] at htag; exact absurd htag (by simp [tagOfObj])
                    | arr l => rw [hnx, hny] at htag; exact absurd htag (by simp [tagOfObj])
                    | obj f => rw [hnx, hny] at htag; exact absurd htag (by simp [tagOfObj])
                    | set l => exact absurd hny (setFree_nodeAt h hsf y l)
                    | map e0 =>
                      rw [hnx, hny] at htag
                      exact absurd htag (by simp [tagOfObj])
                    | weakset e => rw [hnx, hny] at htag; exact absurd htag (by simp [tagOfObj])
                  | weakset e1 =>
                    cases hny : nodeAt h y with
                    | weakset e2 =>
                      simp only [eqDescend, hnx, hny, Except.ok.injEq] at hf hb
                      rw [← hf, ← hb]
                    | date m => rw [hnx, hny] at htag; exact absurd htag (by simp [tagOfObj])
                    | arr l => rw [hnx, hny] at htag; exact absurd htag (by simp [tagOfObj])
                    | obj f => rw [hnx, hny] at htag; exact absurd htag (by simp [tagOfObj])
                    | set l => exact absurd hny (setFree_nodeAt h hsf y l)
                    | map e0 =>
                      rw [hnx, hny] at htag
                      exact absurd htag (by simp [tagOfObj])
                    | weakmap e => rw [hnx, hny] at htag; exact absurd htag (by simp [tagOfObj])
            · rw [if_pos htag] at hf
              rw [if_pos (fun hEq => htag hEq.symm)] at hb
              injection hf with h1
              injection hb with h2
              rw [← h1, ← h2]
      · rw [if_pos htyo] at hf
        rw [if_pos (hty ▸ htyo)] at hb
        injection hf with h1
        injection hb with h2
        rw [← h1, ← h2]
        exact Bool.and_comm _ _
    · rw [if_pos hty] at hf
      rw [if_pos (fun hEq => hty hEq.symm)] at hb
      injection hf with h1
      injection hb with h2
      rw [← h1, ← h2]

/-- C1, amended: with comparator-free options, `equal` is symmetric on
well-formed inputs that contain no Set — whenever both orientations
return booleans they return the same boolean, whatever the traversal
order, cache state evolution, or fast-path setting (for Set inputs the
one-sided O(n²) element search breaks symmetry, `equal_symm_set_cex`;
and when one orientation raises the depth error the other may still
return a boolean, record keys being visited in different orders). -/
theorem equal_symm_agree (h : Heap) (o : EqualOptions) (a b : JSVal)
    (r r' : Bool) (hsf : setFree h = true) (hwf : heapWF h = true)
    (hf : equalJS h a b o = .ok r) (hb : equalJS h b a o = .ok r') :
    r = r' :=
  eqVal_agree h hsf (fun x => nodeAt_keys_nodup h hwf x)
    (fun x e hn => nodeAt_mapkeys_nodup h hwf x e hn)
    (o.maxDepth + 2) a b [] 0 o r r' .nil hf hb

/-- Witness for `equal_symm_agree`: the Set-free record pair
`{a:{x:1}}` / `{a:{y:2}}` compares `.ok false` in both orientations,
and the theorem forces the two booleans to coincide. -/
theorem equal_symm_agree_witness :
    (setFree recPairHeap = true ∧ heapWF recPairHeap = true ∧
      equalJS recPairHeap (.ref 0) (.ref 2) {} = .ok false ∧
      equalJS recPairHeap (.ref 2) (.ref 0) {} = .ok false) ∧
    false = false :=
  ⟨⟨by decide, by decide, rfl, rfl⟩,
    equal_symm_agree recPairHeap {} (.ref 0) (.ref 2) false false
      (by decide) (by decide) rfl rfl⟩

/-! ## The fast serialized path: soundness of serialized-text equality -/

theorem jsonArr_mono (go go' : JSVal → Option Json)
    (hgo : ∀ v j, go v = some j → go' v = some j) :
    ∀ l js, jsonArr go l = some js → jsonArr go' l = some js := by
  intro l
  induction l with
  | nil => intro js hj; simpa [jsonArr] using hj
  | cons v rest ih =>
    intro js hj
    simp only [jsonArr] at hj ⊢
    by_cases hu : v = .prim .undef
    · rw [if_pos hu] at hj ⊢
      cases hrest : jsonArr go rest with
      | none => rw [hrest] at hj; cases hj
      | some js' =>
        rw [hrest] at hj
        rw [ih js' hrest]
        exact hj
    · rw [if_neg hu] at hj ⊢
      cases hgv : go v with
      | none => rw [hgv] at hj; cases hj
      | some jv =>
        rw [hgv] at hj
        rw [hgo v jv hgv]
        cases hrest : jsonArr go rest with
        | none => rw [hrest] at hj; cases hj
        | some js' =>
          rw [hrest] at hj
          rw [ih js' hrest]
          exact hj

theorem jsonFields_mono (go go' : JSVal → Option Json)
    (hgo : ∀ v j, go v = some j → go' v = some j) :
    ∀ l js, jsonFields go l = some js → jsonFields go' l = some js := by
  intro l
  induction l with
  | nil => intro js hj; simpa [jsonFields] using hj
  | cons p rest ih =>
    obtain ⟨k, v⟩ := p
    intro js hj
    simp only [jsonFields] at hj ⊢
    by_cases hu : v = .prim .undef
    · rw [if_pos hu] at hj ⊢
      exact ih js hj
    · rw [if_neg hu] at hj ⊢
      cases hgv : go v with
      | none => rw [hgv] at hj; cases hj
      | some jv =>
        rw [hgv] at hj
        rw [hgo v jv hgv]
        cases hrest : jsonFields go rest with
        | none => rw [hrest] at hj; cases hj
        | some js' =>
          rw [hrest] at hj
          rw [ih js' hrest]
          exact hj

theorem jsonOf_mono : ∀ (f : Nat) (h : Heap) (v : JSVal) (j : Json),
    jsonOf f h v = some j → jsonOf (f + 1) h v = some j := by
  intro f
  induction f with
  | zero => intro h v j hj; simp [jsonOf] at hj
  | succ f ih =>
    intro h v j hj
    cases v with
    | prim p => cases p <;> simpa [jsonOf] using hj
    | ref a =>
      simp only [jsonOf] at hj ⊢
      cases hn : nodeAt h a with
      | obj fields =>
        simp only [hn] at hj
        obtain ⟨js, hjs, rfl⟩ := Option.map_eq_some'.mp hj
        show Option.map Json.obj (jsonFields (jsonOf (f + 1) h) fields) =
          some (Json.obj js)
        rw [jsonFields_mono (jsonOf f h) (jsonOf (f + 1) h)
          (fun v j hv => ih h v j hv) fields js hjs]
        rfl
      | arr l =>
        simp only [hn] at hj
        obtain ⟨js, hjs, rfl⟩ := Option.map_eq_some'.mp hj
        show Option.map Json.arr (jsonArr (jsonOf (f + 1) h) l) =
          some (Json.arr js)
        rw [jsonArr_mono (jsonOf f h) (jsonOf (f + 1) h)
          (fun v j hv => ih h v j hv) l js hjs]
        rfl
      | set l => simp only [hn] at hj; exact hj
      | map e => simp only [hn] at hj; exact hj
      | date ms => simp only [hn] at hj; exact hj
      | weakmap e => simp only [hn] at hj; exact hj
      | weakset e => simp only [hn] at hj; exact hj

theorem jsonBeqArr_eq (go : Json → Json → Bool)
    (hgo : ∀ a b, go a b = true → a = b) :
    ∀ l1 l2, jsonBeqArr go l1 l2 = true → l1 = l2 := by
  intro l1
  induction l1 with
  | nil =>
    intro l2 hb
    cases l2 with
    | nil => rfl
    | cons y ys => simp [jsonBeqArr] at hb
  | cons x xs ih =>
    intro l2 hb
    cases l2 with
    | nil => simp [jsonBeqArr] at hb
    | cons y ys =>
      simp only [jsonBeqArr, Bool.and_eq_true] at hb
      rw [hgo x y hb.1, ih ys hb.2]

theorem jsonBeqObj_eq (go : Json → Json → Bool)
    (hgo : ∀ a b, go a b = true → a = b) :
    ∀ l1 l2, jsonBeqObj go l1 l2 = true → l1 = l2 := by
  intro l1
  induction l1 with
  | nil =>
    intro l2 hb
    cases l2 with
    | nil => rfl
    | cons y ys => simp [jsonBeqObj] at hb
  | cons x xs ih =>
    obtain ⟨k1, j1⟩ := x
    intro l2 hb
    cases l2 with
    | nil => simp [jsonBeqObj] at hb
    | cons y ys =>
      obtain ⟨k2, j2⟩ := y
      simp only [jsonBeqObj, Bool.and_eq_true] at hb
      obtain ⟨⟨hk, hj⟩, hrest⟩ := hb
      rw [eq_of_beq hk, hgo j1 j2 hj, ih ys hrest]

theorem jsonBeq_eq : ∀ (f : Nat) (a b : Json),
    jsonBeq f a b = true → a = b := by
  intro f
  induction f with
  | zero => intro a b hb; simp [jsonBeq] at hb
  | succ f ih =>
    intro a b hb
    cases a <;> cases b <;> simp only [jsonBeq] at hb <;>
      first
        | rfl
        | (rw [eq_of_beq hb])
        | (rw [jsonBeqArr_eq (jsonBeq f) (ih) _ _ hb])
        | (rw [jsonBeqObj_eq (jsonBeq f) (ih) _ _ hb])
        | cases hb

theorem jsonFields_elim (go : JSVal → Option Json) :
    ∀ l js, jsonFields go l = some js →
    ∀ q ∈ js, ∃ v, go v = some q.2 := by
  intro l
  induction l with
  | nil =>
    intro js hj q hq
    simp only [jsonFields, Option.some.injEq] at hj
    subst hj
    simp at hq
  | cons p rest ih =>
    obtain ⟨k, v⟩ := p
    intro js hj q hq
    simp only [jsonFields] at hj
    by_cases hu : v = .prim .undef
    · rw [if_pos hu] at hj
      exact ih js hj q hq
    · rw [if_neg hu] at hj
      cases hgv : go v with
      | none => rw [hgv] at hj; cases hj
      | some jv =>
        rw [hgv] at hj
        cases hrest : jsonFields go rest with
        | none => rw [hrest] at hj; cases hj
        | some js' =>
          rw [hrest] at hj
          injection hj with hj
          subst hj
          rcases List.mem_cons.mp hq with rfl | hq
          · exact ⟨v, hgv⟩
          · exact ih js' hrest q hq

theorem jsonArr_elim (go : JSVal → Option Json) :
    ∀ l js, jsonArr go l = some js →
    ∀ j ∈ js, j = Json.null ∨ ∃ v, go v = some j := by
  intro l
  induction l with
  | nil =>
    intro js hj j hq
    simp only [jsonArr, Option.some.injEq] at hj
    subst hj
    simp at hq
  | cons v rest ih =>
    intro js hj j hq
    simp only [jsonArr] at hj
    by_cases hu : v = .prim .undef
    · rw [if_pos hu] at hj
      cases hrest : jsonArr go rest with
      | none => rw [hrest] at hj; cases hj
      | some js' =>
        rw [hrest] at hj
        injection hj with hj
        subst hj
        rcases List.mem_cons.mp hq with rfl | hq
        · exact Or.inl rfl
        · exact ih js' hrest j hq
    · rw [if_neg hu] at hj
      cases hgv : go v with
      | none => rw [hgv] at hj; cases hj
      | some jv =>
        rw [hgv] at hj
        cases hrest : jsonArr go rest with
        | none => rw [hrest] at hj; cases hj
        | some js' =>
          rw [hrest] at hj
          injection hj with hj
          subst hj
          rcases List.mem_cons.mp hq with rfl | hq
          · exact Or.inr ⟨v, hgv⟩
          · exact ih js' hrest j hq

theorem jsonBeqArr_refl (go : Json → Json → Bool) :
    ∀ l, (∀ j ∈ l, go j j = true) → jsonBeqArr go l l = true := by
  intro l
  induction l with
  | nil => intro _; rfl
  | cons x xs ih =>
    intro hall
    simp only [jsonBeqArr, Bool.and_eq_true]
    exact ⟨hall x (List.mem_cons_self _ _),
      ih (fun j hj => hall j (List.mem_cons_of_mem _ hj))⟩

theorem jsonBeqObj_refl (go : Json → Json → Bool) :
    ∀ l, (∀ q ∈ l, go q.2 q.2 = true) → jsonBeqObj go l l = true := by
  intro l
  induction l with
  | nil => intro _; rfl
  | cons x xs ih =>
    obtain ⟨k, j⟩ := x
    intro hall
    simp only [jsonBeqObj, Bool.and_eq_true]
    refine ⟨⟨?_, hall (k, j) (List.mem_cons_self _ _)⟩,
      ih (fun q hq => hall q (List.mem_cons_of_mem _ hq))⟩
    simp

theorem jsonFields_nodrops (go : JSVal → Option Json) :
    ∀ (l : List (String × JSVal)) (js : List (String × Json)),
    (∀ p ∈ l, p.2 ≠ .prim .undef) →
    jsonFields go l = some js →
    js.map Prod.fst = l.map Prod.fst ∧
    ∀ i (hi : i < l.length) (hi' : i < js.length),
      go (l.get ⟨i, hi⟩).2 = some (js.get ⟨i, hi'⟩).2 := by
  intro l
  induction l with
  | nil =>
    intro js _ hj
    simp only [jsonFields, Option.some.injEq] at hj
    subst hj
    exact ⟨rfl, fun i hi _ => by simp at hi⟩
  | cons p rest ih =>
    obtain ⟨k, v⟩ := p
    intro js hnu hj
    simp only [jsonFields] at hj
    rw [if_neg (hnu (k, v) (List.mem_cons_self _ _))] at hj
    cases hgv : go v with
    | none => rw [hgv] at hj; cases hj
    | some jv =>
      rw [hgv] at hj
      cases hrest : jsonFields go rest with
      | none => rw [hrest] at hj; cases hj
      | some js' =>
        rw [hrest] at hj
        injection hj with hj
        subst hj
        obtain ⟨hkeys, hpt⟩ :=
          ih js' (fun q hq => hnu q (List.mem_cons_of_mem _ hq)) hrest
        refine ⟨by simp [hkeys], ?_⟩
        intro i hi hi'
        cases i with
        | zero => simpa [List.get] using hgv
        | succ i =>
          simpa [List.get] using
            hpt i (Nat.lt_of_succ_lt_succ hi) (Nat.lt_of_succ_lt_succ hi')

theorem jsonArr_spec (go : JSVal → Option Json) :
    ∀ (l : List JSVal) (js : List Json),
    (∀ p ∈ l, p ≠ .prim .undef) →
    jsonArr go l = some js →
    js.length = l.length ∧
    ∀ i (hi : i < l.length) (hi' : i < js.length),
      go (l.get ⟨i, hi⟩) = some (js.get ⟨i, hi'⟩) := by
  intro l
  induction l with
  | nil =>
    intro js _ hj
    simp only [jsonArr, Option.some.injEq] at hj
    subst hj
    exact ⟨rfl, fun i hi _ => by simp at hi⟩
  | cons v rest ih =>
    intro js hnu hj
    simp only [jsonArr] at hj
    rw [if_neg (hnu v (List.mem_cons_self _ _))] at hj
    cases hgv : go v with
    | none => rw [hgv] at hj; cases hj
    | some jv =>
      rw [hgv] at hj
      cases hrest : jsonArr go rest with
      | none => rw [hrest] at hj; cases hj
      | some js' =>
        rw [hrest] at hj
        injection hj with hj
        subst hj
        obtain ⟨hlen, hpt⟩ :=
          ih js' (fun q hq => hnu q (List.mem_cons_of_mem _ hq)) hrest
        refine ⟨by simp [hlen], ?_⟩
        intro i hi hi'
        cases i with
        | zero => simpa [List.get] using hgv
        | succ i =>
          simpa [List.get] using
            hpt i (Nat.lt_of_succ_lt_succ hi) (Nat.lt_of_succ_lt_succ hi')

theorem jsonBeq_refl_faithful : ∀ (f : Nat) (n : Nat) (h : Heap)
    (v : JSVal) (j : Json), jsonFaithful h v n = true →
    jsonOf f h v = some j → jsonBeq f j j = true := by
  intro f
  induction f with
  | zero => intro n h v j _ hj; simp [jsonOf] at hj
  | succ f ih =>
    intro n h v j hfv hj
    cases v with
    | prim p =>
      cases p <;> simp only [jsonOf, Option.some.injEq] at hj <;>
        first
          | (subst hj; simp [jsonBeq])
          | cases hj
    | ref a =>
      cases n with
      | zero => simp [jsonFaithful] at hfv
      | succ n =>
        simp only [jsonOf] at hj
        simp only [jsonFaithful] at hfv
        cases hn : nodeAt h a with
        | obj fields =>
          simp only [hn] at hj hfv
          simp only [List.all_eq_true] at hfv
          obtain ⟨js, hjs, rfl⟩ := Option.map_eq_some'.mp hj
          simp only [jsonBeq]
          refine jsonBeqObj_refl (jsonBeq f) js ?_
          intro q hq
          obtain ⟨keys, hpt⟩ := jsonFields_nodrops (jsonOf f h) fields js
            (fun p hp hu => by
              have := hfv p.2 (List.mem_map_of_mem Prod.snd hp)
              rw [hu] at this
              simp [jsonFaithful] at this) hjs
          obtain ⟨⟨i, hi⟩, rfl⟩ := List.mem_iff_get.mp hq
          have hi' : i < fields.length := by
            have := congrArg List.length keys
            simp at this
            omega
          refine ih n h (fields.get ⟨i, hi'⟩).2 _ ?_ (hpt i hi' hi)
          exact hfv _ (List.mem_map_of_mem Prod.snd (List.get_mem fields i hi'))
        | arr l =>
          simp only [hn] at hj hfv
          simp only [List.all_eq_true] at hfv
          obtain ⟨js, hjs, rfl⟩ := Option.map_eq_some'.mp hj
          simp only [jsonBeq]
          refine jsonBeqArr_refl (jsonBeq f) js ?_
          intro j hjm
          obtain ⟨hlen, hpt⟩ := jsonArr_spec (jsonOf f h) l js
            (fun p hp hu => by
              have := hfv p hp
              rw [hu] at this
              simp [jsonFaithful] at this) hjs
          obtain ⟨⟨i, hi⟩, rfl⟩ := List.mem_iff_get.mp hjm
          have hi' : i < l.length := by omega
          refine ih n h (l.get ⟨i, hi'⟩) _ ?_ (hpt i hi' hi)
          exact hfv _ (List.get_mem l i hi')
        | set l => simp [hn] at hfv
        | map e => simp [hn] at hfv
        | date ms => simp [hn] at hfv
        | weakmap e => simp [hn] at hfv
        | weakset e => simp [hn] at hfv

theorem sizeOf_child_arr (j : Json) (js : List Json) (hm : j ∈ js) :
    sizeOf j < sizeOf (Json.arr js) := by
  have h1 := List.sizeOf_lt_of_mem hm
  simp only [Json.arr.sizeOf_spec]
  omega

theorem sizeOf_child_obj (k : String) (j : Json) (js : List (String × Json))
    (hm : (k, j) ∈ js) : sizeOf j < sizeOf (Json.obj js) := by
  have h1 := List.sizeOf_lt_of_mem hm
  have h2 : sizeOf (k, j) = 1 + sizeOf k + sizeOf j := by simp
  simp only [Json.obj.sizeOf_spec]
  omega

theorem prim_render_inj (L : Nat) (h : Heap) (p q : JSPrim) (j : Json)
    (h1 : jsonOf (L + 1) h (.prim p) = some j)
    (h2 : jsonOf (L + 1) h (.prim q) = some j)
    (hn1 : p ≠ .nan) (hn2 : q ≠ .nan) : p = q := by
  cases p <;> cases q <;>
    simp only [jsonOf, Option.some.injEq] at h1 h2 <;>
    first
      | rfl
      | exact absurd rfl hn1
      | exact absurd rfl hn2
      | ((subst h1; cases h2) <;> rfl)
      | cases h1

theorem ref_render_shape (h : Heap) (b : Nat) (n : Nat) (jv : Json)
    (hf : jsonFaithful h (.ref b) (n + 1) = true)
    (hj : jsonOf (h.length + 1) h (.ref b) = some jv) :
    (∃ js, jv = .obj js) ∨ (∃ js, jv = .arr js) := by
  simp only [jsonOf] at hj
  cases hnb : nodeAt h b with
  | obj fields =>
    simp only [hnb] at hj
    obtain ⟨js, _, hEq⟩ := Option.map_eq_some'.mp hj
    exact Or.inl ⟨js, hEq.symm⟩
  | arr l =>
    simp only [hnb] at hj
    obtain ⟨js, _, hEq⟩ := Option.map_eq_some'.mp hj
    exact Or.inr ⟨js, hEq.symm⟩
  | set l => simp [jsonFaithful, hnb] at hf
  | map e => simp [jsonFaithful, hnb] at hf
  | date ms => simp [jsonFaithful, hnb] at hf
  | weakmap e => simp [jsonFaithful, hnb] at hf
  | weakset e => simp [jsonFaithful, hnb] at hf

theorem prim_render_shape (h : Heap) (p : JSPrim) (jv : Json) (L : Nat)
    (hj : jsonOf (L + 1) h (.prim p) = some jv) :
    jv = .null ∨ (∃ b, jv = .bool b) ∨ (∃ m, jv = .num m) ∨
      (∃ s, jv = .str s) := by
  cases p <;> simp only [jsonOf, Option.some.injEq] at hj <;>
    first
      | (subst hj; simp)
      | cases hj

theorem eqVal_json (h : Heap) (hkw : keysWF h) (o : EqualOptions) :
    ∀ (n fuel : Nat) (v w : JSVal) (cache : Cache) (depth : Nat) (jv : Json),
    jsonFaithful h v n = true → jsonFaithful h w n = true →
    jsonOf (h.length + 1) h v = some jv →
    jsonOf (h.length + 1) h w = some jv →
    (∀ kp ∈ cache, ∃ jk, jsonOf (h.length + 1) h (.ref kp.1) = some jk ∧
      sizeOf jv < sizeOf jk) →
    depth + n ≤ o.maxDepth → n < fuel →
    eqVal fuel h v w cache depth o = .ok true := by
  intro n
  induction n with
  | zero =>
    intro fuel v w cache depth jv hfv hfw hjv hjw hcache hdep hfuel
    obtain ⟨f, rfl⟩ : ∃ f, fuel = f + 1 := ⟨fuel - 1, by omega⟩
    cases v with
    | ref a => simp [jsonFaithful] at hfv
    | prim p =>
      cases w with
      | ref b => simp [jsonFaithful] at hfw
      | prim q =>
        have hn1 : p ≠ .nan := by
          intro hEq
          subst hEq
          simp [jsonFaithful] at hfv
        have hn2 : q ≠ .nan := by
          intro hEq
          subst hEq
          simp [jsonFaithful] at hfw
        have hpq : p = q := prim_render_inj h.length h p q jv hjv hjw hn1 hn2
        subst hpq
        exact eqVal_prim_refl h o p cache f depth (by omega)
  | succ n ih =>
    intro fuel v w cache depth jv hfv hfw hjv hjw hcache hdep hfuel
    obtain ⟨f, rfl⟩ : ∃ f, fuel = f + 1 := ⟨fuel - 1, by omega⟩
    cases v with
    | prim p =>
      cases w with
      | prim q =>
        have hn1 : p ≠ .nan := by
          intro hEq
          subst hEq
          simp [jsonFaithful] at hfv
        have hn2 : q ≠ .nan := by
          intro hEq
          subst hEq
          simp [jsonFaithful] at hfw
        have hpq : p = q := prim_render_inj h.length h p q jv hjv hjw hn1 hn2
        subst hpq
        exact eqVal_prim_refl h o p cache f depth (by omega)
      | ref b =>
        exfalso
        rcases ref_render_shape h b n jv hfw hjw with ⟨js, rfl⟩ | ⟨js, rfl⟩ <;>
          rcases prim_render_shape h p _ h.length hjv with h1 | ⟨x, h1⟩ |
            ⟨x, h1⟩ | ⟨x, h1⟩ <;>
            cases h1
    | ref a =>
      cases w with
      | prim q =>
        exfalso
        rcases ref_render_shape h a n jv hfv hjv with ⟨js, rfl⟩ | ⟨js, rfl⟩ <;>
          rcases prim_render_shape h q _ h.length hjw with h1 | ⟨x, h1⟩ |
            ⟨x, h1⟩ | ⟨x, h1⟩ <;>
            cases h1
      | ref b =>
        by_cases hab : a = b
        · subst hab
          simp only [eqVal]
          rw [if_neg (by omega : ¬ o.maxDepth < depth)]
          simp [sEq]
        · have hca : clook cache a = none := by
            cases hg : clook cache a with
            | none => rfl
            | some p =>
              obtain ⟨jk, hjk, hsz⟩ := hcache (a, p) (clook_mem cache a p hg)
              rw [hjv] at hjk
              injection hjk with hjk
              subst hjk
              exact absurd hsz (by omega)
          have hcb : clook cache b = none := by
            cases hg : clook cache b with
            | none => rfl
            | some p =>
              obtain ⟨jk, hjk, hsz⟩ := hcache (b, p) (clook_mem cache b p hg)
              rw [hjw] at hjk
              injection hjk with hjk
              subst hjk
              exact absurd hsz (by omega)
          cases hna : nodeAt h a with
          | set l => exfalso; simp [jsonFaithful, hna] at hfv
          | map e => exfalso; simp [jsonFaithful, hna] at hfv
          | date ms => exfalso; simp [jsonFaithful, hna] at hfv
          | weakmap e => exfalso; simp [jsonFaithful, hna] at hfv
          | weakset e => exfalso; simp [jsonFaithful, hna] at hfv
          | obj f1 =>
            have hOv : ∃ js, jsonFields (jsonOf h.length h) f1 = some js ∧
                jv = .obj js := by
              have hj := hjv
              simp only [jsonOf, hna] at hj
              obtain ⟨js, hjs, hEq⟩ := Option.map_eq_some'.mp hj
              exact ⟨js, hjs, hEq.symm⟩
            obtain ⟨js, hjs1, hjveq⟩ := hOv
            cases hnb : nodeAt h b with
            | set l => exfalso; simp [jsonFaithful, hnb] at hfw
            | map e => exfalso; simp [jsonFaithful, hnb] at hfw
            | date ms => exfalso; simp [jsonFaithful, hnb] at hfw
            | weakmap e => exfalso; simp [jsonFaithful, hnb] at hfw
            | weakset e => exfalso; simp [jsonFaithful, hnb] at hfw
            | arr l2 =>
              exfalso
              have hj := hjw
              simp only [jsonOf, hnb] at hj
              obtain ⟨js2, _, hEq⟩ := Option.map_eq_some'.mp hj
              rw [hjveq] at hEq
              cases hEq
            | obj f2 =>
              have hOw : jsonFields (jsonOf h.length h) f2 = some js := by
                have hj := hjw
                simp only [jsonOf, hnb] at hj
                obtain ⟨js2, hjs2, hEq⟩ := Option.map_eq_some'.mp hj
                rw [hjveq] at hEq
                injection hEq with hEq
                rw [← hEq]
                exact hjs2
              have hch1 : ∀ c ∈ f1.map Prod.snd, jsonFaithful h c n = true := by
                have hfv' := hfv
                simp only [jsonFaithful, hna, List.all_eq_true] at hfv'
                exact hfv'
              have hch2 : ∀ c ∈ f2.map Prod.snd, jsonFaithful h c n = true := by
                have hfw' := hfw
                simp only [jsonFaithful, hnb, List.all_eq_true] at hfw'
                exact hfw'
              have hnu1 : ∀ p ∈ f1, p.2 ≠ .prim .undef := by
                intro p hp hu
                have := hch1 p.2 (List.mem_map_of_mem Prod.snd hp)
                rw [hu] at this
                simp [jsonFaithful] at this
              have hnu2 : ∀ p ∈ f2, p.2 ≠ .prim .undef := by
                intro p hp hu
                have := hch2 p.2 (List.mem_map_of_mem Prod.snd hp)
                rw [hu] at this
                simp [jsonFaithful] at this
              obtain ⟨hkeys1, hpt1⟩ :=
                jsonFields_nodrops (jsonOf h.length h) f1 js hnu1 hjs1
              obtain ⟨hkeys2, hpt2⟩ :=
                jsonFields_nodrops (jsonOf h.length h) f2 js hnu2 hOw
              have hkeq : f2.map Prod.fst = f1.map Prod.fst :=
                hkeys2.symm.trans hkeys1
              have hflen : f1.length = f2.length := by
                have := congrArg List.length hkeq
                simpa using this.symm
              have hjsl1 : js.length = f1.length := by
                have := congrArg List.length hkeys1
                simpa using this
              rw [eqVal_step f h a b cache depth o (by omega) hab
                (by simp [hna, hnb, tagOfObj]) hca hcb]
              simp only [eqDescend, hna, hnb]
              cases hfj : o.fastJSON with
              | true =>
                rw [if_pos rfl]
                rw [hjv, hjw]
                show Except.ok (jsonBeq (h.length + 1) jv jv) = Except.ok true
                rw [jsonBeq_refl_faithful (h.length + 1) (n + 1) h (.ref a)
                  jv hfv hjv]
              | false =>
                rw [if_neg (by simp)]
                simp only [eqObjBody]
                rw [if_neg (not_ne_iff.mpr hflen)]
                have hnd1 : nodupKeys (f1.map Prod.fst) = true := by
                  have := hkw a
                  rw [hna] at this
                  simpa [keysOf] using this
                refine eqFields_true _ f1 f2 f2 hkeq hnd1 (fun k _ => rfl) ?_
                intro i hi hi'
                have hijs : i < js.length := by omega
                refine ih f _ _ ((a, b) :: (b, a) :: cache) (depth + 1)
                  ((js.get ⟨i, hijs⟩).2)
                  (hch1 _ (List.mem_map_of_mem Prod.snd (List.get_mem f1 i hi)))
                  (hch2 _ (List.mem_map_of_mem Prod.snd (List.get_mem f2 i hi')))
                  (jsonOf_mono h.length h _ _ (hpt1 i hi hijs))
                  (jsonOf_mono h.length h _ _ (hpt2 i hi' hijs))
                  ?_ (by omega) (by omega)
                intro kp hkp
                have hsz : sizeOf (js.get ⟨i, hijs⟩).2 < sizeOf jv := by
                  rw [hjveq]
                  exact sizeOf_child_obj (js.get ⟨i, hijs⟩).1
                    (js.get ⟨i, hijs⟩).2 js
                    (by rw [Prod.mk.eta]; exact List.get_mem js i hijs)
                rcases List.mem_cons.mp hkp with rfl | hkp
                · exact ⟨jv, hjv, hsz⟩
                rcases List.mem_cons.mp hkp with rfl | hkp
                · exact ⟨jv, hjw, hsz⟩
                · obtain ⟨jk, hjk, hszk⟩ := hcache kp hkp
                  exact ⟨jk, hjk, lt_trans hsz hszk⟩
          | arr l1 =>
            have hOv : ∃ js, jsonArr (jsonOf h.length h) l1 = some js ∧
                jv = .arr js := by
              have hj := hjv
              simp only [jsonOf, hna] at hj
              obtain ⟨js, hjs, hEq⟩ := Option.map_eq_some'.mp hj
              exact ⟨js, hjs, hEq.symm⟩
            obtain ⟨js, hjs1, hjveq⟩ := hOv
            cases hnb : nodeAt h b with
            | set l => exfalso; simp [jsonFaithful, hnb] at hfw
            | map e => exfalso; simp [jsonFaithful, hnb] at hfw
            | date ms => exfalso; simp [jsonFaithful, hnb] at hfw
            | weakmap e => exfalso; simp [jsonFaithful, hnb] at hfw
            | weakset e => exfalso; simp [jsonFaithful, hnb] at hfw
            | obj f2 =>
              exfalso
              have hj := hjw
              simp only [jsonOf, hnb] at hj
              obtain ⟨js2, _, hEq⟩ := Option.map_eq_some'.mp hj
              rw [hjveq] at hEq
              cases hEq
            | arr l2 =>
              have hOw : jsonArr (jsonOf h.length h) l2 = some js := by
                have hj := hjw
                simp only [jsonOf, hnb] at hj
                obtain ⟨js2, hjs2, hEq⟩ := Option.map_eq_some'.mp hj
                rw [hjveq] at hEq
                injection hEq with hEq
                rw [← hEq]
                exact hjs2
              have hch1 : ∀ c ∈ l1, jsonFaithful h c n = true := by
                have hfv' := hfv
                simp only [jsonFaithful, hna, List.all_eq_true] at hfv'
                exact hfv'
              have hch2 : ∀ c ∈ l2, jsonFaithful h c n = true := by
                have hfw' := hfw
                simp only [jsonFaithful, hnb, List.all_eq_true] at hfw'
                exact hfw'
              have hnu1 : ∀ p ∈ l1, p ≠ .prim .undef := by
                intro p hp hu
                have := hch1 p hp
                rw [hu] at this
                simp [jsonFaithful] at this
              have hnu2 : ∀ p ∈ l2, p ≠ .prim .undef := by
                intro p hp hu
                have := hch2 p hp
                rw [hu] at this
                simp [jsonFaithful] at this
              obtain ⟨hlen1, hpt1⟩ :=
                jsonArr_spec (jsonOf h.length h) l1 js hnu1 hjs1
              obtain ⟨hlen2, hpt2⟩ :=
                jsonArr_spec (jsonOf h.length h) l2 js hnu2 hOw
              have hll : l1.length = l2.length := by omega
              rw [eqVal_step f h a b cache depth o (by omega) hab
                (by simp [hna, hnb, tagOfObj]) hca hcb]
              simp only [eqDescend, hna, hnb]
              rw [if_neg (not_ne_iff.mpr hll)]
              refine eqList_true _ l1 l2 hll ?_
              intro i hi hi'
              have hijs : i < js.length := by omega
              refine ih f _ _ ((a, b) :: (b, a) :: cache) (depth + 1)
                (js.get ⟨i, hijs⟩)
                (hch1 _ (List.get_mem l1 i hi))
                (hch2 _ (List.get_mem l2 i hi'))
                (jsonOf_mono h.length h _ _ (hpt1 i hi hijs))
                (jsonOf_mono h.length h _ _ (hpt2 i hi' hijs))
                ?_ (by omega) (by omega)
              intro kp hkp
              have hsz : sizeOf (js.get ⟨i, hijs⟩) < sizeOf jv := by
                rw [hjveq]
                exact sizeOf_child_arr (js.get ⟨i, hijs⟩) js
                  (List.get_mem js i hijs)
              rcases List.mem_cons.mp hkp with rfl | hkp
              · exact ⟨jv, hjv, hsz⟩
              rcases List.mem_cons.mp hkp with rfl | hkp
              · exact ⟨jv, hjw, hsz⟩
              · obtain ⟨jk, hjk, hszk⟩ := hcache kp hkp
                exact ⟨jk, hjk, lt_trans hsz hszk⟩

/-- C3, amended: the fast serialized path is sound but not a pure
optimization.  Soundness: on a well-formed heap, whenever two
JSON-faithful values serialize successfully and their serialized forms
compare equal — exactly the test the fast path performs — `equal`
returns true both with the fast path enabled (where that comparison is
the branch taken) and with it disabled (the structural key-by-key
comparison agrees), for every comparator-free options record of
sufficient depth.  The converse fails: structurally equal records can
serialize differently (key order), so enabling the option can change
the result from true to false (`equal_fastjson_cex`). -/
theorem equal_fastjson_sound (h : Heap) (hwf : heapWF h = true)
    (v w : JSVal) (n : Nat) (ja jb : Json)
    (hfv : jsonFaithful h v n = true) (hfw : jsonFaithful h w n = true)
    (hjv : jsonOf (h.length + 1) h v = some ja)
    (hjw : jsonOf (h.length + 1) h w = some jb)
    (hbeq : jsonBeq (h.length + 1) ja jb = true) :
    ∀ o : EqualOptions, n ≤ o.maxDepth → equalJS h v w o = .ok true := by
  have hEq : ja = jb := jsonBeq_eq (h.length + 1) ja jb hbeq
  subst hEq
  intro o hmd
  show eqVal (o.maxDepth + 2) h v w [] 0 o = .ok true
  exact eqVal_json h (fun x => nodeAt_keys_nodup h hwf x) o n (o.maxDepth + 2)
    v w [] 0 ja hfv hfw hjv hjw (by intro kp hkp; simp at hkp)
    (by omega) (by omega)

/-- Witness for `equal_fastjson_sound`: the two distinct arrays `[1]`
of `deepDemoHeap` serialize to the same text, and `equal` returns true
on them both with `fastJSON` enabled and with it disabled. -/
theorem equal_fastjson_sound_witness :
    (heapWF deepDemoHeap = true ∧
      jsonFaithful deepDemoHeap (.ref 0) 1 = true ∧
      jsonOf 3 deepDemoHeap (.ref 0) = some (.arr [.num 1]) ∧
      jsonOf 3 deepDemoHeap (.ref 1) = some (.arr [.num 1]) ∧
      jsonBeq 3 (.arr [.num 1]) (.arr [.num 1]) = true) ∧
    equalJS deepDemoHeap (.ref 0) (.ref 1) { fastJSON := true } = .ok true ∧
    equalJS deepDemoHeap (.ref 0) (.ref 1) {} = .ok true :=
  ⟨⟨by decide, by decide, rfl, rfl, rfl⟩,
    equal_fastjson_sound deepDemoHeap (by decide) (.ref 0) (.ref 1) 1
      (.arr [.num 1]) (.arr [.num 1]) (by decide) (by decide) rfl rfl rfl
      { fastJSON := true } (by decide),
    equal_fastjson_sound deepDemoHeap (by decide) (.ref 0) (.ref 1) 1
      (.arr [.num 1]) (.arr [.num 1]) (by decide) (by decide) rfl rfl rfl
      {} (by decide)⟩

/-- Counterexample refuting C4 as originally stated: on a heap holding a
Map with an object key, the deep clone succeeds but is NOT `equal` to
the original — `clone` deep-clones the Map's keys, while `_compareMaps`
looks keys up by identity (`b.has(key)`), so the freshly cloned key is
never found.  The input is otherwise admissible (well-formed, closed,
height-bounded); only the `mapFree` hypothesis of the corrected theorem
excludes it. -/
theorem clone_map_cex :
    heapWF mapPairHeap = true ∧
    valClosed mapPairHeap.length (.ref 1) = true ∧
    heightLeB mapPairHeap (.ref 1) 2 = true ∧
    mapFree mapPairHeap = false ∧
    cloneF 3 mapPairHeap (.ref 1) true =
      some ([.obj [], .map [(.ref 0, .prim (.num 1))],
             .obj [], .map [(.ref 2, .prim (.num 1))]], .ref 3) ∧
    equalJS [.obj [], .map [(.ref 0, .prim (.num 1))],
             .obj [], .map [(.ref 2, .prim (.num 1))]]
      (.ref 1) (.ref 3) {} = .ok false :=
  ⟨by decide, by decide, by decide, by decide, rfl, rfl⟩

/-- Counterexample refuting C6 as originally stated: with `deep = true`,
`softMerge({k: new Date(1)}, {k: new Date(2)})` recurses on the two
Dates — the code tests `isObject`, which is true for any non-array
object, not only for plain records — and binds `k` to a FRESH EMPTY
record (address 4), not to the override's Date at address 1; so "the
override's value wins when both values are not records" fails. -/
theorem softMerge_isobject_cex :
    ∃ h', smF 2 softDateHeap 2 3 true = some (h', 5) ∧
      getKey (fieldsOf (nodeAt h' 5)) "k" = some (.ref 4) ∧
      nodeAt h' 4 = .obj [] ∧
      getKey (fieldsOf (nodeAt softDateHeap 3)) "k" = some (.ref 1) ∧
      nodeAt softDateHeap 1 = .date 2 :=
  ⟨_, rfl, rfl, rfl, rfl, rfl⟩

/-- Counterexample refuting C9 as originally stated: merging
`b = {x: {y: {n: 1}}, y: {n: 2}}` into the self-referential accumulator
`a = {x: a, y: 5}` mutates node 3 (`b`'s nested record `{n: 1}`, turned
into `{n: 2}`), and node 3 is NOT reachable from the accumulator in the
initial heap — only from `b`.  So `deepMerge` does mutate values that
were reachable only from a non-first argument: `b.x.y` gets linked into
the accumulator by the inner merge and the outer key `y` then merges
`{n: 2}` into it.  Hence the corrected frame, which bounds mutation by
reachability from either record. -/
theorem deepMerge_reach_cex :
    (∃ h', dm2 2 dmCexHeap 0 1 = some h' ∧
      nodeAt h' 3 = .obj [("n", .prim (.num 2))]) ∧
    nodeAt dmCexHeap 3 = .obj [("n", .prim (.num 1))] ∧
    ¬ Reaches dmCexHeap (.ref 0) 3 ∧
    Reaches dmCexHeap (.ref 1) 3 := by
  refine ⟨⟨_, rfl, rfl⟩, rfl, ?_, ?_⟩
  · intro hr
    have key : ∀ v t, Reaches dmCexHeap v t →
        (v = .ref 0 ∨ v = .prim (.num 5)) → t = 0 := by
      intro v t hrv
      induction hrv with
      | here a =>
        rintro (hEq | hEq)
        · injection hEq with h0
        · exact JSVal.noConfusion hEq
      | step a c t hcm hrc ih =>
        rintro (hEq | hEq)
        · injection hEq with ha
          subst ha
          have hch : childVals (nodeAt dmCexHeap 0) =
              [.ref 0, .prim (.num 5)] := rfl
          rw [hch] at hcm
          simp at hcm
          exact ih hcm
        · exact JSVal.noConfusion hEq
    have h30 := key (.ref 0) 3 hr (Or.inl rfl)
    exact absurd h30 (by decide)
  · exact Reaches.step 1 (.ref 2) 3 (by decide)
      (Reaches.step 2 (.ref 3) 3 (by decide) (Reaches.here 3))

end JsUtils
